import Mathlib

/-!
# processx connections: buffered reads of characters and lines

A shallow embedding of `src/processx-connection.c` (the non-Windows branch of
every `#ifdef _WIN32`).  A connection is the C struct `processx_connection_t`
with its two buffers held as lists of bytes: `buffer` is the raw staging
buffer (`buffer_data_size` is its length) and `utf8` is the decoded buffer
(`utf8_data_size` is its length).  Pointer arithmetic becomes offsets into
these lists, `memmove` compaction becomes `List.drop`.

What the C code obtains from outside the repository is a parameter:

* the operating system: `Source`, the results of the successive `read(2)`
  calls on the handle;
* the converter `Riconv_open` / `Riconv` of the host runtime, the
  floating-point product in `processx__connection_realloc`, and the one byte
  of foreign memory that sits just before the decoded buffer: `Env`.

An R `error()` (a non-local exit) is the `Except.error` result.  Sizes are
natural numbers; the `int` casts applied to lengths are value preserving for
buffers shorter than 2^31 bytes and are not modelled.
-/

namespace Processx

/-! ## Data model -/

/-- Ways in which a call ends without returning a value. -/
inductive Fault where
  /-- `error("Invalid (uninitialized or closed?) connection object")` -/
  | invalid_connection
  /-- `error("Invalid UTF-8 string, internal error")` -/
  | invalid_utf8
  /-- `error("Cannot read from processx connection: ...")` with the errno -/
  | read_failed (errno : Nat)
  /-- `error("Cannot write connection: ...")` with the errno -/
  | write_failed (errno : Nat)
  /-- `PROCESSX_ERROR(...)` (Windows) with the code of `GetLastError()` -/
  | system_error (code : Nat)
  /-- `error("Cannot poll pollable: not ready and no fd")` -/
  | cannot_poll
  /-- `error("Processx poll error: ...")` -/
  | poll_failed
  /-- `error("Buffer size must be at least 4 bytes, ...")` -/
  | buffer_too_small
  /-- the host runtime rejects a string of negative length (`mkCharLenCE`) -/
  | negative_length
  /-- the host runtime rejects a string with an embedded NUL byte
  (`mkCharLenCE`: `error("embedded nul in string: ...")`) -/
  | embedded_nul
  /-- a copy whose byte count does not fit the memory it is applied to -/
  | bad_memory_access
  /-- the bound on the number of loop iterations of the model was reached -/
  | out_of_fuel
  deriving DecidableEq, Repr

/-- The C enum `processx_file_type_t`. -/
inductive FileType where
  | FILE
  | ASYNCFILE
  | PIPE
  | ASYNCPIPE
  deriving DecidableEq, Repr

/-- The C struct `processx_connection_t` (`processx-connection.h`, unix layout:
the handle is a file descriptor).  The pointers `buffer` and `utf8` together
with their `_data_size` fields are the two byte lists; a null `buffer`
pointer is the state `buffer_allocated_size = 0`, which is the only state in
which the C code holds a null pointer. -/
structure Connection where
  type : FileType
  is_closed_ : Bool
  is_eof_ : Bool
  is_eof_raw_ : Bool
  close_on_destroy : Bool
  encoding : Option String
  iconv_ctx : Int
  handle : Int
  buffer : List Nat
  buffer_allocated_size : Nat
  utf8 : List Nat
  utf8_allocated_size : Nat
  poll_idx : Int
  deriving DecidableEq, Repr

/-- Field `buffer_data_size` of the C struct. -/
def Connection.buffer_data_size (c : Connection) : Nat := c.buffer.length

/-- Field `utf8_data_size` of the C struct. -/
def Connection.utf8_data_size (c : Connection) : Nat := c.utf8.length

/-- How one call of the converter ended (`errno` after `Riconv`). -/
inductive IconvStatus where
  /-- the call did not return `(size_t) -1` -/
  | converted
  /-- output buffer full -/
  | E2BIG
  /-- invalid input sequence -/
  | EILSEQ
  /-- incomplete multi-byte sequence at the end of the input -/
  | EINVAL
  /-- any other errno -/
  | failed
  deriving DecidableEq, Repr

/-- Effect of one `Riconv` call: how far `inbuf` advanced, the bytes written
at `outbuf`, and the status. -/
structure IconvResult where
  consumed : Nat
  produced : List Nat
  status : IconvStatus
  deriving DecidableEq, Repr

/-- What the code takes from outside the repository.

* `Riconv_open enc` is the descriptor returned by `Riconv_open("UTF-8", enc)`.
* `Riconv ctx input outbytesleft` is one conversion call on `input` with room
  for `outbytesleft` bytes of output.
* `scale12 n` is the value of the C expression `(size_t) (n * 1.2)`.
* `utf8_before` is the byte stored at address `utf8 - 1`, outside the decoded
  buffer; C yields it for `utf8[i - 1]` when `i = 0`. -/
structure Env where
  Riconv_open : String → Int
  Riconv : Int → List Nat → Nat → IconvResult
  scale12 : Nat → Nat
  utf8_before : Nat

/-- Result of one `read(2)` call: `data bs` stores the bytes `bs` and returns
their number (so `data []` is the return value 0, end of file); `fail e`
returns -1 with `errno = e`. -/
inductive OSRead where
  | data (bs : List Nat)
  | fail (errno : Nat)
  deriving DecidableEq, Repr

/-- The far end of the handle: `script` lists what the next `read(2)` calls
find, one entry per call, and `rest` is what every call finds once the
script is used up. -/
structure Source where
  script : List OSRead
  rest : OSRead
  deriving DecidableEq, Repr

/-- Value of `errno` for a read that would block. -/
def EAGAIN : Nat := 11

/-- Value of `errno` for an operation that would block; on Linux `errno.h` gives
it the number of `EAGAIN`. -/
def EWOULDBLOCK : Nat := 11

/-- Size of both buffers after `processx__connection_alloc`. -/
def BUFFER_SIZE : Nat := 64 * 1024

/-- Number of values of a `size_t`. -/
def SIZE_MOD : Nat := 2 ^ 64

/-- Subtraction `a - b` of two `size_t` values (both below `SIZE_MOD`): the
difference wraps around when `b` is the larger one. -/
def size_sub (a b : Nat) : Nat := if b ≤ a then a - b else SIZE_MOD - (b - a)

/-- One call `read(handle, ptr, count)`: at most `count` of the bytes on offer
are taken; what is not taken stays at the head of the script. -/
def Source.read (s : Source) (count : Nat) : OSRead × Source :=
  match s.script with
  | [] =>
    match s.rest with
    | .data bs => (.data (bs.take count), s)
    | .fail e => (.fail e, s)
  | .data bs :: tl =>
    if bs.length ≤ count then (.data bs, { s with script := tl })
    else (.data (bs.take count), { s with script := .data (bs.drop count) :: tl })
  | .fail e :: tl => (.fail e, { s with script := tl })

/-- Check made by the macro `PROCESSX_CHECK_VALID_CONN` (unix): the handle
must not be negative. -/
def PROCESSX_CHECK_VALID_CONN (c : Connection) : Except Fault Unit :=
  if c.handle < 0 then .error .invalid_connection else .ok ()

/-- The byte the C expression `ccon->utf8[i]` yields: inside the data it is
the buffer byte, below the buffer it is the foreign byte `utf8_before`. -/
def utf8_at (env : Env) (c : Connection) (i : Int) : Nat :=
  if i < 0 then env.utf8_before else c.utf8.getD i.toNat 0

/-! ## Decoding: raw buffer to decoded buffer -/

/-- The `while (!moved)` loop of `processx__connection_to_utf8`.  Arguments:
iteration bound, the input not yet consumed (`inbuf`, `inbytesleft`), the room
left (`outbytesleft`), the bytes produced so far and whether the warning was
raised.  Result: the input left, the bytes produced, the warning flag. -/
def to_utf8_loop (env : Env) (ctx : Int) (eof_raw : Bool) :
    Nat → List Nat → Nat → List Nat → Bool → List Nat × List Nat × Bool
  | 0, inbuf, _, out, warned => (inbuf, out, warned)
  | fuel + 1, inbuf, outbytesleft, out, warned =>
    let r := env.Riconv ctx inbuf outbytesleft
    let inbuf1 := inbuf.drop r.consumed
    let out1 := out ++ r.produced
    let outleft1 := outbytesleft - r.produced.length
    match r.status with
    | .converted => (inbuf1, out1, warned)
    | .E2BIG => (inbuf1, out1, warned)
    | .EILSEQ =>
      let inbuf2 := inbuf1.drop 1
      if inbuf2.length > 0 then to_utf8_loop env ctx eof_raw fuel inbuf2 outleft1 out1 warned
      else (inbuf2, out1, warned)
    | .EINVAL =>
      if eof_raw then ([], out1, true) else (inbuf1, out1, warned)
    | .failed => (inbuf1, out1, warned)

/-- C function `processx__connection_to_utf8`: one decode pass.  Returns the
new state, `outdone` and whether the end-of-stream warning was raised. -/
def processx__connection_to_utf8 (env : Env) (c : Connection) : Connection × Nat × Bool :=
  let inbytesleft := c.buffer.length
  let outbytesleft := size_sub c.utf8_allocated_size c.utf8.length
  let c := if c.iconv_ctx = 0 then
      { c with iconv_ctx := env.Riconv_open (c.encoding.getD "") } else c
  if inbytesleft = 0 ∨ outbytesleft = 0 then (c, 0, false)
  else
    let r := to_utf8_loop env c.iconv_ctx c.is_eof_raw_ inbytesleft c.buffer outbytesleft [] false
    let indone := c.buffer.length - r.1.length
    let outdone := r.2.1.length
    if outdone > 0 ∨ indone > 0 then
      ({ c with buffer := r.1, utf8 := c.utf8 ++ r.2.1 }, outdone, r.2.2)
    else (c, outdone, r.2.2)

/-! ## Reading from the handle -/

/-- C function `processx__connection_alloc`. -/
def processx__connection_alloc (c : Connection) : Connection :=
  { c with buffer := [], buffer_allocated_size := BUFFER_SIZE,
           utf8 := [], utf8_allocated_size := BUFFER_SIZE }

/-- C function `processx__connection_realloc`. -/
def processx__connection_realloc (env : Env) (c : Connection) : Connection :=
  let new_size := env.scale12 c.utf8_allocated_size
  let new_size := if new_size = c.utf8_allocated_size then 2 * new_size else new_size
  { c with utf8_allocated_size := new_size }

/-- C function `processx__connection_read` (unix).  Returns the new state,
what is left of the source and the number of decoded bytes added. -/
def processx__connection_read (env : Env) (c : Connection) (src : Source) :
    Except Fault (Connection × Source × Nat) :=
  if c.is_eof_raw_ ∧ c.buffer.length = 0 then
    .ok (if c.utf8.length = 0 then { c with is_eof_ := true } else c, src, 0)
  else
    let c := if c.buffer_allocated_size = 0 then processx__connection_alloc c else c
    let todo : Int := (c.buffer_allocated_size : Int) - (c.buffer.length : Int)
    if todo = 0 then
      let r := processx__connection_to_utf8 env c
      .ok (r.1, src, r.2.1)
    else
      let rd := src.read (todo % (SIZE_MOD : Int)).toNat
      match rd.1 with
      | .fail e =>
        if e = EAGAIN then
          if c.buffer.length > 0 then
            let r := processx__connection_to_utf8 env c
            .ok (r.1, rd.2, r.2.1)
          else .ok (c, rd.2, 0)
        else .error (.read_failed e)
      | .data bs =>
        let c := if bs.length = 0 then
            { c with is_eof_raw_ := true,
                     is_eof_ := if c.utf8.length = 0 ∧ c.buffer.length = 0 then true
                                else c.is_eof_ }
          else c
        let c := { c with buffer := c.buffer ++ bs }
        if c.buffer.length > 0 then
          let r := processx__connection_to_utf8 env c
          .ok (r.1, rd.2, r.2.1)
        else .ok (c, rd.2, 0)

/-! ## Looking for characters -/

/-- Table `processx__utf8_length`, indexed by `c & 0x3f` for a lead byte `c`. -/
def processx__utf8_length : List Nat :=
  [2,2,2,2,2,2,2,2,2,2,2,2,2,2,2,2,
   2,2,2,2,2,2,2,2,2,2,2,2,2,2,2,2,
   3,3,3,3,3,3,3,3,3,3,3,3,3,3,3,3,
   4,4,4,4,4,4,4,4,5,5,5,5,6,6,6,6]

/-- The `while` loop of `processx__connection_find_utf8_chars`.  Arguments:
iteration bound, the bytes from `ptr` to `end` (their number is the C variable
`length`), `maxchars`, `maxbytes`, `*chars`, `*bytes`. -/
def find_utf8_chars_loop :
    Nat → List Nat → Int → Int → Nat → Nat → Except Fault (Nat × Nat)
  | 0, _, _, _, _, _ => .error .out_of_fuel
  | fuel + 1, rest, maxchars, maxbytes, chars, bytes =>
    if maxchars ≠ 0 ∧ maxbytes ≠ 0 ∧ rest ≠ [] then
      let c := rest.headD 0
      if c < 128 then
        find_utf8_chars_loop fuel (rest.drop 1)
          (if maxchars > 0 then maxchars - 1 else maxchars)
          (if maxbytes > 0 then maxbytes - 1 else maxbytes) (chars + 1) (bytes + 1)
      else if c < 0xc0 then .error .invalid_utf8
      else if c ≥ 0xfe then .error .invalid_utf8
      else
        let clen := processx__utf8_length.getD (c % 64) 0
        if rest.length < clen then .error .invalid_utf8
        else if maxbytes > 0 ∧ (clen : Int) > maxbytes then .ok (chars, bytes)
        else
          find_utf8_chars_loop fuel (rest.drop clen)
            (if maxchars > 0 then maxchars - 1 else maxchars)
            (if maxbytes > 0 then maxbytes - (clen : Int) else maxbytes)
            (chars + 1) (bytes + clen)
    else .ok (chars, bytes)

/-- C function `processx__connection_find_utf8_chars`: the pair
`(*chars, *bytes)`, or the fatal error.  It reads `ccon->utf8` and writes
nothing but its two results.  Every iteration of the loop moves `ptr` forward,
so `utf8_data_size + 1` iterations are enough. -/
def processx__connection_find_utf8_chars (c : Connection) (maxchars maxbytes : Int) :
    Except Fault (Nat × Nat) :=
  find_utf8_chars_loop (c.utf8.length + 1) c.utf8 maxchars maxbytes 0 0

/-- C function `processx__connection_find_chars`.  The result holds the state
after the availability step, what is left of the source, `*chars` (`none`
where the C code leaves it unset) and `*bytes`. -/
def processx__connection_find_chars (env : Env) (c : Connection) (src : Source)
    (maxchars maxbytes : Int) : Except Fault (Connection × Source × Option Nat × Nat) := do
  PROCESSX_CHECK_VALID_CONN c
  let should_read_more := !c.is_eof_ && c.utf8.length == 0
  let (c, src) ←
    if should_read_more then
      (processx__connection_read env c src).map (fun r => (r.1, r.2.1))
    else pure (c, src)
  if c.utf8.length = 0 ∨ maxchars = 0 then pure (c, src, none, 0)
  else
    let r ← processx__connection_find_utf8_chars c maxchars maxbytes
    pure (c, src, some r.1, r.2)

/-- Host runtime function `mkCharLenCE(ptr, len, CE_UTF8)` applied to
`ptr = utf8 + start`: the string made of the `len` bytes found there.  A
negative `len` is refused by the runtime; bytes outside the decoded data are
not available; and the runtime raises an error when one of the `len` bytes is
0, as a string of the runtime cannot hold a NUL byte. -/
def mkCharLenCE (utf8 : List Nat) (start len : Int) : Except Fault (List Nat) :=
  if len < 0 then .error .negative_length
  else if start < 0 ∨ (utf8.length : Int) < start + len then .error .bad_memory_access
  else if 0 ∈ (utf8.drop start.toNat).take len.toNat then .error .embedded_nul
  else .ok ((utf8.drop start.toNat).take len.toNat)

/-- The compaction `utf8_data_size -= k; memmove(utf8, utf8 + k, utf8_data_size)`. -/
def utf8_drop (c : Connection) (k : Int) : Except Fault Connection :=
  if k < 0 ∨ (c.utf8.length : Int) < k then .error .bad_memory_access
  else .ok { c with utf8 := c.utf8.drop k.toNat }

/-- C function `processx_connection_read_chars`: the string returned to R, the
new state and what is left of the source. -/
def processx_connection_read_chars (env : Env) (c : Connection) (src : Source)
    (nchars : Int) : Except Fault (List Nat × Connection × Source) := do
  let r ← processx__connection_find_chars env c src nchars (-1)
  let result ← mkCharLenCE r.1.utf8 0 r.2.2.2
  let c ← utf8_drop r.1 r.2.2.2
  pure (result, c, r.2.1)

/-! ## Looking for lines -/

/-- The inner loop `while (ptr < end && *ptr != '\n') ptr++`, on offsets into
the decoded buffer; the first argument bounds the number of iterations. -/
def scan_newline (utf8 : List Nat) : Nat → Nat → Nat → Nat
  | 0, ptr, _ => ptr
  | fuel + 1, ptr, e =>
    if ptr < e ∧ utf8.getD ptr 0 ≠ 10 then scan_newline utf8 fuel (ptr + 1) e else ptr

/-- C function `processx__find_newline`: offset of the first `'\n'` at or after
`start`, or -1. -/
def processx__find_newline (c : Connection) (start : Nat) : Int :=
  if c.utf8.length = 0 then -1
  else
    let ret := scan_newline c.utf8 (c.utf8.length - start) start c.utf8.length
    if ret < c.utf8.length then (ret : Int) else -1

/-- The `while (1)` loop of `processx__connection_read_until_newline`, with
`ptr` and `end` as offsets from `ccon->utf8`.  The first argument bounds the
number of iterations. -/
def read_until_newline_loop (env : Env) :
    Nat → Connection → Source → Nat → Nat → Except Fault (Connection × Source × Int)
  | 0, _, _, _, _ => .error .out_of_fuel
  | fuel + 1, c, src, ptr, e =>
    let ptr := scan_newline c.utf8 (e - ptr) ptr e
    if ptr < e then .ok (c, src, (ptr : Int))
    else if c.is_eof_ then .ok (c, src, -1)
    else
      let c := if c.utf8.length ≥ size_sub c.utf8_allocated_size 8 then
          processx__connection_realloc env c else c
      match processx__connection_read env c src with
      | .error f => .error f
      | .ok r =>
        if r.2.2 = 0 then .ok (r.1, r.2.1, -1)
        else read_until_newline_loop env fuel r.1 r.2.1 ptr e

/-- C function `processx__connection_read_until_newline`: the new state, what
is left of the source, and the offset of a newline or -1. -/
def processx__connection_read_until_newline (env : Env) (fuel : Nat) (c : Connection)
    (src : Source) : Except Fault (Connection × Source × Int) := do
  let (c, src) ←
    if c.utf8.length = 0 then
      (processx__connection_read env c src).map (fun r => (r.1, r.2.1))
    else pure (c, src)
  if c.utf8.length = 0 then pure (c, src, -1)
  else read_until_newline_loop env fuel c src 0 c.utf8.length

/-- The test shared by `processx__connection_find_lines` and
`processx_c_connection_read_line`: the raw file is at its end, the raw buffer
is empty, and the decoded buffer is not empty and does not end in `'\n'`. -/
def eof_tail (c : Connection) : Bool :=
  c.is_eof_raw_ && c.utf8.length != 0 && c.buffer.length == 0 &&
    c.utf8.getD (c.utf8.length - 1) 0 != 10

/-- The counting loop of `processx__connection_find_lines`:
`while (newline != -1 && *lines < maxlines)`.  Result: `*lines`. -/
def find_lines_loop (c : Connection) (maxlines : Int) : Nat → Int → Nat → Nat
  | 0, _, lines => lines
  | fuel + 1, newline, lines =>
    if newline ≠ -1 ∧ (lines : Int) < maxlines then
      find_lines_loop c maxlines fuel (processx__find_newline c (newline + 1).toNat) (lines + 1)
    else lines

/-- C function `processx__connection_find_lines`, called with `*lines = lines`.
Result: the new state, what is left of the source, `*lines` and `*eof`.  Every
iteration of the counting loop moves to a later newline, so
`utf8_data_size + 1` iterations are enough. -/
def processx__connection_find_lines (env : Env) (fuel : Nat) (c : Connection) (src : Source)
    (maxlines : Int) (lines : Nat) : Except Fault (Connection × Source × Nat × Bool) := do
  let maxlines := if maxlines < 0 then 1000 else maxlines
  PROCESSX_CHECK_VALID_CONN c
  let r ← processx__connection_read_until_newline env fuel c src
  let c := r.1
  let lines := find_lines_loop c maxlines (c.utf8.length + 1) r.2.2 lines
  pure (c, r.2.1, lines, eof_tail c)

/-- The `for (l = 0, newline = -1; l < lines_read; l++)` loop of
`processx_connection_read_lines`.  Arguments: the number of iterations left,
`newline`, `eol`, and the strings stored so far.  Result: the strings,
`newline` and `eol`. -/
def read_lines_loop (env : Env) (c : Connection) :
    Nat → Int → Int → List (List Nat) → Except Fault (List (List Nat) × Int × Int)
  | 0, newline, eol, acc => .ok (acc, newline, eol)
  | todo + 1, newline, _, acc =>
    let eol := processx__find_newline c (newline + 1).toNat
    let slashr : Int := if utf8_at env c (eol - 1) = 13 then 1 else 0
    match mkCharLenCE c.utf8 (newline + 1) (eol - newline - 1 - slashr) with
    | .error f => .error f
    | .ok s => read_lines_loop env c todo eol eol (acc ++ [s])

/-- C function `processx_connection_read_lines`: the character vector returned
to R, the new state and what is left of the source. -/
def processx_connection_read_lines (env : Env) (fuel : Nat) (c : Connection) (src : Source)
    (nlines : Int) : Except Fault (List (List Nat) × Connection × Source) := do
  let f ← processx__connection_find_lines env fuel c src nlines 0
  let c := f.1
  let lines_read := f.2.2.1
  let eof := f.2.2.2
  let r ← read_lines_loop env c lines_read (-1) (-1) []
  let newline := r.2.1
  let (result, eol) ←
    if eof then do
      let eol : Int := (c.utf8.length : Int) - 1
      let s ← mkCharLenCE c.utf8 (newline + 1) (eol - newline)
      pure (r.1 ++ [s], eol)
    else pure (r.1, r.2.2)
  let c ← if eol ≥ 0 then utf8_drop c (eol + 1) else pure c
  pure (result, c, f.2.1)

/-! ## Reading one line through the C interface -/

/-- The caller's line buffer: `*linep` (`none` is the null pointer, otherwise
the bytes of the allocation) and `*linecapp`. -/
structure LineBuf where
  linep : Option (List Nat)
  linecapp : Nat
  deriving DecidableEq, Repr

/-- Memory obtained from `malloc(n)`; its contents are unspecified and are
taken to be zero bytes. -/
def malloc (n : Nat) : List Nat := List.replicate n 0

/-- Memory after `realloc(p, n)`: the old contents, cut or extended to `n` bytes. -/
def realloc (p : List Nat) (n : Nat) : List Nat := p.take n ++ malloc (n - p.length)

/-- The buffer `dst` after `memcpy(dst, src, n)`. -/
def memcpy (dst src : List Nat) (n : Nat) : List Nat := src.take n ++ dst.drop n

/-- The buffer `dst` after the assignment `dst[i] = v`. -/
def poke (dst : List Nat) (i : Nat) (v : Nat) : List Nat := dst.take i ++ v :: dst.drop (i + 1)

/-- C function `processx_c_connection_read_line`, called with non-null `linep`
and `linecapp`: the return value, the line buffer, the new state and what is
left of the source. -/
def processx_c_connection_read_line (env : Env) (fuel : Nat) (c : Connection) (src : Source)
    (lb : LineBuf) : Except Fault (Int × LineBuf × Connection × Source) := do
  if c.is_eof_ then pure (-1, lb, c, src)
  else
    let r ← processx__connection_read_until_newline env fuel c src
    let c := r.1
    let src := r.2.1
    let newline := r.2.2
    let eof := eof_tail c
    if newline = -1 ∧ eof = false then pure (0, lb, c, src)
    else
      let newline : Int := if newline = -1 then (c.utf8.length : Int) else newline
      let newline : Int := if utf8_at env c (newline - 1) = 13 then newline - 1 else newline
      let need : Nat := ((newline + 1) % (SIZE_MOD : Int)).toNat
      let lb : LineBuf :=
        match lb.linep with
        | none => { linep := some (malloc need), linecapp := need }
        | some p =>
          if lb.linecapp < need then { linep := some (realloc p need), linecapp := need }
          else lb
      if newline < 0 then throw Fault.bad_memory_access
      else
        let line := poke (memcpy (lb.linep.getD []) c.utf8 newline.toNat) newline.toNat 0
        let lb := { lb with linep := some line }
        let c ← if eof = false then utf8_drop c (newline + 1) else pure { c with utf8 := [] }
        pure (newline, lb, c, src)

/-- The bytes of the line a `processx_c_connection_read_line` call returned:
the first `ret` bytes of `*linep`. -/
def LineBuf.line (lb : LineBuf) (ret : Int) : List Nat := (lb.linep.getD []).take ret.toNat

/-! ## Creating a connection, and concrete states for evaluating the code -/

/-- C function `processx_c_connection_create` (unix), without the R external
pointer: `encoding` is `none` for a null pointer. -/
def processx_c_connection_create (os_handle : Int) (type : FileType)
    (encoding : Option String) : Connection :=
  { type := type, is_closed_ := false, is_eof_ := false, is_eof_raw_ := false,
    close_on_destroy := true, iconv_ctx := 0,
    buffer := [], buffer_allocated_size := 0,
    utf8 := [], utf8_allocated_size := 0,
    encoding := match encoding with
      | none => none
      | some e => if e.isEmpty then none else some e,
    handle := os_handle, poll_idx := 0 }

/-- A converter for a source encoding that agrees with UTF-8 on the bytes it is
given: it copies as many input bytes as the output has room for, and reports
`E2BIG` when input is left over. -/
def Riconv_copy (_ctx : Int) (input : List Nat) (room : Nat) : IconvResult :=
  if input.length ≤ room then { consumed := input.length, produced := input, status := .converted }
  else { consumed := room, produced := input.take room, status := .E2BIG }

/-- An environment with the copying converter, exact scaling by 6/5, and the
byte `before` in front of the decoded buffer. -/
def sample_env (before : Nat) : Env :=
  { Riconv_open := fun _ => 1, Riconv := Riconv_copy, scale12 := fun n => n * 6 / 5,
    utf8_before := before }

/-- An open pipe connection (descriptor 3) with allocated buffers, an empty raw
buffer and the decoded buffer `decoded`; `eof_raw` is its `is_eof_raw_` flag. -/
def sample_connection (decoded : List Nat) (eof_raw : Bool) : Connection :=
  { processx__connection_alloc (processx_c_connection_create 3 .ASYNCPIPE none) with
    utf8 := decoded, is_eof_raw_ := eof_raw, iconv_ctx := 1 }

/-- A source on which every `read(2)` would block. -/
def quiet : Source := { script := [], rest := .fail EAGAIN }

/-- A source that delivers the given chunks, one per `read(2)`, and is at end of
file afterwards. -/
def chunks_then_eof (chunks : List (List Nat)) : Source :=
  { script := chunks.map OSRead.data, rest := .data [] }

/-! ## Notions the claims are stated with -/

/-- Length of a character by its lead byte, as the specification lists it:
below 0x80 one byte, 0xC0-0xDF two, 0xE0-0xEF three, 0xF0-0xF7 four, 0xF8-0xFB
five, 0xFC-0xFD six.  Other bytes start no character: the value is 0. -/
def lead_byte_length (b : Nat) : Nat :=
  if b < 0x80 then 1
  else if 0xC0 ≤ b ∧ b ≤ 0xDF then 2
  else if 0xE0 ≤ b ∧ b ≤ 0xEF then 3
  else if 0xF0 ≤ b ∧ b ≤ 0xF7 then 4
  else if 0xF8 ≤ b ∧ b ≤ 0xFB then 5
  else if 0xFC ≤ b ∧ b ≤ 0xFD then 6
  else 0

/-- A list of characters: each is non-empty and as long as its lead byte says. -/
def CharSeq (cs : List (List Nat)) : Prop :=
  ∀ ch ∈ cs, ch ≠ [] ∧ ch.length = lead_byte_length (ch.headD 0)

/-- Scanning `rest` under the limits `mc` (characters) and `mb` (bytes), a
negative limit being no limit, may take `k` characters spanning `j` bytes:
`rest` starts with `k` characters of total length `j`, both limits are kept,
the scan stops at the end of `rest`, at a limit, or in front of a character
longer than the bytes still allowed, and no longer run of whole characters
keeps the limits. -/
def ScanResult (rest : List Nat) (mc mb : Int) (k j : Nat) : Prop :=
  ∃ cs tail, rest = cs.flatten ++ tail ∧ CharSeq cs ∧ cs.length = k ∧ cs.flatten.length = j ∧
    (0 ≤ mc → (k : Int) ≤ mc) ∧ (0 ≤ mb → (j : Int) ≤ mb) ∧
    (tail = [] ∨ (k : Int) = mc ∨ (j : Int) = mb ∨
      (tail ≠ [] ∧ 0 < mb ∧ mb - (j : Int) < (lead_byte_length (tail.headD 0) : Int))) ∧
    ∀ cs2 tail2, rest = cs2.flatten ++ tail2 → CharSeq cs2 →
      (0 ≤ mc → (cs2.length : Int) ≤ mc) → (0 ≤ mb → (cs2.flatten.length : Int) ≤ mb) →
      cs2.length ≤ k

/-- A UTF-8 continuation byte (`UTF8-tail` of RFC 3629): 0x80 to 0xBF. -/
def utf8_tail (b : Nat) : Bool := decide (0x80 ≤ b ∧ b ≤ 0xBF)

/-- The second byte of a well-formed sequence with lead byte `a`: a
continuation byte, in the narrower range RFC 3629 requires after 0xE0, 0xED,
0xF0 and 0xF4. -/
def utf8_second (a b : Nat) : Bool :=
  if a = 0xE0 then decide (0xA0 ≤ b ∧ b ≤ 0xBF)
  else if a = 0xED then decide (0x80 ≤ b ∧ b ≤ 0x9F)
  else if a = 0xF0 then decide (0x90 ≤ b ∧ b ≤ 0xBF)
  else if a = 0xF4 then decide (0x80 ≤ b ∧ b ≤ 0x8F)
  else utf8_tail b

/-- Length of the well-formed UTF-8 byte sequence at the head of the list, if
there is one (RFC 3629, section 4: `UTF8-1` to `UTF8-4`). -/
def utf8_sequence (l : List Nat) : Option Nat :=
  match l with
  | [] => none
  | a :: r =>
    if a ≤ 0x7F then some 1
    else if 0xC2 ≤ a ∧ a ≤ 0xDF then
      if 1 ≤ r.length ∧ utf8_tail (r.getD 0 0) then some 2 else none
    else if 0xE0 ≤ a ∧ a ≤ 0xEF then
      if 2 ≤ r.length ∧ utf8_second a (r.getD 0 0) ∧ utf8_tail (r.getD 1 0) then some 3 else none
    else if 0xF0 ≤ a ∧ a ≤ 0xF4 then
      if 3 ≤ r.length ∧ utf8_second a (r.getD 0 0) ∧ utf8_tail (r.getD 1 0) ∧
          utf8_tail (r.getD 2 0) then some 4 else none
    else none

/-- Well-formedness with a bound on the number of sequences examined. -/
def well_formed_utf8_upto : Nat → List Nat → Bool
  | _, [] => true
  | 0, _ :: _ => false
  | fuel + 1, a :: r =>
    match utf8_sequence (a :: r) with
    | some n => well_formed_utf8_upto fuel ((a :: r).drop n)
    | none => false

/-- Well-formed UTF-8: the list is a concatenation of well-formed sequences. -/
def well_formed_utf8 (l : List Nat) : Bool := well_formed_utf8_upto l.length l

/-- A line without the `'\r'` that may end it. -/
def strip_cr (l : List Nat) : List Nat := if l.getLast? = some 13 then l.dropLast else l

/-- The bytes of the given lines, each followed by `'\n'`. -/
def terminated (ls : List (List Nat)) : List Nat := (ls.map (fun l => l ++ [10])).flatten

/-! ## Reading bytes into a caller's buffer -/

/-- Number of values of an `ssize_t` that are not negative. -/
def SSIZE_LIMIT : Nat := 9223372036854775808

/-- Conversion of a `size_t` value (below `SIZE_MOD`) to `ssize_t`. -/
def to_ssize (n : Nat) : Int := if n < SSIZE_LIMIT then (n : Int) else (n : Int) - 18446744073709551616

/-- C function `processx_c_connection_read_chars`: the return value, the
caller's buffer, the new state and what is left of the source. -/
def processx_c_connection_read_chars (env : Env) (c : Connection) (src : Source)
    (buffer : List Nat) (nbyte : Nat) : Except Fault (Nat × List Nat × Connection × Source) := do
  if nbyte < 4 then throw Fault.buffer_too_small
  let r ← processx__connection_find_chars env c src (-1) (to_ssize nbyte)
  let buffer := memcpy buffer r.1.utf8 r.2.2.2
  let c ← utf8_drop r.1 r.2.2.2
  pure (r.2.2.2, buffer, c, r.2.1)

/-! ## A converter for UTF-8 input -/

/-- The bytes are the beginning of a well-formed UTF-8 sequence (RFC 3629) that
is cut short: a lead byte of a longer sequence, followed by fewer bytes than
the sequence needs, each allowed at its place. -/
def utf8_incomplete (l : List Nat) : Bool :=
  match l with
  | [a] => decide (0xC2 ≤ a ∧ a ≤ 0xF4)
  | [a, b] => decide (0xE0 ≤ a ∧ a ≤ 0xF4) && utf8_second a b
  | [a, b, c] => decide (0xF0 ≤ a ∧ a ≤ 0xF4) && utf8_second a b && utf8_tail c
  | _ => false

/-- A reference converter for UTF-8 input, which the converter of the
environment (`Env.Riconv`, a library function outside this repository) is
compared with; it follows the `iconv` contract.  It copies
well-formed sequences while the output has room; it stops with `E2BIG` when
the next sequence does not fit, with `EINVAL` at a sequence cut short by the
end of the input, with `EILSEQ` at bytes that begin no well-formed sequence.
The first argument bounds the number of sequences. -/
def utf8_convert : Nat → List Nat → Nat → IconvResult
  | 0, _, _ => { consumed := 0, produced := [], status := .converted }
  | fuel + 1, input, room =>
    if input = [] then { consumed := 0, produced := [], status := .converted }
    else
      match utf8_sequence input with
      | some n =>
        if n ≤ room then
          let r := utf8_convert fuel (input.drop n) (room - n)
          { consumed := n + r.consumed, produced := input.take n ++ r.produced,
            status := r.status }
        else { consumed := 0, produced := [], status := .E2BIG }
      | none =>
        if utf8_incomplete input then { consumed := 0, produced := [], status := .EINVAL }
        else { consumed := 0, produced := [], status := .EILSEQ }

/-- The reference converter as a value for `Env.Riconv`: what `Riconv` does on
a descriptor opened for UTF-8 input. -/
def Riconv_utf8 (_ctx : Int) (input : List Nat) (room : Nat) : IconvResult :=
  utf8_convert input.length input room

/-- An environment whose converter is the one for UTF-8 input. -/
def utf8_env : Env :=
  { Riconv_open := fun _ => 1, Riconv := Riconv_utf8, scale12 := fun n => n * 6 / 5,
    utf8_before := 0 }

/-- Sequences each of which is one well-formed UTF-8 sequence. -/
def ValidSeqs (ws : List (List Nat)) : Prop := ∀ s ∈ ws, utf8_sequence s = some s.length

/-! ## Decode passes: what the claims are stated with -/

/-- The converter never writes more bytes than the room it is given. -/
def Riconv_bounded (env : Env) : Prop :=
  ∀ (ctx : Int) (input : List Nat) (room : Nat), (env.Riconv ctx input room).produced.length ≤ room

/-- The `Riconv` call on which the `while (!moved)` loop of
`processx__connection_to_utf8` ends: its status and the input it left
unconsumed.  The calls are those of `to_utf8_loop`. -/
def to_utf8_stop (env : Env) (ctx : Int) : Nat → List Nat → Nat → IconvStatus × List Nat
  | 0, inbuf, _ => (.converted, inbuf)
  | fuel + 1, inbuf, outbytesleft =>
    let r := env.Riconv ctx inbuf outbytesleft
    let inbuf1 := inbuf.drop r.consumed
    match r.status with
    | .EILSEQ =>
      if (inbuf1.drop 1).length > 0 then
        to_utf8_stop env ctx fuel (inbuf1.drop 1) (outbytesleft - r.produced.length)
      else (.EILSEQ, inbuf1)
    | s => (s, inbuf1)

/-- The descriptor a decode pass works with: `Riconv_open` is called when the
connection has none yet. -/
def opened_ctx (env : Env) (c : Connection) : Int :=
  if c.iconv_ctx = 0 then env.Riconv_open (c.encoding.getD "") else c.iconv_ctx

/-- What `processx__connection_read` does with the bytes `chunk` of a read:
they are appended to the raw buffer and one decode pass follows. -/
def feed (env : Env) (c : Connection) (chunk : List Nat) : Connection :=
  (processx__connection_to_utf8 env { c with buffer := c.buffer ++ chunk }).1

/-- The chunks fed one after the other. -/
def feed_all (env : Env) (c : Connection) (chunks : List (List Nat)) : Connection :=
  chunks.foldl (feed env) c

/-- The stop of the decode pass that `processx__connection_to_utf8` makes on the
connection: status of the last `Riconv` call and the input it left. -/
def pass_stop (env : Env) (c : Connection) : IconvStatus × List Nat :=
  to_utf8_stop env (opened_ctx env c) c.buffer.length c.buffer
    (size_sub c.utf8_allocated_size c.utf8.length)

/-- An environment that has a converter for the names "" and "UTF-8" only:
`Riconv_open` answers `(void *) -1` to every other name, and `Riconv` fails on
that descriptor. -/
def strict_env : Env :=
  { Riconv_open := fun name => if name = "" ∨ name = "UTF-8" then 1 else -1,
    Riconv := fun ctx input room =>
      if ctx = -1 then { consumed := 0, produced := [], status := .failed }
      else Riconv_utf8 ctx input room,
    scale12 := fun n => n * 6 / 5,
    utf8_before := 0 }

/-! ## Writing and closing -/

/-- Result of one `write(2)` call: `wrote n` is the return value `n`, the number
of bytes the system took; `fail e` is the return value -1 with `errno = e`. -/
inductive OSWrite where
  | wrote (n : Nat)
  | fail (errno : Nat)
  deriving DecidableEq, Repr

/-- The system side of writing: `script` lists what the next `write(2)` calls
return, one entry per call, `rest` is what every call returns once the script
is used up, and `attempts` records the calls made: descriptor and bytes
offered. -/
structure Sink where
  script : List OSWrite
  rest : OSWrite
  attempts : List (Int × List Nat)
  deriving DecidableEq, Repr

/-- One `write(2)` call. -/
def Sink.write (s : Sink) (fd : Int) (bytes : List Nat) : OSWrite × Sink :=
  match s.script with
  | [] => (s.rest, { s with attempts := s.attempts ++ [(fd, bytes)] })
  | o :: tl => (o, { s with script := tl, attempts := s.attempts ++ [(fd, bytes)] })

/-- C function `processx_c_connection_write_bytes` (unix): the return value or
the error, and the system side after the call. -/
def processx_c_connection_write_bytes (c : Connection) (snk : Sink) (buffer : List Nat)
    (nbytes : Nat) : Except Fault Nat × Sink :=
  match PROCESSX_CHECK_VALID_CONN c with
  | .error e => (.error e, snk)
  | .ok _ =>
    let r := snk.write c.handle (buffer.take nbytes)
    match r.1 with
    | .fail errno =>
      if errno = EAGAIN ∨ errno = EWOULDBLOCK then (.ok 0, r.2)
      else (.error (.write_failed errno), r.2)
    | .wrote ret => (.ok ret, r.2)

/-- C function `processx_c_connection_close` (unix): the new state, and the
descriptor given to `close(2)` when the call is made. -/
def processx_c_connection_close (c : Connection) : Connection × Option Int :=
  ({ c with handle := -1, is_closed_ := true }, if c.handle ≥ 0 then some c.handle else none)

/-- C function `processx_c_connection_destroy` (unix), for a pointer that is
null (`none`) or not: the descriptor given to `close(2)` when the call is made,
and the descriptor given to `Riconv_close` when that call is made.  The
connection does not exist afterwards. -/
def processx_c_connection_destroy (c : Option Connection) : Option Int × Option Int :=
  match c with
  | none => (none, none)
  | some c =>
    (if c.close_on_destroy then (processx_c_connection_close c).2 else none,
     if c.iconv_ctx ≠ 0 then some c.iconv_ctx else none)

/-- A system side on which every `write(2)` gives the result `o`. -/
def steady (o : OSWrite) : Sink := { script := [], rest := o, attempts := [] }

/-! ## The end-of-file flags -/

/-- The invariant of the end-of-file flags: `is_eof_` is set only when
`is_eof_raw_` is set and both buffers are empty. -/
def eof_invariant (c : Connection) : Prop :=
  c.is_eof_ = true → c.is_eof_raw_ = true ∧ c.buffer = [] ∧ c.utf8 = []

/-! ## Polling one connection -/

/-- Events of a pollable, as `processx_i_poll_func_connection` returns them. -/
inductive PollEvent where
  | PXNOPIPE
  | PXREADY
  | PXTIMEOUT
  | PXCLOSED
  | PXSILENT
  deriving DecidableEq, Repr

/-- Macro `PROCESSX__I_POLL_FUNC_CONNECTION_READY` for a connection that is not
null: the event with which the macro returns from the function, or `none` when
control goes on, and the new state. -/
def PROCESSX__I_POLL_FUNC_CONNECTION_READY (env : Env) (c : Connection) :
    Option PollEvent × Connection :=
  if c.is_closed_ then (some .PXCLOSED, c)
  else if c.is_eof_ then (some .PXREADY, c)
  else if c.utf8.length > 0 then (some .PXREADY, c)
  else if c.buffer.length > 0 ∧ c.is_eof_raw_ then (some .PXREADY, c)
  else if c.buffer.length > 0 then
    let c := (processx__connection_to_utf8 env c).1
    if c.utf8.length > 0 then (some .PXREADY, c) else (none, c)
  else (none, c)

/-- C function `processx_i_poll_func_connection` (unix), called with an object
that is not null and non-null `handle` and `again`: the event, the new state,
and the value stored in `*handle` when one is stored. -/
def processx_i_poll_func_connection (env : Env) (c : Connection) :
    PollEvent × Connection × Option Int :=
  match PROCESSX__I_POLL_FUNC_CONNECTION_READY env c with
  | (some ev, c) => (ev, c, none)
  | (none, c) => (.PXSILENT, c, some c.handle)

/-! ## The Windows backend -/

namespace Win

/-- A connection on Windows: the fields both backends have (`con`, whose
`handle` is `handle.handle`, 0 when there is none), and those of
`processx_i_connection_t`: `read_pending`, `overlapped.hEvent` (0 when there is
none) and `overlapped.Offset`. -/
structure WinConnection where
  con : Connection
  read_pending : Bool
  hEvent : Int
  Offset : Nat
  deriving Repr

/-- Value of `GetLastError()` after a read on a pipe whose other end is closed. -/
def ERROR_BROKEN_PIPE : Nat := 109

/-- Value of `GetLastError()` after a read at the end of a file. -/
def ERROR_HANDLE_EOF : Nat := 38

/-- Value of `GetLastError()` for an overlapped operation that has been started. -/
def ERROR_IO_PENDING : Nat := 997

/-- What the system calls of `processx__connection_start_read` answer: the
handle `CreateEvent` returns (0 is `NULL`), whether `CreateIoCompletionPort`
succeeds, the value of `GetLastError()` when one of the two fails, and for
`ReadFile` `none` when it returns true and the value of `GetLastError()` when
it returns false. -/
structure StartRead where
  CreateEvent : Int
  CreateIoCompletionPort : Bool
  GetLastError : Nat
  ReadFile : Option Nat
  deriving DecidableEq, Repr

/-- What one `GetQueuedCompletionStatus` call finds: a completion packet, for
the connection that is followed (`own`) or for another one, with the bytes the
finished read stored; nothing within the timeout (`WAIT_TIMEOUT`); or a failure
with the value of `GetLastError()`. -/
inductive Dequeued where
  | completion (own : Bool) (data : List Nat)
  | timeout
  | failed (code : Nat)
  deriving DecidableEq, Repr

/-- The end-of-file bookkeeping `is_eof_raw_ = 1; if (utf8_data_size == 0 &&
buffer_data_size == 0) is_eof_ = 1;`. -/
def mark_eof_raw (c : Connection) : Connection :=
  { c with is_eof_raw_ := true,
           is_eof_ := if c.utf8.length = 0 ∧ c.buffer.length = 0 then true else c.is_eof_ }

/-- First part of `processx__connection_start_read`: the event and the
completion port are set up when the connection has no event yet. -/
def start_read_event (os : StartRead) (w : WinConnection) : Except Fault WinConnection :=
  if w.hEvent = 0 ∧ (w.con.type = .ASYNCFILE ∨ w.con.type = .ASYNCPIPE) then
    if os.CreateEvent = 0 then .error (.system_error os.GetLastError)
    else if os.CreateIoCompletionPort = false then .error (.system_error os.GetLastError)
    else .ok { w with hEvent := os.CreateEvent }
  else .ok w

/-- Second part of `processx__connection_start_read`: the buffers are
allocated if need be, and `ReadFile` is called. -/
def start_read_issue (env : Env) (os : StartRead) (w : WinConnection) :
    Except Fault WinConnection :=
  let c := if w.con.buffer_allocated_size = 0 then processx__connection_alloc w.con else w.con
  let offset := if c.type ≠ .ASYNCFILE then 0 else w.Offset
  match os.ReadFile with
  | some err =>
    if err = ERROR_BROKEN_PIPE ∨ err = ERROR_HANDLE_EOF then
      let c := mark_eof_raw c
      let c := if c.buffer.length ≠ 0 then (processx__connection_to_utf8 env c).1 else c
      .ok { w with con := c, Offset := offset }
    else if err = ERROR_IO_PENDING then
      .ok { w with con := c, Offset := offset, read_pending := true }
    else .error (.system_error err)
  | none => .ok { w with con := c, Offset := offset, read_pending := true }

/-- C function `processx__connection_start_read`. -/
def processx__connection_start_read (env : Env) (os : StartRead) (w : WinConnection) :
    Except Fault WinConnection :=
  if w.con.handle = 0 then .ok w
  else if w.read_pending then .ok w
  else
    match start_read_event os w with
    | .error f => .error f
    | .ok w => start_read_issue env os w

/-- The block `if (overlapped) { ... }` of `processx__connection_read`
(Windows), applied to the connection the packet belongs to, up to the test
`con == ccon`: the new state and the final value of `bytes`. -/
def read_completion (env : Env) (w : WinConnection) (data : List Nat) : WinConnection × Nat :=
  let bytes := data.length
  let c := { w.con with buffer := w.con.buffer ++ data }
  let r := if c.buffer_allocated_size ≠ 0 ∧ c.buffer.length > 0 then
      let p := processx__connection_to_utf8 env c
      (p.1, p.2.1)
    else (c, bytes)
  let c := r.1
  let bytes := r.2
  let offset := if c.type = .ASYNCFILE then w.Offset + bytes else w.Offset
  let c := if bytes = 0 then mark_eof_raw c else c
  ({ w with con := c, read_pending := false, Offset := offset }, bytes)

/-- The block `if (overlapped) { ... }` of `processx_c_connection_poll`
(Windows), applied to the connection the packet belongs to, up to the test of
`poll_idx`. -/
def poll_completion (env : Env) (w : WinConnection) (data : List Nat) : WinConnection :=
  let bytes := data.length
  let c := { w.con with buffer := w.con.buffer ++ data }
  let c := if c.buffer.length > 0 then (processx__connection_to_utf8 env c).1 else c
  let offset := if c.type = .ASYNCFILE then w.Offset + bytes else w.Offset
  let c := if bytes = 0 then mark_eof_raw c else c
  { w with con := c, read_pending := false, Offset := offset }

/-- The loop `while (1)` of `processx__connection_read` (Windows) over what the
`GetQueuedCompletionStatus` calls find; an empty list stands for calls that
find nothing.  A packet for another connection changes that connection, and
the loop goes on.  Result: the new state, what is left to be found, and
`bytes_read`. -/
def dequeue_loop (env : Env) (w : WinConnection) :
    List Dequeued → Except Fault (WinConnection × List Dequeued × Nat)
  | [] => .ok (w, [], 0)
  | .timeout :: q => .ok (w, q, 0)
  | .failed code :: _ => .error (.system_error code)
  | .completion false _ :: q => dequeue_loop env w q
  | .completion true data :: q =>
    let r := read_completion env w data
    .ok (r.1, q, r.2)

/-- C function `processx__connection_read` (Windows).  Returns the new state,
what is left for later `GetQueuedCompletionStatus` calls, and the return
value. -/
def processx__connection_read (env : Env) (os : StartRead) (queue : List Dequeued)
    (w : WinConnection) : Except Fault (WinConnection × List Dequeued × Nat) :=
  if w.con.is_eof_raw_ ∧ w.con.buffer.length = 0 then
    .ok (if w.con.utf8.length = 0 then { w with con := { w.con with is_eof_ := true } } else w,
      queue, 0)
  else
    let w := if w.con.buffer_allocated_size = 0 then
        { w with con := processx__connection_alloc w.con } else w
    let todo : Int := ((w.con.buffer_allocated_size : Int) - (w.con.buffer.length : Int))
      % 4294967296
    if todo = 0 then
      let r := processx__connection_to_utf8 env w.con
      .ok ({ w with con := r.1 }, queue, r.2.1)
    else
      match processx__connection_start_read env os w with
      | .error f => .error f
      | .ok w => if w.read_pending then dequeue_loop env w queue else .ok (w, queue, 0)

/-- C function `processx_i_poll_func_connection` (Windows), called with an
object that is not null and non-null `handle` and `again`: the event, the new
state, and the value stored in `*handle` when one is stored. -/
def processx_i_poll_func_connection (env : Env) (os : StartRead) (w : WinConnection) :
    Except Fault (PollEvent × WinConnection × Option Int) :=
  match PROCESSX__I_POLL_FUNC_CONNECTION_READY env w.con with
  | (some ev, c) => .ok (ev, { w with con := c }, none)
  | (none, c) =>
    match processx__connection_start_read env os { w with con := c } with
    | .error f => .error f
    | .ok w =>
      match PROCESSX__I_POLL_FUNC_CONNECTION_READY env w.con with
      | (some ev, c) => .ok (ev, { w with con := c }, none)
      | (none, c) => .ok (.PXSILENT, { w with con := c }, some w.hEvent)

/-- A Windows connection around the sample connection, with a read pending. -/
def sample_pending (decoded : List Nat) : WinConnection :=
  { con := sample_connection decoded false, read_pending := true, hEvent := 7, Offset := 0 }

/-- Answers of the system for a read that is started and not finished yet. -/
def read_started : StartRead :=
  { CreateEvent := 7, CreateIoCompletionPort := true, GetLastError := 0,
    ReadFile := some ERROR_IO_PENDING }

end Win

/-! ## Quoting command line arguments (Windows) -/

namespace Win

/-- The loop `for (i = len; i > 0; --i)` of `processx__quote_cmd_arg`.
Arguments: the characters of `source` from the last to the first, `quote_hit`,
and the characters written from `start` so far.  Result: the characters
written from `start`. -/
def quote_loop : List Nat → Bool → List Nat → List Nat
  | [], _, written => written
  | ch :: rest, quote_hit, written =>
    let written := written ++ [ch]
    if quote_hit = true ∧ ch = 92 then quote_loop rest quote_hit (written ++ [92])
    else if ch = 34 then quote_loop rest true (written ++ [92])
    else quote_loop rest false written

/-- The value of `quote_hit` after the loop of `processx__quote_cmd_arg` has
run over the given characters, from the value it had before. -/
def quote_hit_after : List Nat → Bool → Bool
  | [], quote_hit => quote_hit
  | ch :: rest, quote_hit =>
    if quote_hit = true ∧ ch = 92 then quote_hit_after rest quote_hit
    else if ch = 34 then quote_hit_after rest true
    else quote_hit_after rest false

/-- C function `processx__quote_cmd_arg`: the characters written to `target`,
from its first position to the position that is returned.  `source` holds the
characters in front of the terminating zero. -/
def processx__quote_cmd_arg (source : List Nat) : List Nat :=
  if source.length = 0 then [34, 34]
  else if source.all (fun c => c ≠ 32 ∧ c ≠ 9 ∧ c ≠ 34) then source
  else if source.all (fun c => c ≠ 34 ∧ c ≠ 92) then [34] ++ source ++ [34]
  else [34] ++ (quote_loop source.reverse true []).reverse ++ [34]

/-- C function `processx__make_program_args`, the part after the arguments
have been converted to wide characters: the characters written to `dst`. -/
def processx__make_program_args (verbatim_arguments : Bool) : List (List Nat) → List Nat
  | [] => []
  | [arg] => (if verbatim_arguments then arg else processx__quote_cmd_arg arg) ++ [0]
  | arg :: rest =>
    (if verbatim_arguments then arg else processx__quote_cmd_arg arg) ++ [32]
      ++ processx__make_program_args verbatim_arguments rest

/-- The number of characters `processx__make_program_args` allocates for
`dst`: `dst_len * 2 + arg_count * 2`, where `dst_len` adds up the lengths of
the arguments, each with its terminating zero. -/
def dst_len (args : List (List Nat)) : Nat :=
  (args.map (fun arg => arg.length + 1)).sum * 2 + args.length * 2

/-- The backslash in front of `rest` is followed by nothing but backslashes up
to a double quote or up to the end of the argument. -/
def before_quote : List Nat → Bool
  | [] => true
  | c :: rest => if c = 92 then before_quote rest else decide (c = 34)

/-- The escaping the comment in `processx__quote_cmd_arg` describes, from the
first character to the last: a backslash goes in front of every double quote,
and a backslash is doubled when only backslashes stand between it and a double
quote or the end. -/
def escape_documented : List Nat → List Nat
  | [] => []
  | c :: rest =>
    if c = 34 then 92 :: 34 :: escape_documented rest
    else if c = 92 ∧ before_quote rest = true then 92 :: 92 :: escape_documented rest
    else c :: escape_documented rest

/-- The output the comment in `processx__quote_cmd_arg` describes. -/
def quote_documented (source : List Nat) : List Nat :=
  if source = [] then [34, 34]
  else if source.all (fun c => c ≠ 32 ∧ c ≠ 9 ∧ c ≠ 34) then source
  else [34] ++ escape_documented source ++ [34]

/-- The characters of a string literal. -/
def wide (s : String) : List Nat := s.toList.map Char.toNat

end Win

/-! ## Waiting for events (unix) -/

/-- Value of `errno` for a system call that a signal interrupted. -/
def EINTR : Nat := 4

/-- Bit of `revents`: there is data to read. -/
def POLLIN : Nat := 1

/-- Bit of `revents`: the other end has hung up. -/
def POLLHUP : Nat := 16

/-- Bit of `revents`: the descriptor is not open. -/
def POLLNVAL : Nat := 32

/-- Result of one `poll(2)` call: the return value, `errno` when that is -1,
and the `revents` stored for the descriptors, in their order. -/
structure OSPoll where
  ret : Int
  errno : Nat
  revents : List Nat
  deriving DecidableEq, Repr

/-- What the waiting code asks of the outside: a `poll(2)` call on the given
descriptors with the given timeout, or a call of `R_CheckUserInterrupt`. -/
inductive PollAction where
  | wait (fds : List Int) (timeout : Int)
  | check
  deriving DecidableEq, Repr

/-- The system side of waiting: `script` lists what the next `poll(2)` calls
return, one entry per call, `rest` is what every call returns once the script
is used up, and `trace` records the calls made.  `R_CheckUserInterrupt` is
taken to return. -/
structure Poller where
  script : List OSPoll
  rest : OSPoll
  trace : List PollAction
  deriving DecidableEq, Repr

/-- One `poll(2)` call. -/
def Poller.poll (p : Poller) (fds : List Int) (timeout : Int) : OSPoll × Poller :=
  match p.script with
  | [] => (p.rest, { p with trace := p.trace ++ [.wait fds timeout] })
  | r :: tl => (r, { p with script := tl, trace := p.trace ++ [.wait fds timeout] })

/-- One `R_CheckUserInterrupt` call. -/
def Poller.R_CheckUserInterrupt (p : Poller) : Poller :=
  { p with trace := p.trace ++ [.check] }

/-- The loop `do { ret = poll(fds, nfds, timeout); } while (ret == -1 && errno
== EINTR)`; the first argument bounds the number of calls. -/
def poll_retry : Nat → Poller → List Int → Int → Option OSPoll × Poller
  | 0, p, _, _ => (none, p)
  | fuel + 1, p, fds, timeout =>
    let r := p.poll fds timeout
    if r.1.ret = -1 ∧ r.1.errno = EINTR then poll_retry fuel r.2 fds timeout
    else (some r.1, r.2)

/-- The loop `while (timeout < 0 || timeleft > PROCESSX_INTERRUPT_INTERVAL)` of
`processx__interruptible_poll` and what follows it.  Arguments: the interval,
the bound on the number of iterations, the system side, the descriptors,
`timeout`, `timeleft` and the `revents` as they stand.  Result: `ret` and the
`revents`, and the system side. -/
def interruptible_loop (interval : Int) :
    Nat → Poller → List Int → Int → Int → List Nat → Except Fault (Int × List Nat) × Poller
  | 0, p, _, _, _, _ => (.error .out_of_fuel, p)
  | fuel + 1, p, fds, timeout, timeleft, revents =>
    if timeout < 0 ∨ timeleft > interval then
      match poll_retry (fuel + 1) p fds interval with
      | (none, p) => (.error .out_of_fuel, p)
      | (some r, p) =>
        if r.ret ≠ 0 then (.ok (r.ret, r.revents), p)
        else interruptible_loop interval fuel p.R_CheckUserInterrupt fds timeout
          (timeleft - interval) r.revents
    else if timeleft ≥ 0 then
      match poll_retry (fuel + 1) p fds timeleft with
      | (none, p) => (.error .out_of_fuel, p)
      | (some r, p) => (.ok (r.ret, r.revents), p)
    else (.ok (0, revents), p)

/-- C function `processx__interruptible_poll`, with the value of
`PROCESSX_INTERRUPT_INTERVAL` as first argument: `ret` and the `revents` of the
descriptors, and the system side. -/
def processx__interruptible_poll (interval : Int) (fuel : Nat) (p : Poller) (fds : List Int)
    (revents : List Nat) (timeout : Int) : Except Fault (Int × List Nat) × Poller :=
  interruptible_loop interval fuel p fds timeout timeout revents

/-- Every `poll(2)` call that is still to come returns 0: the wait times out. -/
def Poller.times_out (p : Poller) : Prop :=
  (∀ r ∈ p.script, r.ret = 0) ∧ p.rest.ret = 0

/-- A full slice followed by the check, `k` times. -/
def full_slices (fds : List Int) (interval : Int) (k : Nat) : List PollAction :=
  (List.replicate k [PollAction.wait fds interval, PollAction.check]).flatten

/-- The timeouts of the `poll(2)` calls of a trace. -/
def wait_timeouts : List PollAction → List Int
  | [] => []
  | .wait _ t :: rest => t :: wait_timeouts rest
  | .check :: rest => wait_timeouts rest

/-- A system side on which every `poll(2)` call times out. -/
def idle : Poller := { script := [], rest := { ret := 0, errno := 0, revents := [] }, trace := [] }

/-! ## Polling a set of pollables (unix) -/

/-- C struct `processx_pollable_t`.  `poll_func` applied to `object` gives the
event, the object after the call, and the value stored in `*handle` when one
is stored. -/
structure Pollable (α : Type) where
  poll_func : α → PollEvent × α × Option Int
  object : α
  event : PollEvent

/-- C function `processx_c_pollable_from_connection` (unix); `event` is the
value the field `event`, which the function does not set, happens to have. -/
def processx_c_pollable_from_connection (env : Env) (c : Connection) (event : PollEvent) :
    Pollable Connection :=
  { poll_func := processx_i_poll_func_connection env, object := c, event := event }

/-- C function `processx__poll_decode`. -/
def processx__poll_decode (code : Nat) : PollEvent :=
  if code &&& POLLNVAL ≠ 0 then .PXCLOSED
  else if code &&& POLLIN ≠ 0 ∨ code &&& POLLHUP ≠ 0 then .PXREADY
  else .PXSILENT

/-- The first loop of `processx_c_connection_poll` (unix), from the pollable
with index `i` on.  Result: the pollables after their `poll_func` calls, the
number of those that are ready (`hasdata`), and for each pollable that has to
be waited for its index and its descriptor (the arrays `ptr` and `fds`).
Where a `poll_func` stores no handle the variable `handle` is not initialised;
the model takes it to be negative. -/
def poll_precheck {α : Type} :
    List (Pollable α) → Nat → Except Fault (List (Pollable α) × Nat × List (Nat × Int))
  | [], _ => .ok ([], 0, [])
  | el :: rest, i =>
    let r := el.poll_func el.object
    let el := { el with object := r.2.1, event := r.1 }
    if r.1 = .PXNOPIPE ∨ r.1 = .PXCLOSED then
      match poll_precheck rest (i + 1) with
      | .error f => .error f
      | .ok q => .ok (el :: q.1, q.2.1, q.2.2)
    else if r.1 = .PXREADY then
      match poll_precheck rest (i + 1) with
      | .error f => .error f
      | .ok q => .ok (el :: q.1, q.2.1 + 1, q.2.2)
    else if r.1 = .PXSILENT ∧ 0 ≤ r.2.2.getD (-1) then
      match poll_precheck rest (i + 1) with
      | .error f => .error f
      | .ok q => .ok (el :: q.1, q.2.1, (i, r.2.2.getD (-1)) :: q.2.2)
    else .error .cannot_poll

/-- The assignment `pollables[i].event = ev`. -/
def set_event {α : Type} : List (Pollable α) → Nat → PollEvent → List (Pollable α)
  | [], _, _ => []
  | el :: rest, 0, ev => { el with event := ev } :: rest
  | el :: rest, i + 1, ev => el :: set_event rest i ev

/-- The loop `for (i = 0; i < j; i++) pollables[ptr[i]].event = PXTIMEOUT`. -/
def mark_timeout {α : Type} : List (Pollable α) → List (Nat × Int) → List (Pollable α)
  | ps, [] => ps
  | ps, e :: rest => mark_timeout (set_event ps e.1 .PXTIMEOUT) rest

/-- The loop that decodes the `revents`: `pollables[ptr[i]].event =
processx__poll_decode(fds[i].revents); hasdata += (... == PXREADY)`.
Arguments: the pollables, what is left of `ptr`, what is left of the `revents`,
`hasdata`. -/
def decode_loop {α : Type} :
    List (Pollable α) → List (Nat × Int) → List Nat → Nat → List (Pollable α) × Nat
  | ps, [], _, hasdata => (ps, hasdata)
  | ps, e :: rest, revents, hasdata =>
    decode_loop (set_event ps e.1 (processx__poll_decode (revents.headD 0))) rest revents.tail
      (hasdata + if processx__poll_decode (revents.headD 0) = .PXREADY then 1 else 0)

/-- C function `processx_c_connection_poll` (unix), with the value of
`PROCESSX_INTERRUPT_INTERVAL` and the bound on the number of waits as first
arguments: the return value and the pollables, and the system side. -/
def processx_c_connection_poll {α : Type} (interval : Int) (fuel : Nat) (p : Poller)
    (pollables : List (Pollable α)) (timeout : Int) :
    Except Fault (Nat × List (Pollable α)) × Poller :=
  if pollables.length = 0 then (.ok (0, pollables), p)
  else
    match poll_precheck pollables 0 with
    | .error f => (.error f, p)
    | .ok q =>
      if q.2.2.length = 0 then (.ok (q.2.1, q.1), p)
      else
        match processx__interruptible_poll interval fuel p (q.2.2.map Prod.snd)
            (q.2.2.map (fun _ => 0)) (if q.2.1 > 0 then 0 else timeout) with
        | (.error f, p) => (.error f, p)
        | (.ok r, p) =>
          if r.1 = -1 then (.error .poll_failed, p)
          else if r.1 = 0 then
            (.ok (q.2.1, if q.2.1 = 0 then mark_timeout q.1 q.2.2 else q.1), p)
          else (.ok ((decode_loop q.1 q.2.2 r.2 q.2.1).2, (decode_loop q.1 q.2.2 r.2 q.2.1).1), p)

/-! ## Notions the claims about polling are stated with -/

/-- The events of the pollables, in their order. -/
def events {α : Type} (ps : List (Pollable α)) : List PollEvent := ps.map (fun el => el.event)

/-- The number of pollables whose event is `PXREADY`. -/
def ready_count {α : Type} (ps : List (Pollable α)) : Nat :=
  (ps.filter (fun el => el.event = .PXREADY)).length

/-- The pollables with `PXTIMEOUT` in place of every `PXSILENT`. -/
def silent_timed_out {α : Type} (ps : List (Pollable α)) : List (Pollable α) :=
  ps.map (fun el => if el.event = .PXSILENT then { el with event := .PXTIMEOUT } else el)

/-- The pollables with, in place of every `PXSILENT`, the decoding of the next
of the `revents`; the other pollables use up none. -/
def silent_decoded {α : Type} : List (Pollable α) → List Nat → List (Pollable α)
  | [], _ => []
  | el :: rest, revents =>
    if el.event = .PXSILENT then
      { el with event := processx__poll_decode (revents.headD 0) }
        :: silent_decoded rest revents.tail
    else el :: silent_decoded rest revents

/-- The indices, counted from `i`, of the pollables whose event is `PXSILENT`. -/
def silent_indices {α : Type} : List (Pollable α) → Nat → List Nat
  | [], _ => []
  | el :: rest, i =>
    if el.event = .PXSILENT then i :: silent_indices rest (i + 1) else silent_indices rest (i + 1)

/-! ## Polling a set of pollables (Windows) -/

namespace Win

/-- C function `processx_c_connection_close` (Windows): the state it leaves.
`CancelIo` and `CloseHandle` are called on a handle that is not 0, and
`CloseHandle` on an event that is not 0; `read_pending` is left as it is. -/
def processx_c_connection_close (w : WinConnection) : WinConnection :=
  { w with con := { w.con with handle := 0, is_closed_ := true }, hEvent := 0 }

/-- A pollable that `processx_c_pollable_from_connection` has filled in:
`poll_func` is `processx_i_poll_func_connection`, and `object` is the address of
a connection, which is its index in the list of connections, or `none` for a
null pointer. -/
structure WinPollable where
  object : Option Nat
  event : PollEvent
  deriving DecidableEq, Repr

/-- The call `el->poll_func(el->object, 0, &handle, &again)` after `handle = 0`:
the event, the connections after the call, and the final value of `handle`.
`os` gives the answers of the system for the connection at an address. -/
def poll_func_call (env : Env) (os : Nat → StartRead) (object : Option Nat)
    (heap : List WinConnection) : Except Fault (PollEvent × List WinConnection × Int) :=
  match object with
  | none => .ok (.PXNOPIPE, heap, 0)
  | some a =>
    match heap[a]? with
    | none => .error .bad_memory_access
    | some w =>
      match processx_i_poll_func_connection env (os a) w with
      | .error f => .error f
      | .ok r => .ok (r.1, heap.set a r.2.1, r.2.2.getD 0)

/-- First loop of `processx_c_connection_poll` (Windows), from index `i` on:
the pollables with their new events, the connections, `hasdata`, and the
entries of `ptr`. -/
def poll_precheck (env : Env) (os : Nat → StartRead) :
    List WinPollable → Nat → List WinConnection →
      Except Fault (List WinPollable × List WinConnection × Nat × List Nat)
  | [], _, heap => .ok ([], heap, 0, [])
  | el :: rest, i, heap =>
    match poll_func_call env os el.object heap with
    | .error f => .error f
    | .ok r =>
      if r.1 = .PXNOPIPE ∨ r.1 = .PXCLOSED then
        match poll_precheck env os rest (i + 1) r.2.1 with
        | .error f => .error f
        | .ok q => .ok ({ el with event := r.1 } :: q.1, q.2.1, q.2.2.1, q.2.2.2)
      else if r.1 = .PXREADY then
        match poll_precheck env os rest (i + 1) r.2.1 with
        | .error f => .error f
        | .ok q => .ok ({ el with event := r.1 } :: q.1, q.2.1, q.2.2.1 + 1, q.2.2.2)
      else if r.1 = .PXSILENT ∧ r.2.2 ≠ 0 then
        match poll_precheck env os rest (i + 1) r.2.1 with
        | .error f => .error f
        | .ok q => .ok ({ el with event := r.1 } :: q.1, q.2.1, q.2.2.1, i :: q.2.2.2)
      else .error .cannot_poll

/-- The assignment `pollables[i].event = ev`. -/
def set_event : List WinPollable → Nat → PollEvent → List WinPollable
  | [], _, _ => []
  | el :: rest, 0, ev => { el with event := ev } :: rest
  | el :: rest, i + 1, ev => el :: set_event rest i ev

/-- The loop `for (i = 0; i < j; i++) pollables[ptr[i]].event = PXTIMEOUT`. -/
def mark_timeout : List WinPollable → List Nat → List WinPollable
  | ps, [] => ps
  | ps, i :: ptr => mark_timeout (set_event ps i .PXTIMEOUT) ptr

/-- What one `GetQueuedCompletionStatus` call of `processx_c_connection_poll`
finds: a completion packet whose key is the address of a connection, with the
bytes the finished read stored; nothing within the timeout (`WAIT_TIMEOUT`); or
a failure with the value of `GetLastError()`. -/
inductive Completion where
  | packet (key : Nat) (data : List Nat)
  | timeout
  | failed (code : Nat)
  deriving DecidableEq, Repr

/-- The loop `while (timeout < 0 || timeleft >= 0)` of
`processx_c_connection_poll` (Windows), over what the `GetQueuedCompletionStatus`
calls find; an empty list stands for calls that find nothing.  `interval` is
`PROCESSX_INTERRUPT_INTERVAL`; `R_CheckUserInterrupt` is taken to return.  The
test `poll_idx < npollables` compares as `size_t`, so a negative `poll_idx`
fails it.  Result: the connections, the pollables, what is left to be found,
and `hasdata`. -/
def poll_wait (env : Env) (interval : Int) (timeout : Int) :
    Nat → Int → List WinConnection → List WinPollable → List Completion → Nat →
      Except Fault (List WinConnection × List WinPollable × List Completion × Nat)
  | 0, _, _, _, _, _ => .error .out_of_fuel
  | fuel + 1, timeleft, heap, ps, queue, hasdata =>
    if timeout < 0 ∨ timeleft ≥ 0 then
      match queue with
      | [] => poll_wait env interval timeout fuel (timeleft - interval) heap ps [] hasdata
      | .timeout :: q =>
        poll_wait env interval timeout fuel (timeleft - interval) heap ps q hasdata
      | .failed code :: _ => .error (.system_error code)
      | .packet key data :: q =>
        match heap[key]? with
        | none => .error .bad_memory_access
        | some w =>
          if 0 ≤ w.con.poll_idx ∧ w.con.poll_idx.toNat < ps.length
              ∧ (ps.map (fun el => el.object))[w.con.poll_idx.toNat]? = some (some key) then
            .ok (heap.set key (poll_completion env w data),
              set_event ps w.con.poll_idx.toNat .PXREADY, q, hasdata + 1)
          else
            poll_wait env interval timeout fuel (timeleft - interval)
              (heap.set key (poll_completion env w data)) ps q hasdata
    else .ok (heap, ps, queue, hasdata)

/-- C function `processx_c_connection_poll` (Windows): the return value, the
pollables, the connections, and what is left for later
`GetQueuedCompletionStatus` calls. -/
def processx_c_connection_poll (env : Env) (os : Nat → StartRead) (interval : Int)
    (fuel : Nat) (heap : List WinConnection) (queue : List Completion)
    (pollables : List WinPollable) (timeout : Int) :
    Except Fault (Nat × List WinPollable × List WinConnection × List Completion) :=
  match poll_precheck env os pollables 0 heap with
  | .error f => .error f
  | .ok q =>
    if q.2.2.2.length = 0 then .ok (q.2.2.1, q.1, q.2.1, queue)
    else
      match poll_wait env interval (if q.2.2.1 ≠ 0 then 0 else timeout) fuel
          (if q.2.2.1 ≠ 0 then 0 else timeout) q.2.1 q.1 queue q.2.2.1 with
      | .error f => .error f
      | .ok r =>
        .ok (r.2.2.2, if r.2.2.2 = 0 then mark_timeout r.2.1 q.2.2.2 else r.2.1, r.1, r.2.2.1)

/-- Number of pollables whose event is `PXREADY`. -/
def ready_count (ps : List WinPollable) : Nat :=
  (ps.filter (fun el => el.event = .PXREADY)).length

/-- A Windows connection with nothing buffered and a read pending, whose
`poll_idx` is `idx`. -/
def sample_silent (idx : Int) : WinConnection :=
  { con := { sample_connection [] false with poll_idx := idx }, read_pending := true,
    hEvent := 8, Offset := 0 }

end Win

namespace Win

/-- C function `processx_c_connection_create` (Windows), without the R external
pointer: `handle.handle` is `os_handle`, `handle.overlapped` is zeroed and no
read is pending. -/
def processx_c_connection_create (os_handle : Int) (type : FileType)
    (encoding : Option String) : WinConnection :=
  { con := Processx.processx_c_connection_create os_handle type encoding,
    read_pending := false, hEvent := 0, Offset := 0 }

/-- An open pipe connection (handle 3, event 7) on Windows with allocated
buffers, the raw buffer `raw`, the decoded buffer `decoded`, the flags
`is_eof_raw_` and `is_eof_`, and `read_pending`. -/
def sample_open (raw decoded : List Nat) (eof_raw eof pending : Bool) : WinConnection :=
  { con := { processx__connection_alloc (Processx.processx_c_connection_create 3 .ASYNCPIPE none)
      with buffer := raw, utf8 := decoded, is_eof_raw_ := eof_raw, is_eof_ := eof,
           iconv_ctx := 1 },
    read_pending := pending, hEvent := 7, Offset := 0 }

end Win

end Processx

/-! # Theorems -/

namespace Processx

/-! ## The UTF-8 scanner -/

theorem utf8_length_table (c : Nat) (h0 : ¬ c < 128) (h1 : ¬ c < 0xc0) (h2 : ¬ c ≥ 0xfe) :
    processx__utf8_length.getD (c % 64) 0 = lead_byte_length c := by
  have h3 : c < 254 := by omega
  have h4 : 192 ≤ c := by omega
  interval_cases c <;> rfl

theorem lead_byte_length_ascii (c : Nat) (h : c < 128) : lead_byte_length c = 1 := by
  simp [lead_byte_length, h]

theorem lead_byte_length_pos_of_lead (c : Nat) (h0 : ¬ c < 128) (h1 : ¬ c < 0xc0)
    (h2 : ¬ c ≥ 0xfe) : 2 ≤ lead_byte_length c := by
  have h3 : c < 254 := by omega
  have h4 : 192 ≤ c := by omega
  interval_cases c <;> decide

theorem charSeq_nil : CharSeq [] := by
  intro ch h; cases h

theorem charSeq_cons {ch : List Nat} {cs : List (List Nat)} :
    CharSeq (ch :: cs) ↔ (ch ≠ [] ∧ ch.length = lead_byte_length (ch.headD 0)) ∧ CharSeq cs := by
  simp [CharSeq]

/-- A non-empty character sequence in front of `rest` starts with the first
`lead_byte_length` bytes of `rest`. -/
theorem charSeq_head_of_split {rest ch tail2 : List Nat} {cs : List (List Nat)}
    (h : rest = (ch :: cs).flatten ++ tail2) (hc : CharSeq (ch :: cs)) :
    ch = rest.take (lead_byte_length (rest.headD 0)) ∧
      rest.drop (lead_byte_length (rest.headD 0)) = cs.flatten ++ tail2 ∧
      lead_byte_length (rest.headD 0) ≤ rest.length ∧ 0 < lead_byte_length (rest.headD 0) := by
  obtain ⟨⟨hne, hlen⟩, _⟩ := charSeq_cons.mp hc
  obtain ⟨x, t, rfl⟩ := List.exists_cons_of_ne_nil hne
  have hr : rest = (x :: t) ++ (cs.flatten ++ tail2) := by
    rw [h, List.flatten_cons, List.append_assoc]
  have hx : rest.headD 0 = x := by rw [hr]; rfl
  rw [hx]
  simp only [List.headD_cons] at hlen
  refine ⟨?_, ?_, ?_, ?_⟩
  · rw [← hlen, hr, List.take_left]
  · rw [← hlen, hr, List.drop_left]
  · rw [← hlen, hr]; simp
  · rw [← hlen]; simp

theorem charSeq_flatten_pos {cs : List (List Nat)} (hc : CharSeq cs) (hne : cs ≠ []) :
    0 < cs.flatten.length := by
  obtain ⟨ch, cs', rfl⟩ := List.exists_cons_of_ne_nil hne
  obtain ⟨⟨hn, _⟩, _⟩ := charSeq_cons.mp hc
  have : 0 < ch.length := List.length_pos.mpr hn
  simp only [List.flatten_cons, List.length_append]
  omega

/-- The scan may stop with nothing taken when a limit is zero or no byte is left. -/
theorem scanResult_stop {rest : List Nat} {mc mb : Int} (h : mc = 0 ∨ mb = 0 ∨ rest = []) :
    ScanResult rest mc mb 0 0 := by
  refine ⟨[], rest, by simp, charSeq_nil, rfl, rfl, by simp, by simp, ?_, ?_⟩
  · rcases h with h | h | h
    · right; left; simp [h]
    · right; right; left; simp [h]
    · left; exact h
  · intro cs2 tail2 hsplit hc hmc hmb
    by_contra hcon
    have hne : cs2 ≠ [] := by
      intro h0; apply hcon; simp [h0]
    have hpos := charSeq_flatten_pos hc hne
    have hlen : 0 < cs2.length := List.length_pos.mpr hne
    rcases h with h | h | h
    · have := hmc (by omega); omega
    · have := hmb (by omega); omega
    · rw [h] at hsplit
      have h2 := congrArg List.length hsplit
      simp only [List.length_nil, List.length_append] at h2
      omega

/-- The scan stops with nothing taken when the next character does not fit the
bytes still allowed. -/
theorem scanResult_break {rest : List Nat} {mc mb : Int} (hne : rest ≠ [])
    (hmb : 0 < mb) (hbig : mb < (lead_byte_length (rest.headD 0) : Int)) :
    ScanResult rest mc mb 0 0 := by
  refine ⟨[], rest, by simp, charSeq_nil, rfl, rfl, by simp, by simp, ?_, ?_⟩
  · right; right; right
    exact ⟨hne, hmb, by simpa using hbig⟩
  · intro cs2 tail2 hsplit hc _ hmb2
    by_contra hcon
    have hne2 : cs2 ≠ [] := by
      intro h0; apply hcon; simp [h0]
    obtain ⟨ch, cs', rfl⟩ := List.exists_cons_of_ne_nil hne2
    obtain ⟨h1, _, _, _⟩ := charSeq_head_of_split hsplit hc
    have h3 : ch.length ≤ (ch :: cs').flatten.length := by simp
    have h4 := hmb2 (by omega)
    have h5 : ch.length = lead_byte_length (rest.headD 0) := by
      have := (charSeq_cons.mp hc).1.2
      obtain ⟨x, t, rfl⟩ := List.exists_cons_of_ne_nil (charSeq_cons.mp hc).1.1
      rw [this, hsplit]; rfl
    omega

/-- One more character in front of a scan of what follows it. -/
theorem scanResult_step {rest : List Nat} {mc mb : Int} {k j n : Nat} (hne : rest ≠ [])
    (hn : n = lead_byte_length (rest.headD 0)) (hpos : 0 < n) (hlen : n ≤ rest.length)
    (hmc : mc ≠ 0) (hmb : mb ≠ 0) (hfit : ¬ (mb > 0 ∧ (n : Int) > mb))
    (h : ScanResult (rest.drop n) (if mc > 0 then mc - 1 else mc)
      (if mb > 0 then mb - (n : Int) else mb) k j) :
    ScanResult rest mc mb (k + 1) (j + n) := by
  obtain ⟨cs, tail, hsplit, hc, hk, hj, hlc, hlb, hstop, hmax⟩ := h
  have htake : (rest.take n).length = n := by simp [hlen]
  have hhead : (rest.take n).headD 0 = rest.headD 0 := by
    obtain ⟨x, t, rfl⟩ := List.exists_cons_of_ne_nil hne
    obtain ⟨m, rfl⟩ : ∃ m, n = m + 1 := ⟨n - 1, by omega⟩
    rfl
  refine ⟨rest.take n :: cs, tail, ?_, ?_, ?_, ?_, ?_, ?_, ?_, ?_⟩
  · rw [List.flatten_cons, List.append_assoc, ← hsplit, List.take_append_drop]
  · refine charSeq_cons.mpr ⟨⟨?_, ?_⟩, hc⟩
    · intro h0; rw [h0] at htake; simp at htake; omega
    · rw [htake, hhead, hn]
  · simp [hk]
  · simp only [List.flatten_cons, List.length_append, htake, hj]; omega
  · intro h0
    have h1 : mc > 0 := by omega
    rw [if_pos h1] at hlc
    have := hlc (by omega)
    push_cast; omega
  · intro h0
    have h1 : mb > 0 := by omega
    rw [if_pos h1] at hlb
    have := hlb (by omega)
    push_cast; omega
  · rcases hstop with h0 | h0 | h0 | ⟨h0, h1, h2⟩
    · left; exact h0
    · right; left
      by_cases h1 : mc > 0
      · rw [if_pos h1] at h0; push_cast; omega
      · rw [if_neg h1] at h0; omega
    · right; right; left
      by_cases h1 : mb > 0
      · rw [if_pos h1] at h0; push_cast; omega
      · rw [if_neg h1] at h0; omega
    · right; right; right
      by_cases h3 : mb > 0
      · rw [if_pos h3] at h1 h2
        exact ⟨h0, h3, by push_cast; omega⟩
      · rw [if_neg h3] at h1; omega
  · intro cs2 tail2 hsplit2 hc2 hmc2 hmb2
    rcases cs2 with _ | ⟨ch, cs2'⟩
    · simp
    · obtain ⟨h1, h2, _, _⟩ := charSeq_head_of_split hsplit2 hc2
      rw [← hn] at h1 h2
      have hc2' := (charSeq_cons.mp hc2).2
      have hchlen : ch.length = n := by rw [h1, htake]
      have := hmax cs2' tail2 h2 hc2'
        (by
          intro h0
          by_cases h3 : mc > 0
          · rw [if_pos h3]
            have := hmc2 (by omega)
            simp only [List.length_cons] at this
            push_cast at this; omega
          · rw [if_neg h3] at h0; omega)
        (by
          intro h0
          by_cases h3 : mb > 0
          · rw [if_pos h3]
            have := hmb2 (by omega)
            simp only [List.flatten_cons, List.length_append, hchlen] at this
            push_cast at this; omega
          · rw [if_neg h3] at h0; omega)
      simp only [List.length_cons]; omega

/-- What the scanning loop returns: the counts it started from plus a scan of
the bytes it was given. -/
theorem find_utf8_chars_loop_ok (fuel : Nat) :
    ∀ (rest : List Nat) (mc mb : Int) (chars bytes chars' bytes' : Nat),
      find_utf8_chars_loop fuel rest mc mb chars bytes = .ok (chars', bytes') →
      ∃ k j, chars' = chars + k ∧ bytes' = bytes + j ∧ ScanResult rest mc mb k j := by
  induction fuel with
  | zero => intro rest mc mb chars bytes chars' bytes' h; simp [find_utf8_chars_loop] at h
  | succ fuel ih =>
    intro rest mc mb chars bytes chars' bytes' h
    rw [find_utf8_chars_loop] at h
    by_cases hgo : mc ≠ 0 ∧ mb ≠ 0 ∧ rest ≠ []
    · rw [if_pos hgo] at h
      obtain ⟨hmc, hmb, hne⟩ := hgo
      simp only at h
      by_cases hascii : rest.headD 0 < 128
      · rw [if_pos hascii] at h
        obtain ⟨k, j, hk, hj, hs⟩ := ih _ _ _ _ _ _ _ h
        have hL := lead_byte_length_ascii _ hascii
        have hlen : 1 ≤ rest.length := List.length_pos.mpr hne
        refine ⟨k + 1, j + 1, by omega, by omega, ?_⟩
        exact scanResult_step hne hL.symm (by omega) hlen hmc hmb (by omega)
          (by simpa using hs)
      · rw [if_neg hascii] at h
        by_cases h1 : rest.headD 0 < 0xc0
        · rw [if_pos h1] at h; cases h
        · rw [if_neg h1] at h
          by_cases h2 : rest.headD 0 ≥ 0xfe
          · rw [if_pos h2] at h; cases h
          · rw [if_neg h2] at h
            have hT := utf8_length_table _ hascii h1 h2
            have hP := lead_byte_length_pos_of_lead _ hascii h1 h2
            rw [hT] at h
            by_cases h3 : rest.length < lead_byte_length (rest.headD 0)
            · rw [if_pos h3] at h; cases h
            · rw [if_neg h3] at h
              by_cases h4 : mb > 0 ∧ (lead_byte_length (rest.headD 0) : Int) > mb
              · rw [if_pos h4] at h
                simp only [Except.ok.injEq, Prod.mk.injEq] at h
                exact ⟨0, 0, by omega, by omega, scanResult_break hne h4.1 h4.2⟩
              · rw [if_neg h4] at h
                obtain ⟨k, j, hk, hj, hs⟩ := ih _ _ _ _ _ _ _ h
                refine ⟨k + 1, j + lead_byte_length (rest.headD 0), by omega, by omega, ?_⟩
                exact scanResult_step hne rfl (by omega) (by omega) hmc hmb h4 hs
    · rw [if_neg hgo] at h
      simp only [Except.ok.injEq, Prod.mk.injEq] at h
      refine ⟨0, 0, by omega, by omega, scanResult_stop ?_⟩
      by_contra hcon
      apply hgo
      refine ⟨fun h0 => hcon (Or.inl h0), fun h0 => hcon (Or.inr (Or.inl h0)),
        fun h0 => hcon (Or.inr (Or.inr h0))⟩

/-- With more iterations allowed than bytes to scan, the loop never stops for
lack of iterations. -/
theorem find_utf8_chars_loop_fuel (fuel : Nat) :
    ∀ (rest : List Nat) (mc mb : Int) (chars bytes : Nat), rest.length < fuel →
      find_utf8_chars_loop fuel rest mc mb chars bytes ≠ .error .out_of_fuel := by
  induction fuel with
  | zero => intro rest mc mb chars bytes h; omega
  | succ fuel ih =>
    intro rest mc mb chars bytes hlt
    rw [find_utf8_chars_loop]
    by_cases hgo : mc ≠ 0 ∧ mb ≠ 0 ∧ rest ≠ []
    · rw [if_pos hgo]
      obtain ⟨hmc, hmb, hne⟩ := hgo
      have hlen : 1 ≤ rest.length := List.length_pos.mpr hne
      simp only
      by_cases hascii : rest.headD 0 < 128
      · rw [if_pos hascii]
        apply ih
        simp only [List.length_drop]; omega
      · rw [if_neg hascii]
        by_cases h1 : rest.headD 0 < 0xc0
        · rw [if_pos h1]; simp
        · rw [if_neg h1]
          by_cases h2 : rest.headD 0 ≥ 0xfe
          · rw [if_pos h2]; simp
          · rw [if_neg h2]
            have hT := utf8_length_table _ hascii h1 h2
            have hP := lead_byte_length_pos_of_lead _ hascii h1 h2
            rw [hT]
            by_cases h3 : rest.length < lead_byte_length (rest.headD 0)
            · rw [if_pos h3]; simp
            · rw [if_neg h3]
              by_cases h4 : mb > 0 ∧ (lead_byte_length (rest.headD 0) : Int) > mb
              · rw [if_pos h4]; simp
              · rw [if_neg h4]
                apply ih
                simp only [List.length_drop]; omega
    · rw [if_neg hgo]; simp

/-- The only faults of the scanner are the fatal error and the iteration bound. -/
theorem find_utf8_chars_loop_error (fuel : Nat) :
    ∀ (rest : List Nat) (mc mb : Int) (chars bytes : Nat) (f : Fault),
      find_utf8_chars_loop fuel rest mc mb chars bytes = .error f →
      f = .invalid_utf8 ∨ f = .out_of_fuel := by
  induction fuel with
  | zero =>
    intro rest mc mb chars bytes f h
    simp only [find_utf8_chars_loop, Except.error.injEq] at h
    exact Or.inr h.symm
  | succ fuel ih =>
    intro rest mc mb chars bytes f h
    rw [find_utf8_chars_loop] at h
    by_cases hgo : mc ≠ 0 ∧ mb ≠ 0 ∧ rest ≠ []
    · rw [if_pos hgo] at h
      simp only at h
      by_cases hascii : rest.headD 0 < 128
      · rw [if_pos hascii] at h
        exact ih _ _ _ _ _ _ h
      · rw [if_neg hascii] at h
        by_cases h1 : rest.headD 0 < 0xc0
        · rw [if_pos h1] at h
          simp only [Except.error.injEq] at h; exact Or.inl h.symm
        · rw [if_neg h1] at h
          by_cases h2 : rest.headD 0 ≥ 0xfe
          · rw [if_pos h2] at h
            simp only [Except.error.injEq] at h; exact Or.inl h.symm
          · rw [if_neg h2] at h
            by_cases h3 : rest.length < processx__utf8_length.getD (rest.headD 0 % 64) 0
            · rw [if_pos h3] at h
              simp only [Except.error.injEq] at h; exact Or.inl h.symm
            · rw [if_neg h3] at h
              by_cases h4 : mb > 0 ∧
                  (processx__utf8_length.getD (rest.headD 0 % 64) 0 : Int) > mb
              · rw [if_pos h4] at h; cases h
              · rw [if_neg h4] at h
                exact ih _ _ _ _ _ _ h
    · rw [if_neg hgo] at h; cases h

/-- A byte from 0x80 to 0xBF, or 0xFE or 0xFF, starts no character. -/
theorem lead_byte_length_zero (x : Nat) (h0 : ¬ x < 128) (h : x < 0xc0 ∨ x ≥ 0xfe) :
    lead_byte_length x = 0 := by
  unfold lead_byte_length
  split_ifs <;> omega

/-- A buffer that splits into characters by lead byte is scanned to its end
when no limit is set. -/
theorem find_utf8_chars_loop_accepts (cs : List (List Nat)) :
    ∀ (fuel chars bytes : Nat), CharSeq cs → cs.flatten.length < fuel →
      find_utf8_chars_loop fuel cs.flatten (-1) (-1) chars bytes
        = .ok (chars + cs.length, bytes + cs.flatten.length) := by
  induction cs with
  | nil =>
    intro fuel chars bytes _ hf
    obtain ⟨m, rfl⟩ : ∃ m, fuel = m + 1 := ⟨fuel - 1, by omega⟩
    simp [find_utf8_chars_loop]
  | cons ch cs ih =>
    intro fuel chars bytes hc hf
    obtain ⟨⟨hne, hlen⟩, hcs⟩ := charSeq_cons.mp hc
    obtain ⟨x, t, rfl⟩ := List.exists_cons_of_ne_nil hne
    obtain ⟨m, rfl⟩ : ∃ m, fuel = m + 1 := ⟨fuel - 1, by omega⟩
    simp only [List.headD_cons] at hlen
    simp only [List.flatten_cons, List.length_append, List.length_cons] at hf
    have hfl : (x :: t ++ cs.flatten) = x :: (t ++ cs.flatten) := rfl
    rw [find_utf8_chars_loop, List.flatten_cons, hfl]
    have hgo : (-1 : Int) ≠ 0 ∧ (-1 : Int) ≠ 0 ∧ x :: (t ++ cs.flatten) ≠ [] := by simp
    rw [if_pos hgo]
    simp only [List.headD_cons]
    by_cases hascii : x < 128
    · rw [if_pos hascii]
      have hL := lead_byte_length_ascii _ hascii
      have ht : t = [] := by
        apply List.eq_nil_of_length_eq_zero
        simp only [List.length_cons] at hlen; omega
      subst ht
      have hm : cs.flatten.length < m := by simp only [List.length_nil] at hf; omega
      have := ih m (chars + 1) (bytes + 1) hcs hm
      simp only [List.drop_succ_cons, List.drop_zero, List.nil_append, List.length_cons,
        List.length_nil, List.length_append]
      have hneg : ¬ ((-1 : Int) > 0) := by omega
      simp only [if_neg hneg]
      rw [this]
      simp only [Except.ok.injEq, Prod.mk.injEq]; omega
    · rw [if_neg hascii]
      have hx : lead_byte_length x ≠ 0 := by rw [← hlen]; simp
      have h1 : ¬ x < 0xc0 := fun h => hx (lead_byte_length_zero _ hascii (Or.inl h))
      have h2 : ¬ x ≥ 0xfe := fun h => hx (lead_byte_length_zero _ hascii (Or.inr h))
      rw [if_neg h1, if_neg h2]
      have hT := utf8_length_table _ hascii h1 h2
      simp only [hT, ← hlen]
      have h3 : ¬ (x :: (t ++ cs.flatten)).length < (x :: t).length := by simp
      have h4 : ¬ ((-1 : Int) > 0 ∧ ((x :: t).length : Int) > -1) := by omega
      rw [if_neg h3, if_neg h4]
      have hd : List.drop (x :: t).length (x :: (t ++ cs.flatten)) = cs.flatten := by
        rw [← hfl, List.drop_left]
      have hm : cs.flatten.length < m := by omega
      have hneg : ¬ ((-1 : Int) > 0) := by omega
      simp only [hd, if_neg hneg]
      rw [ih m (chars + 1) (bytes + (x :: t).length) hcs hm]
      simp only [Except.ok.injEq, Prod.mk.injEq, List.length_cons, List.length_append]
      omega

theorem utf8_sequence_length {l : List Nat} {n : Nat} (h : utf8_sequence l = some n) :
    n = lead_byte_length (l.headD 0) ∧ 0 < n ∧ n ≤ l.length := by
  rcases l with _ | ⟨a, r⟩
  · simp [utf8_sequence] at h
  · simp only [utf8_sequence] at h
    simp only [List.headD_cons, List.length_cons]
    split_ifs at h with h1 h2 h3 h4 h5 h6 h7
    all_goals
      simp only [Option.some.injEq] at h
      subst h
      refine ⟨?_, by omega, by omega⟩
      unfold lead_byte_length
      split_ifs <;> omega

/-- Every well-formed UTF-8 string splits into characters by lead byte. -/
theorem well_formed_utf8_upto_split (fuel : Nat) :
    ∀ l : List Nat, well_formed_utf8_upto fuel l = true →
      ∃ cs, CharSeq cs ∧ cs.flatten = l := by
  induction fuel with
  | zero =>
    intro l h
    rcases l with _ | ⟨a, r⟩
    · exact ⟨[], charSeq_nil, rfl⟩
    · simp [well_formed_utf8_upto] at h
  | succ fuel ih =>
    intro l h
    rcases l with _ | ⟨a, r⟩
    · exact ⟨[], charSeq_nil, rfl⟩
    · simp only [well_formed_utf8_upto] at h
      cases hs : utf8_sequence (a :: r) with
      | none => simp [hs] at h
      | some n =>
        simp only [hs] at h
        obtain ⟨hn, hpos, hlen⟩ := utf8_sequence_length hs
        obtain ⟨cs, hc, hfl⟩ := ih _ h
        refine ⟨(a :: r).take n :: cs, charSeq_cons.mpr ⟨⟨?_, ?_⟩, hc⟩, ?_⟩
        · obtain ⟨m, rfl⟩ : ∃ m, n = m + 1 := ⟨n - 1, by omega⟩
          simp
        · have hh : ((a :: r).take n).headD 0 = a := by
            obtain ⟨m, rfl⟩ : ∃ m, n = m + 1 := ⟨n - 1, by omega⟩
            rfl
          rw [hh, List.length_take, Nat.min_eq_left hlen]
          exact hn
        · rw [List.flatten_cons, hfl, List.take_append_drop]

/-- On a buffer that splits into characters by lead byte the scanning loop
returns a count, whatever the limits. -/
theorem find_utf8_chars_loop_returns (cs : List (List Nat)) :
    ∀ (fuel : Nat) (mc mb : Int) (chars bytes : Nat), CharSeq cs → cs.flatten.length < fuel →
      ∃ r, find_utf8_chars_loop fuel cs.flatten mc mb chars bytes = .ok r := by
  induction cs with
  | nil =>
    intro fuel mc mb chars bytes _ hf
    obtain ⟨m, rfl⟩ : ∃ m, fuel = m + 1 := ⟨fuel - 1, by omega⟩
    exact ⟨(chars, bytes), by simp [find_utf8_chars_loop]⟩
  | cons ch cs ih =>
    intro fuel mc mb chars bytes hc hf
    obtain ⟨⟨hne, hlen⟩, hcs⟩ := charSeq_cons.mp hc
    obtain ⟨x, t, rfl⟩ := List.exists_cons_of_ne_nil hne
    obtain ⟨m, rfl⟩ : ∃ m, fuel = m + 1 := ⟨fuel - 1, by omega⟩
    simp only [List.headD_cons] at hlen
    simp only [List.flatten_cons, List.length_append, List.length_cons] at hf
    have hfl : (x :: t ++ cs.flatten) = x :: (t ++ cs.flatten) := rfl
    have hm : cs.flatten.length < m := by omega
    rw [find_utf8_chars_loop, List.flatten_cons, hfl]
    by_cases hgo : mc ≠ 0 ∧ mb ≠ 0 ∧ x :: (t ++ cs.flatten) ≠ []
    · rw [if_pos hgo]
      simp only [List.headD_cons]
      by_cases hascii : x < 128
      · rw [if_pos hascii]
        have hL := lead_byte_length_ascii _ hascii
        have ht : t = [] := by
          apply List.eq_nil_of_length_eq_zero
          simp only [List.length_cons] at hlen; omega
        subst ht
        simp only [List.drop_succ_cons, List.drop_zero, List.nil_append]
        exact ih m _ _ _ _ hcs hm
      · rw [if_neg hascii]
        have hx : lead_byte_length x ≠ 0 := by rw [← hlen]; simp
        have h1 : ¬ x < 0xc0 := fun h => hx (lead_byte_length_zero _ hascii (Or.inl h))
        have h2 : ¬ x ≥ 0xfe := fun h => hx (lead_byte_length_zero _ hascii (Or.inr h))
        rw [if_neg h1, if_neg h2]
        have hT := utf8_length_table _ hascii h1 h2
        simp only [hT, ← hlen]
        have h3 : ¬ (x :: (t ++ cs.flatten)).length < (x :: t).length := by simp
        rw [if_neg h3]
        by_cases h4 : mb > 0 ∧ ((x :: t).length : Int) > mb
        · rw [if_pos h4]; exact ⟨_, rfl⟩
        · rw [if_neg h4]
          have hd : List.drop (x :: t).length (x :: (t ++ cs.flatten)) = cs.flatten := by
            rw [← hfl, List.drop_left]
          rw [hd]
          exact ih m _ _ _ _ hcs hm
    · rw [if_neg hgo]; exact ⟨_, rfl⟩

/-- A buffer the scanner accepts without limits splits into characters by
lead byte. -/
theorem split_of_find_utf8_chars_ok {c : Connection} {r : Nat × Nat}
    (h : processx__connection_find_utf8_chars c (-1) (-1) = .ok r) :
    ∃ cs, CharSeq cs ∧ cs.flatten = c.utf8 := by
  obtain ⟨k, j, _, _, cs, tail, hsplit, hc, _, hj, _, hlb, hstop, _⟩ :=
    find_utf8_chars_loop_ok _ _ _ _ _ _ _ _ h
  rcases hstop with h0 | h0 | h0 | ⟨_, h0, _⟩
  · exact ⟨cs, hc, by rw [hsplit, h0, List.append_nil]⟩
  · omega
  · omega
  · omega

/-- C9: for a decoded buffer the scanner accepts (it returns when no limit is
set) and for all limits, `processx__connection_find_utf8_chars` returns a pair
`(chars, bytes)` such that: the buffer starts with `chars` characters whose
lengths are those given by their lead bytes (`lead_byte_length`), `bytes` is their
total length, neither limit is exceeded (a negative limit is no limit), the scan
has stopped at the end of the buffer, at a limit, or in front of a character
longer than the bytes still allowed, and no larger number of whole characters
fits the limits. -/
theorem find_utf8_chars_counts_whole_characters (c : Connection) (maxchars maxbytes : Int)
    (hacc : ∃ r, processx__connection_find_utf8_chars c (-1) (-1) = .ok r) :
    ∃ chars bytes,
      processx__connection_find_utf8_chars c maxchars maxbytes = .ok (chars, bytes) ∧
      ∃ (cs : List (List Nat)) (tail : List Nat), c.utf8 = cs.flatten ++ tail ∧
        (∀ ch ∈ cs, ch ≠ [] ∧ ch.length = lead_byte_length (ch.headD 0)) ∧
        cs.length = chars ∧ cs.flatten.length = bytes ∧
        (0 ≤ maxchars → (chars : Int) ≤ maxchars) ∧
        (0 ≤ maxbytes → (bytes : Int) ≤ maxbytes) ∧
        (tail = [] ∨ (chars : Int) = maxchars ∨ (bytes : Int) = maxbytes ∨
          (tail ≠ [] ∧ 0 < maxbytes ∧
            maxbytes - (bytes : Int) < (lead_byte_length (tail.headD 0) : Int))) ∧
        ∀ (cs2 : List (List Nat)) (tail2 : List Nat), c.utf8 = cs2.flatten ++ tail2 →
          (∀ ch ∈ cs2, ch ≠ [] ∧ ch.length = lead_byte_length (ch.headD 0)) →
          (0 ≤ maxchars → (cs2.length : Int) ≤ maxchars) →
          (0 ≤ maxbytes → (cs2.flatten.length : Int) ≤ maxbytes) →
          cs2.length ≤ chars := by
  obtain ⟨r0, h0⟩ := hacc
  obtain ⟨cs0, hc0, hfl0⟩ := split_of_find_utf8_chars_ok h0
  obtain ⟨r, hr⟩ := find_utf8_chars_loop_returns cs0 (c.utf8.length + 1) maxchars maxbytes 0 0 hc0
    (by rw [hfl0]; omega)
  rw [hfl0] at hr
  obtain ⟨chars, bytes⟩ := r
  obtain ⟨k, j, hk, hj, hs⟩ := find_utf8_chars_loop_ok _ _ _ _ _ _ _ _ hr
  have hk' : k = chars := by omega
  have hj' : j = bytes := by omega
  subst hk' hj'
  exact ⟨k, j, hr, hs⟩

/-- C9, on a concrete buffer: "€Aé" is accepted, and with no character limit
and five bytes allowed the scanner returns two characters spanning four
bytes. -/
theorem find_utf8_chars_counts_whole_characters_witness :
    (∃ r, processx__connection_find_utf8_chars
        (sample_connection [0xe2, 0x82, 0xac, 0x41, 0xc3, 0xa9] false) (-1) (-1) = .ok r) ∧
    processx__connection_find_utf8_chars
        (sample_connection [0xe2, 0x82, 0xac, 0x41, 0xc3, 0xa9] false) (-1) 5 = .ok (2, 4) ∧
    ∃ chars bytes,
      processx__connection_find_utf8_chars
        (sample_connection [0xe2, 0x82, 0xac, 0x41, 0xc3, 0xa9] false) (-1) 5
          = .ok (chars, bytes) ∧
      ∃ (cs : List (List Nat)) (tail : List Nat),
        (sample_connection [0xe2, 0x82, 0xac, 0x41, 0xc3, 0xa9] false).utf8
          = cs.flatten ++ tail ∧
        (∀ ch ∈ cs, ch ≠ [] ∧ ch.length = lead_byte_length (ch.headD 0)) ∧
        cs.length = chars ∧ cs.flatten.length = bytes ∧
        (0 ≤ (-1 : Int) → (chars : Int) ≤ -1) ∧
        (0 ≤ (5 : Int) → (bytes : Int) ≤ 5) ∧
        (tail = [] ∨ (chars : Int) = -1 ∨ (bytes : Int) = 5 ∨
          (tail ≠ [] ∧ 0 < (5 : Int) ∧
            (5 : Int) - (bytes : Int) < (lead_byte_length (tail.headD 0) : Int))) ∧
        ∀ (cs2 : List (List Nat)) (tail2 : List Nat),
          (sample_connection [0xe2, 0x82, 0xac, 0x41, 0xc3, 0xa9] false).utf8
            = cs2.flatten ++ tail2 →
          (∀ ch ∈ cs2, ch ≠ [] ∧ ch.length = lead_byte_length (ch.headD 0)) →
          (0 ≤ (-1 : Int) → (cs2.length : Int) ≤ -1) →
          (0 ≤ (5 : Int) → (cs2.flatten.length : Int) ≤ 5) →
          cs2.length ≤ chars :=
  ⟨⟨(3, 6), by rfl⟩, by rfl, find_utf8_chars_counts_whole_characters
    (sample_connection [0xe2, 0x82, 0xac, 0x41, 0xc3, 0xa9] false) (-1) 5 ⟨(3, 6), by rfl⟩⟩

/-- C10 (the claim fails): the two bytes 0xC3 0x28 are not well-formed UTF-8 (the
second is not a continuation byte), yet the scanner with no limits returns one
character of two bytes instead of its fatal error. -/
theorem find_utf8_chars_accepts_ill_formed_utf8 :
    well_formed_utf8 [0xc3, 0x28] = false ∧
    processx__connection_find_utf8_chars (sample_connection [0xc3, 0x28] false) (-1) (-1)
      = .ok (1, 2) := by
  refine ⟨?_, ?_⟩ <;> rfl

/-- C10 (amended): the scanner checks lead bytes and lengths only.  With no
limits, `processx__connection_find_utf8_chars` ends in its fatal error exactly
when the decoded buffer cannot be split into characters whose lengths are those
given by their lead bytes (it meets a lead byte from 0x80 to 0xBF, or 0xFE or
0xFF, or a last character cut short); otherwise it returns the number of
characters and the size of the buffer.  Every well-formed UTF-8 buffer can be
split in this way, so it is accepted. -/
theorem find_utf8_chars_fatal_iff_no_split_by_lead_byte (c : Connection) :
    (processx__connection_find_utf8_chars c (-1) (-1) = .error .invalid_utf8 ↔
      ¬ ∃ cs, CharSeq cs ∧ cs.flatten = c.utf8) ∧
    (∀ cs, CharSeq cs → cs.flatten = c.utf8 →
      processx__connection_find_utf8_chars c (-1) (-1) = .ok (cs.length, c.utf8.length)) ∧
    (well_formed_utf8 c.utf8 = true → ∃ cs, CharSeq cs ∧ cs.flatten = c.utf8) := by
  have hacc : ∀ cs, CharSeq cs → cs.flatten = c.utf8 →
      processx__connection_find_utf8_chars c (-1) (-1) = .ok (cs.length, c.utf8.length) := by
    intro cs hc hfl
    have := find_utf8_chars_loop_accepts cs (c.utf8.length + 1) 0 0 hc (by rw [hfl]; omega)
    unfold processx__connection_find_utf8_chars
    rw [← hfl] at this ⊢
    simpa using this
  refine ⟨⟨?_, ?_⟩, hacc, well_formed_utf8_upto_split _ _⟩
  · rintro herr ⟨cs, hc, hfl⟩
    rw [hacc cs hc hfl] at herr
    cases herr
  · intro hno
    cases hr : processx__connection_find_utf8_chars c (-1) (-1) with
    | error f =>
      rcases find_utf8_chars_loop_error _ _ _ _ _ _ _ hr with rfl | rfl
      · rfl
      · exact absurd hr (find_utf8_chars_loop_fuel _ _ _ _ _ _ (by omega))
    | ok r =>
      exfalso
      obtain ⟨k, j, _, _, cs, tail, hsplit, hc, _, hj, _, hlb, hstop, _⟩ :=
        find_utf8_chars_loop_ok _ _ _ _ _ _ _ _ hr
      rcases hstop with h0 | h0 | h0 | ⟨_, h0, _⟩
      · exact hno ⟨cs, hc, by rw [hsplit, h0, List.append_nil]⟩
      · omega
      · omega
      · omega

/-! ## Reading characters -/

theorem find_chars_inv {env : Env} {c : Connection} {src : Source} {maxchars maxbytes : Int}
    {c1 : Connection} {src1 : Source} {chars : Option Nat} {bytes : Nat}
    (h : processx__connection_find_chars env c src maxchars maxbytes = .ok (c1, src1, chars, bytes)) :
    ¬ c.handle < 0 ∧
    ((c.is_eof_ = false ∧ c.utf8.length = 0 ∧
        ∃ n, processx__connection_read env c src = .ok (c1, src1, n)) ∨
      ((c.is_eof_ = true ∨ c.utf8.length ≠ 0) ∧ c1 = c ∧ src1 = src)) ∧
    (((c1.utf8.length = 0 ∨ maxchars = 0) ∧ chars = none ∧ bytes = 0) ∨
      (¬ (c1.utf8.length = 0 ∨ maxchars = 0) ∧ ∃ k, chars = some k ∧
        processx__connection_find_utf8_chars c1 maxchars maxbytes = .ok (k, bytes))) := by
  unfold processx__connection_find_chars PROCESSX_CHECK_VALID_CONN at h
  by_cases hh : c.handle < 0
  · simp [hh, bind, Except.bind] at h
  · refine ⟨hh, ?_⟩
    simp only [hh, if_false, bind, Except.bind] at h
    by_cases hr : (!c.is_eof_ && c.utf8.length == 0) = true
    · simp only [hr, if_true] at h
      cases hrd : processx__connection_read env c src with
      | error f => simp [hrd, Except.map] at h
      | ok r =>
        obtain ⟨r1, r2, r3⟩ := r
        simp only [hrd, Except.map] at h
        simp only [Bool.and_eq_true, Bool.not_eq_eq_eq_not, Bool.not_true, beq_iff_eq] at hr
        by_cases h0 : r1.utf8.length = 0 ∨ maxchars = 0
        · simp only [h0, if_true, pure, Except.pure, Except.ok.injEq, Prod.mk.injEq] at h
          obtain ⟨rfl, rfl, rfl, rfl⟩ := h
          exact ⟨Or.inl ⟨hr.1, hr.2, r3, rfl⟩, Or.inl ⟨h0, rfl, rfl⟩⟩
        · simp only [h0, if_false] at h
          cases hs : processx__connection_find_utf8_chars r1 maxchars maxbytes with
          | error f => simp [hs] at h
          | ok q =>
            simp only [hs, pure, Except.pure, Except.ok.injEq, Prod.mk.injEq] at h
            obtain ⟨rfl, rfl, rfl, rfl⟩ := h
            exact ⟨Or.inl ⟨hr.1, hr.2, r3, rfl⟩, Or.inr ⟨h0, q.1, rfl, hs⟩⟩
    · simp only [hr, pure, Except.pure] at h
      have hr' : c.is_eof_ = true ∨ c.utf8.length ≠ 0 := by
        by_contra hcon
        apply hr
        simp only [not_or, Bool.not_eq_true, ne_eq, not_not] at hcon
        simp [hcon.1, hcon.2]
      by_cases h0 : c.utf8.length = 0 ∨ maxchars = 0
      · simp only [h0, if_true, Except.ok.injEq, Prod.mk.injEq] at h
        obtain ⟨rfl, rfl, rfl, rfl⟩ := h
        exact ⟨Or.inr ⟨hr', rfl, rfl⟩, Or.inl ⟨h0, rfl, rfl⟩⟩
      · simp only [h0, if_false] at h
        cases hs : processx__connection_find_utf8_chars c maxchars maxbytes with
        | error f => simp [hs] at h
        | ok q =>
          simp only [hs, Except.ok.injEq, Prod.mk.injEq] at h
          obtain ⟨rfl, rfl, rfl, rfl⟩ := h
          exact ⟨Or.inr ⟨hr', rfl, rfl⟩, Or.inr ⟨h0, q.1, rfl, hs⟩⟩

/-- The byte count of the scanner never exceeds the decoded data. -/
theorem find_utf8_chars_bytes_le {c : Connection} {maxchars maxbytes : Int} {k bytes : Nat}
    (h : processx__connection_find_utf8_chars c maxchars maxbytes = .ok (k, bytes)) :
    bytes ≤ c.utf8.length := by
  obtain ⟨k', j, _, hj, cs, tail, hsplit, _, _, hlen, _⟩ :=
    find_utf8_chars_loop_ok _ _ _ _ _ _ _ _ h
  have := congrArg List.length hsplit
  simp only [List.length_append] at this
  omega

theorem find_chars_bytes_le {env : Env} {c : Connection} {src : Source} {maxchars maxbytes : Int}
    {c1 : Connection} {src1 : Source} {chars : Option Nat} {bytes : Nat}
    (h : processx__connection_find_chars env c src maxchars maxbytes = .ok (c1, src1, chars, bytes)) :
    bytes ≤ c1.utf8.length := by
  obtain ⟨_, _, h3⟩ := find_chars_inv h
  rcases h3 with ⟨_, _, rfl⟩ | ⟨_, k, _, hk⟩
  · omega
  · exact find_utf8_chars_bytes_le hk

/-- What `processx_connection_read_chars` does once the availability step and
the scan have succeeded. -/
theorem read_chars_of_find_chars {env : Env} {c : Connection} {src : Source} {nchars : Int}
    {c1 : Connection} {src1 : Source} {chars : Option Nat} {bytes : Nat}
    (h : processx__connection_find_chars env c src nchars (-1) = .ok (c1, src1, chars, bytes))
    (hnul : 0 ∉ c1.utf8.take bytes) :
    processx_connection_read_chars env c src nchars
      = .ok (c1.utf8.take bytes, { c1 with utf8 := c1.utf8.drop bytes }, src1) := by
  have hle := find_chars_bytes_le h
  unfold processx_connection_read_chars mkCharLenCE utf8_drop
  simp only [h, bind, Except.bind]
  have h1 : ¬ ((bytes : Int) < 0) := by omega
  have h2 : ¬ ((0 : Int) < 0 ∨ (c1.utf8.length : Int) < 0 + (bytes : Int)) := by omega
  have h3 : ¬ ((bytes : Int) < 0 ∨ (c1.utf8.length : Int) < (bytes : Int)) := by omega
  have h4 : ¬ (c1.utf8.length < bytes) := by omega
  simp [h1, h2, h3, h4, hnul, pure, Except.pure]

/-- The call raises the error of the host runtime when the bytes to be
returned hold a NUL byte; the decoded buffer is not compacted then. -/
theorem read_chars_of_find_chars_nul {env : Env} {c : Connection} {src : Source} {nchars : Int}
    {c1 : Connection} {src1 : Source} {chars : Option Nat} {bytes : Nat}
    (h : processx__connection_find_chars env c src nchars (-1) = .ok (c1, src1, chars, bytes))
    (hnul : 0 ∈ c1.utf8.take bytes) :
    processx_connection_read_chars env c src nchars = .error .embedded_nul := by
  have hle := find_chars_bytes_le h
  unfold processx_connection_read_chars mkCharLenCE
  simp only [h, bind, Except.bind]
  have h1 : ¬ ((bytes : Int) < 0) := by omega
  have h2 : ¬ ((0 : Int) < 0 ∨ (c1.utf8.length : Int) < 0 + (bytes : Int)) := by omega
  have h5 : 0 ∈ List.take (bytes : Int).toNat (List.drop (0 : Int).toNat c1.utf8) := by
    simpa using hnul
  rw [if_neg h1, if_neg h2, if_pos h5]

/-- A call on a connection whose decoded buffer is not empty skips the
availability step. -/
theorem find_chars_state_of_nonempty {env : Env} {c : Connection} {src : Source}
    {maxchars maxbytes : Int} {c1 : Connection} {src1 : Source} {chars : Option Nat} {bytes : Nat}
    (hne : c.utf8 ≠ [])
    (h : processx__connection_find_chars env c src maxchars maxbytes = .ok (c1, src1, chars, bytes)) :
    c1 = c ∧ src1 = src := by
  obtain ⟨_, h2, _⟩ := find_chars_inv h
  rcases h2 with ⟨_, h0, _⟩ | ⟨_, h1, h2⟩
  · exact absurd (List.eq_nil_of_length_eq_zero h0) hne
  · exact ⟨h1, h2⟩

theorem read_chars_inv {env : Env} {c : Connection} {src : Source} {nchars : Int}
    {text : List Nat} {c2 : Connection} {src2 : Source}
    (h : processx_connection_read_chars env c src nchars = .ok (text, c2, src2)) :
    ∃ c1 chars bytes,
      processx__connection_find_chars env c src nchars (-1) = .ok (c1, src2, chars, bytes) ∧
      0 ∉ c1.utf8.take bytes := by
  cases hf : processx__connection_find_chars env c src nchars (-1) with
  | error f => simp [processx_connection_read_chars, hf, bind, Except.bind] at h
  | ok r =>
    obtain ⟨c1, src1, chars, bytes⟩ := r
    by_cases hn : 0 ∈ c1.utf8.take bytes
    · rw [read_chars_of_find_chars_nul hf hn] at h
      cases h
    · rw [read_chars_of_find_chars hf hn] at h
      simp only [Except.ok.injEq, Prod.mk.injEq] at h
      exact ⟨c1, chars, bytes, by rw [h.2.2], hn⟩

/-- C8: `processx_connection_read_chars` returns a leading part of the decoded
buffer as it stands after the availability step (state `c1`) and removes exactly
that part.  When the availability step and the scan have succeeded with the
byte count `bytes`, the call returns unless the `bytes` bytes to be returned
hold a NUL byte, in which case the host runtime raises its error before
anything is removed.  When it returns, the text returned is the first `bytes`
bytes, the text followed by the decoded buffer left behind is the decoded
buffer before extraction, the decoded size decreases by exactly the number of
bytes returned and nothing else in the connection changes; and a second call
made while decoded bytes are left continues after the returned text, so that
no returned byte is produced again. -/
theorem read_chars_removes_exactly_what_it_returns (env : Env) (c : Connection) (src : Source)
    (nchars : Int) (c1 : Connection) (src1 : Source) (chars : Option Nat) (bytes : Nat)
    (h : processx__connection_find_chars env c src nchars (-1) = .ok (c1, src1, chars, bytes)) :
    (0 ∈ c1.utf8.take bytes →
      processx_connection_read_chars env c src nchars = .error .embedded_nul) ∧
    (0 ∉ c1.utf8.take bytes →
      ∃ text c2,
        processx_connection_read_chars env c src nchars = .ok (text, c2, src1) ∧
        text ++ c2.utf8 = c1.utf8 ∧
        text.length = bytes ∧
        c2.utf8_data_size + bytes = c1.utf8_data_size ∧
        c2 = { c1 with utf8 := c2.utf8 } ∧
        ∀ (n2 : Int) (text2 : List Nat) (c3 : Connection) (src3 : Source), c2.utf8 ≠ [] →
          processx_connection_read_chars env c2 src1 n2 = .ok (text2, c3, src3) →
          text ++ text2 ++ c3.utf8 = c1.utf8) ∧
    (∀ (text : List Nat) (c2 : Connection) (src2 : Source),
      processx_connection_read_chars env c src nchars = .ok (text, c2, src2) →
      text = c1.utf8.take bytes ∧ c2 = { c1 with utf8 := c1.utf8.drop bytes } ∧ src2 = src1 ∧
      text ++ c2.utf8 = c1.utf8 ∧ c2.utf8_data_size + text.length = c1.utf8_data_size) := by
  have hle := find_chars_bytes_le h
  refine ⟨fun hn => read_chars_of_find_chars_nul h hn, fun hn => ?_, ?_⟩
  · refine ⟨c1.utf8.take bytes, { c1 with utf8 := c1.utf8.drop bytes },
      read_chars_of_find_chars h hn, List.take_append_drop _ _, ?_, ?_, rfl, ?_⟩
    · simp [hle]
    · simp only [Connection.utf8_data_size, List.length_drop]; omega
    · intro n2 text2 c3 src3 hne h2
      obtain ⟨c1', chars', bytes', hf, hn'⟩ := read_chars_inv h2
      obtain ⟨hc, _⟩ := find_chars_state_of_nonempty hne hf
      subst hc
      rw [read_chars_of_find_chars hf hn'] at h2
      simp only [Except.ok.injEq, Prod.mk.injEq] at h2
      obtain ⟨rfl, rfl, _⟩ := h2
      simp only [List.append_assoc, List.take_append_drop]
  · intro text c2 src2 h2
    by_cases hn : 0 ∈ c1.utf8.take bytes
    · rw [read_chars_of_find_chars_nul h hn] at h2
      cases h2
    · rw [read_chars_of_find_chars h hn] at h2
      simp only [Except.ok.injEq, Prod.mk.injEq] at h2
      obtain ⟨rfl, rfl, rfl⟩ := h2
      refine ⟨rfl, rfl, rfl, List.take_append_drop _ _, ?_⟩
      simp only [Connection.utf8_data_size, List.length_drop, List.length_take]
      omega

/-- C8, on concrete connections: with "éb\n" decoded, asking for one character
returns the two bytes of "é" and leaves "b\n"; with the bytes `61 00 62`
decoded, asking for three characters raises the error of the host runtime. -/
theorem read_chars_removes_exactly_what_it_returns_witness :
    processx__connection_find_chars (sample_env 0) (sample_connection [0xc3, 0xa9, 98, 10] false)
        quiet 1 (-1)
      = .ok (sample_connection [0xc3, 0xa9, 98, 10] false, quiet, some 1, 2) ∧
    (∃ text c2,
      processx_connection_read_chars (sample_env 0)
        (sample_connection [0xc3, 0xa9, 98, 10] false) quiet 1 = .ok (text, c2, quiet) ∧
      text ++ c2.utf8 = (sample_connection [0xc3, 0xa9, 98, 10] false).utf8 ∧
      text.length = 2 ∧
      c2.utf8_data_size + 2 = (sample_connection [0xc3, 0xa9, 98, 10] false).utf8_data_size ∧
      c2 = { sample_connection [0xc3, 0xa9, 98, 10] false with utf8 := c2.utf8 } ∧
      ∀ (n2 : Int) (text2 : List Nat) (c3 : Connection) (src3 : Source), c2.utf8 ≠ [] →
        processx_connection_read_chars (sample_env 0) c2 quiet n2 = .ok (text2, c3, src3) →
        text ++ text2 ++ c3.utf8 = (sample_connection [0xc3, 0xa9, 98, 10] false).utf8) ∧
    processx_connection_read_chars (sample_env 0) (sample_connection [0x61, 0, 0x62] false)
        quiet 3 = .error .embedded_nul :=
  ⟨rfl,
    (read_chars_removes_exactly_what_it_returns (sample_env 0)
      (sample_connection [0xc3, 0xa9, 98, 10] false) quiet 1
      (sample_connection [0xc3, 0xa9, 98, 10] false) quiet (some 1) 2 rfl).2.1 (by decide),
    (read_chars_removes_exactly_what_it_returns (sample_env 0)
      (sample_connection [0x61, 0, 0x62] false) quiet 3
      (sample_connection [0x61, 0, 0x62] false) quiet (some 3) 3 rfl).1 (by decide)⟩

/-! ## Reading lines that are in the decoded buffer -/

/-- What the newline scan returns: an offset between `ptr` and `e`, with no
newline before it, and a newline at it unless it is `e`. -/
theorem scan_newline_spec (utf8 : List Nat) (e : Nat) :
    ∀ (fuel ptr : Nat), ptr ≤ e → e - ptr ≤ fuel →
      ptr ≤ scan_newline utf8 fuel ptr e ∧ scan_newline utf8 fuel ptr e ≤ e ∧
      (∀ i, ptr ≤ i → i < scan_newline utf8 fuel ptr e → utf8.getD i 0 ≠ 10) ∧
      (scan_newline utf8 fuel ptr e < e → utf8.getD (scan_newline utf8 fuel ptr e) 0 = 10) := by
  intro fuel
  induction fuel with
  | zero =>
    intro ptr h1 h2
    have : ptr = e := by omega
    subst this
    refine ⟨by simp [scan_newline], by simp [scan_newline], ?_, by simp [scan_newline]⟩
    intro i hi1 hi2
    simp only [scan_newline] at hi2
    omega
  | succ fuel ih =>
    intro ptr h1 h2
    rw [scan_newline]
    by_cases hc : ptr < e ∧ utf8.getD ptr 0 ≠ 10
    · rw [if_pos hc]
      obtain ⟨a, b, c', d⟩ := ih (ptr + 1) (by omega) (by omega)
      refine ⟨by omega, b, ?_, d⟩
      intro i hi1 hi2
      by_cases hip : i = ptr
      · subst hip; exact hc.2
      · exact c' i (by omega) hi2
    · rw [if_neg hc]
      refine ⟨le_refl _, h1, fun i hi1 hi2 => by omega, ?_⟩
      intro hlt
      by_contra hne
      exact hc ⟨hlt, hne⟩

theorem getD_append_mid (pre l post : List Nat) (x : Nat) :
    (pre ++ l ++ x :: post).getD (pre.length + l.length) 0 = x := by
  rw [List.getD_eq_getElem?_getD, List.getElem?_append_right (by simp)]
  simp

theorem getD_append_inner (pre l post : List Nat) (i : Nat) (h1 : pre.length ≤ i)
    (h2 : i < pre.length + l.length) :
    (pre ++ l ++ post).getD i 0 = l.getD (i - pre.length) 0 := by
  rw [List.getD_eq_getElem?_getD, List.getD_eq_getElem?_getD, List.append_assoc,
    List.getElem?_append_right h1, List.getElem?_append_left (by omega)]

theorem getD_ne_of_not_mem (l : List Nat) (i : Nat) (h : i < l.length) (hno : 10 ∉ l) :
    l.getD i 0 ≠ 10 := by
  rw [List.getD_eq_getElem?_getD, List.getElem?_eq_getElem h]
  simp only [Option.getD_some]
  intro h10
  exact hno (h10 ▸ List.getElem_mem h)

/-- The scan started at the beginning of a line stops at the newline that ends it. -/
theorem scan_newline_line (pre l post : List Nat) (hno : 10 ∉ l) (fuel e : Nat)
    (he1 : pre.length + l.length < e) (hf : e - pre.length ≤ fuel) :
    scan_newline (pre ++ l ++ 10 :: post) fuel pre.length e = pre.length + l.length := by
  obtain ⟨a, b, c', d⟩ := scan_newline_spec (pre ++ l ++ 10 :: post) e fuel pre.length
    (by omega) hf
  by_contra hne
  rcases Nat.lt_or_gt_of_ne hne with hlt | hgt
  · have h10 := d (by omega)
    have := getD_append_inner pre l (10 :: post) _ a hlt
    rw [this] at h10
    exact getD_ne_of_not_mem l _ (by omega) hno h10
  · exact c' (pre.length + l.length) (by omega) hgt (getD_append_mid pre l post 10)

/-- The scan of a last piece without newline runs to the end. -/
theorem scan_newline_no_line (pre l : List Nat) (hno : 10 ∉ l) (fuel : Nat)
    (hf : l.length ≤ fuel) :
    scan_newline (pre ++ l) fuel pre.length (pre ++ l).length = (pre ++ l).length := by
  obtain ⟨a, b, c', d⟩ := scan_newline_spec (pre ++ l) (pre ++ l).length fuel pre.length
    (by simp) (by simp; omega)
  by_contra hne
  have hlt : scan_newline (pre ++ l) fuel pre.length (pre ++ l).length < (pre ++ l).length := by
    omega
  have h10 := d hlt
  have hlt2 : scan_newline (pre ++ l) fuel pre.length (pre ++ l).length
      < pre.length + l.length := by
    simpa using hlt
  have := getD_append_inner pre l [] _ a hlt2
  rw [List.append_nil] at this
  rw [this] at h10
  exact getD_ne_of_not_mem l _ (by omega) hno h10

/-- C function `processx__find_newline` at the beginning of a line. -/
theorem find_newline_line (c : Connection) (pre l post : List Nat) (hno : 10 ∉ l)
    (h : c.utf8 = pre ++ l ++ 10 :: post) :
    processx__find_newline c pre.length = ((pre.length + l.length : Nat) : Int) := by
  unfold processx__find_newline
  have hlen : c.utf8.length = pre.length + l.length + (post.length + 1) := by
    rw [h]; simp; omega
  rw [if_neg (by omega)]
  simp only
  have := scan_newline_line pre l post hno (c.utf8.length - pre.length) c.utf8.length
    (by omega) (le_refl _)
  rw [h] at this ⊢
  rw [this]
  simp

/-- C function `processx__find_newline` after the last newline. -/
theorem find_newline_none (c : Connection) (pre l : List Nat) (hno : 10 ∉ l)
    (h : c.utf8 = pre ++ l) : processx__find_newline c pre.length = -1 := by
  unfold processx__find_newline
  by_cases h0 : c.utf8.length = 0
  · rw [if_pos h0]
  · rw [if_neg h0]
    simp only
    have := scan_newline_no_line pre l hno (c.utf8.length - pre.length) (by rw [h]; simp)
    rw [h] at this ⊢
    rw [this]
    simp

theorem terminated_nil : terminated [] = [] := rfl

theorem terminated_cons (l : List Nat) (ls : List (List Nat)) :
    terminated (l :: ls) = l ++ 10 :: terminated ls := by
  simp [terminated]

theorem terminated_length_ge (ls : List (List Nat)) : ls.length ≤ (terminated ls).length := by
  induction ls with
  | nil => simp [terminated]
  | cons l ls ih => rw [terminated_cons]; simp; omega

/-- The offset of the newline that ends the first of the lines `ls` placed
after `pre`, or -1 when there is no line. -/
theorem find_newline_next (c : Connection) (pre tail : List Nat) (ls : List (List Nat))
    (hls : ∀ l ∈ ls, 10 ∉ l) (htail : 10 ∉ tail) (h : c.utf8 = pre ++ terminated ls ++ tail) :
    processx__find_newline c pre.length
      = match ls with
        | [] => -1
        | l :: _ => ((pre.length + l.length : Nat) : Int) := by
  rcases ls with _ | ⟨l, ls⟩
  · simp only [terminated_nil, List.append_nil] at h
    exact find_newline_none c pre tail htail h
  · simp only
    apply find_newline_line c pre l (terminated ls ++ tail) (hls l (by simp))
    rw [h, terminated_cons]; simp

/-- The counting loop of `processx__connection_find_lines` started at the first
newline: it counts the lines, up to the limit. -/
theorem find_lines_loop_count (c : Connection) (maxlines : Int) (tail : List Nat)
    (htail : 10 ∉ tail) :
    ∀ (ls : List (List Nat)) (pre : List Nat) (fuel lines : Nat),
      (∀ l ∈ ls, 10 ∉ l) → c.utf8 = pre ++ terminated ls ++ tail → ls.length < fuel →
      find_lines_loop c maxlines fuel
          (match ls with
            | [] => -1
            | l :: _ => ((pre.length + l.length : Nat) : Int)) lines
        = lines + min (maxlines.toNat - lines) ls.length := by
  intro ls
  induction ls with
  | nil =>
    intro pre fuel lines _ _ hf
    obtain ⟨m, rfl⟩ : ∃ m, fuel = m + 1 := ⟨fuel - 1, by simp at hf; omega⟩
    simp [find_lines_loop]
  | cons l ls ih =>
    intro pre fuel lines hls h hf
    obtain ⟨m, rfl⟩ : ∃ m, fuel = m + 1 := ⟨fuel - 1, by omega⟩
    simp only [List.length_cons] at hf ⊢
    rw [find_lines_loop]
    by_cases hlim : (lines : Int) < maxlines
    · have hcond : ((pre.length + l.length : Nat) : Int) ≠ -1 ∧ (lines : Int) < maxlines :=
        ⟨by omega, hlim⟩
      rw [if_pos hcond]
      have hpos : (((pre.length + l.length : Nat) : Int) + 1).toNat = (pre ++ l ++ [10]).length := by
        simp; omega
      have h' : c.utf8 = (pre ++ l ++ [10]) ++ terminated ls ++ tail := by
        rw [h, terminated_cons]; simp
      have hls' : ∀ l' ∈ ls, 10 ∉ l' := fun l' hl' => hls l' (by simp [hl'])
      rw [hpos, find_newline_next c _ tail ls hls' htail h']
      rw [ih (pre ++ l ++ [10]) m (lines + 1) hls' h' (by omega)]
      omega
    · have hcond : ¬ (((pre.length + l.length : Nat) : Int) ≠ -1 ∧ (lines : Int) < maxlines) :=
        fun hc => hlim hc.2
      rw [if_neg hcond]
      omega

theorem getD_last_of_append (pre l post : List Nat) (hne : l ≠ []) :
    (pre ++ l ++ post).getD (pre.length + l.length - 1) 0 = l.getLast hne := by
  have hl : 0 < l.length := List.length_pos.mpr hne
  rw [getD_append_inner pre l post _ (by omega) (by omega)]
  rw [List.getD_eq_getElem?_getD, List.getElem?_eq_getElem (by omega)]
  simp only [Option.getD_some]
  rw [List.getLast_eq_getElem]
  congr 1
  omega

/-- The `'\r'` test of `processx_connection_read_lines` for the line `l` that
follows `pre`: it looks at the last byte of `l`, at the newline that ends `pre`
when `l` is empty, and at the byte in front of the buffer when both are empty. -/
theorem slashr_test (env : Env) (c : Connection) (pre l post : List Nat)
    (h : c.utf8 = pre ++ l ++ 10 :: post)
    (hpre : pre = [] ∨ pre.getLast? = some 10)
    (hbefore : pre = [] → l = [] → env.utf8_before ≠ 13) :
    (utf8_at env c (((pre.length + l.length : Nat) : Int) - 1) = 13) ↔ l.getLast? = some 13 := by
  unfold utf8_at
  by_cases hl : l = []
  · subst hl
    by_cases hp : pre = []
    · subst hp
      simp only [List.length_nil, Nat.add_zero, Nat.cast_zero, zero_sub, Left.neg_neg_iff,
        zero_lt_one, if_true, List.getLast?_nil]
      constructor
      · intro h13; exact absurd h13 (hbefore rfl rfl)
      · intro h0; cases h0
    · have hlast : pre.getLast? = some 10 := by
        rcases hpre with h0 | h0
        · exact absurd h0 hp
        · exact h0
      have hpl : 0 < pre.length := List.length_pos.mpr hp
      have hnn : ¬ (((pre.length + ([] : List Nat).length : Nat) : Int) - 1 < 0) := by
        simp only [List.length_nil, Nat.add_zero]; omega
      rw [if_neg hnn]
      have hidx : ((((pre.length + ([] : List Nat).length : Nat) : Int) - 1).toNat)
          = ([] : List Nat).length + pre.length - 1 := by
        simp only [List.length_nil, Nat.add_zero, Nat.zero_add]; omega
      rw [hidx, h]
      have := getD_last_of_append [] pre (10 :: post) hp
      simp only [List.nil_append, List.append_nil] at this ⊢
      rw [this]
      rw [List.getLast?_eq_getLast _ hp] at hlast
      simp only [Option.some.injEq] at hlast
      rw [hlast]
      simp
  · have hll : 0 < l.length := List.length_pos.mpr hl
    have hnn : ¬ (((pre.length + l.length : Nat) : Int) - 1 < 0) := by omega
    rw [if_neg hnn]
    have hidx : ((((pre.length + l.length : Nat) : Int) - 1).toNat) = pre.length + l.length - 1 := by
      omega
    rw [hidx, h, getD_last_of_append pre l (10 :: post) hl, List.getLast?_eq_getLast _ hl]
    simp

theorem strip_cr_eq_take (l : List Nat) :
    strip_cr l = l.take (l.length - if l.getLast? = some 13 then 1 else 0) := by
  unfold strip_cr
  by_cases h : l.getLast? = some 13
  · rw [if_pos h, if_pos h, List.dropLast_eq_take]
  · rw [if_neg h, if_neg h]; simp

/-- The string-building loop of `processx_connection_read_lines`: from the
start of a line it returns the next `todo` lines, each without its `'\n'` and
without a `'\r'` before it, when no line holds a NUL byte. -/
theorem read_lines_loop_lines (env : Env) (c : Connection) (tail : List Nat) :
    ∀ (todo : Nat) (ls : List (List Nat)) (pre : List Nat) (eol0 : Int) (acc : List (List Nat)),
      todo ≤ ls.length → (∀ l ∈ ls, 10 ∉ l) → (∀ l ∈ ls, 0 ∉ l) →
      c.utf8 = pre ++ terminated ls ++ tail →
      (pre = [] ∨ pre.getLast? = some 10) →
      (0 < todo → pre = [] → ls.head? = some [] → env.utf8_before ≠ 13) →
      read_lines_loop env c todo ((pre.length : Int) - 1) eol0 acc
        = .ok (acc ++ (ls.take todo).map strip_cr,
            ((pre ++ terminated (ls.take todo)).length : Int) - 1,
            if todo = 0 then eol0 else ((pre ++ terminated (ls.take todo)).length : Int) - 1) := by
  intro todo
  induction todo with
  | zero =>
    intro ls pre eol0 acc _ _ _ _ _ _
    simp [read_lines_loop, terminated_nil]
  | succ todo ih =>
    intro ls pre eol0 acc htodo hls hz h hpre hbefore
    rcases ls with _ | ⟨l, ls⟩
    · simp at htodo
    · simp only [List.length_cons] at htodo
      have hls' : ∀ l' ∈ ls, 10 ∉ l' := fun l' hl' => hls l' (by simp [hl'])
      have hz' : ∀ l' ∈ ls, 0 ∉ l' := fun l' hl' => hz l' (by simp [hl'])
      have hzl : 0 ∉ strip_cr l := by
        rw [strip_cr_eq_take]
        exact fun hmem => hz l (by simp) (List.mem_of_mem_take hmem)
      have hsplit : c.utf8 = pre ++ l ++ 10 :: (terminated ls ++ tail) := by
        rw [h, terminated_cons]; simp
      have h' : c.utf8 = (pre ++ l ++ [10]) ++ terminated ls ++ tail := by
        rw [h, terminated_cons]; simp
      rw [read_lines_loop]
      have hstart : (((pre.length : Int) - 1) + 1).toNat = pre.length := by omega
      simp only [hstart]
      rw [find_newline_line c pre l (terminated ls ++ tail) (hls l (by simp)) hsplit]
      have hsl := slashr_test env c pre l (terminated ls ++ tail) hsplit hpre
        (fun hp hl => hbefore (by omega) hp (by simp [hl]))
      have hlenle : (if l.getLast? = some 13 then 1 else 0) ≤ l.length := by
        split_ifs with h13
        · rcases l with _ | ⟨x, t⟩
          · simp at h13
          · simp
        · omega
      have hmk : mkCharLenCE c.utf8 ((pre.length : Int) - 1 + 1)
          (((pre.length + l.length : Nat) : Int) - ((pre.length : Int) - 1) - 1
            - (if utf8_at env c (((pre.length + l.length : Nat) : Int) - 1) = 13 then 1 else 0))
          = .ok (strip_cr l) := by
        have hif : (if utf8_at env c (((pre.length + l.length : Nat) : Int) - 1) = 13
            then (1 : Int) else 0) = ((if l.getLast? = some 13 then 1 else 0 : Nat) : Int) := by
          by_cases h13 : l.getLast? = some 13
          · rw [if_pos (hsl.mpr h13), if_pos h13]; rfl
          · rw [if_neg (fun hh => h13 (hsl.mp hh)), if_neg h13]; rfl
        rw [hif]
        have hlen : (((pre.length + l.length : Nat) : Int) - ((pre.length : Int) - 1) - 1
            - ((if l.getLast? = some 13 then 1 else 0 : Nat) : Int))
            = ((l.length - (if l.getLast? = some 13 then 1 else 0) : Nat) : Int) := by
          omega
        rw [hlen]
        unfold mkCharLenCE
        have hc1 : ¬ (((l.length - (if l.getLast? = some 13 then 1 else 0) : Nat) : Int) < 0) := by
          omega
        have hulen : c.utf8.length = pre.length + l.length + 1 + (terminated ls ++ tail).length := by
          rw [hsplit]; simp; omega
        have hc2 : ¬ ((pre.length : Int) - 1 + 1 < 0 ∨ (c.utf8.length : Int)
            < (pre.length : Int) - 1 + 1
              + ((l.length - (if l.getLast? = some 13 then 1 else 0) : Nat) : Int)) := by
          omega
        rw [if_neg hc1, if_neg hc2]
        have hst : ((pre.length : Int) - 1 + 1).toNat = pre.length := by omega
        have hval : List.take ((l.length - (if l.getLast? = some 13 then 1 else 0) : Nat) : Int).toNat
            (List.drop ((pre.length : Int) - 1 + 1).toNat c.utf8) = strip_cr l := by
          rw [hst, Int.toNat_ofNat, strip_cr_eq_take, hsplit]
          rw [List.append_assoc, List.drop_left, List.take_append_of_le_length (by omega)]
        rw [hval, if_neg hzl]
      rw [hmk]
      simp only
      have hnl : ((pre.length + l.length : Nat) : Int) = ((pre ++ l ++ [10]).length : Int) - 1 := by
        simp only [List.length_append, List.length_cons, List.length_nil]; push_cast; omega
      rw [hnl, ih ls (pre ++ l ++ [10]) _ (acc ++ [strip_cr l]) (by omega) hls' hz' h'
        (Or.inr (by simp)) (fun _ hp => by simp at hp)]
      simp only [List.take_succ_cons, List.map_cons, terminated_cons, List.append_assoc,
        List.singleton_append, Nat.succ_ne_zero, if_false, List.cons_append, List.nil_append]
      split_ifs with h0
      · subst h0; simp [terminated_nil]
      · rfl

theorem terminated_append (a b : List (List Nat)) :
    terminated (a ++ b) = terminated a ++ terminated b := by
  simp [terminated]

theorem terminated_take_drop (m : Nat) (ls : List (List Nat)) :
    terminated (ls.take m) ++ terminated (ls.drop m) = terminated ls := by
  rw [← terminated_append, List.take_append_drop]

/-- With a newline in the decoded buffer, `processx__connection_read_until_newline`
reads nothing and returns the offset of the first newline. -/
theorem read_until_newline_buffered (env : Env) (fuel : Nat) (c : Connection) (src : Source)
    (l post : List Nat) (hfuel : 0 < fuel) (hno : 10 ∉ l) (h : c.utf8 = l ++ 10 :: post) :
    processx__connection_read_until_newline env fuel c src = .ok (c, src, (l.length : Int)) := by
  have hlen : c.utf8.length = l.length + (post.length + 1) := by rw [h]; simp
  obtain ⟨m, rfl⟩ : ∃ m, fuel = m + 1 := ⟨fuel - 1, by omega⟩
  unfold processx__connection_read_until_newline
  have h0 : ¬ c.utf8.length = 0 := by omega
  simp only [h0, if_false, bind, Except.bind, pure, Except.pure]
  rw [read_until_newline_loop]
  have hs := scan_newline_line [] l post hno (c.utf8.length - 0) c.utf8.length
    (by simp; omega) (by simp)
  simp only [List.nil_append, List.length_nil, Nat.zero_add] at hs
  rw [← h] at hs
  simp only [hs]
  rw [if_pos (by omega)]

/-- What `processx_connection_read_lines` does on an open connection whose
decoded buffer holds at least one newline: `all` are the lines of the buffer and
`tail` is what follows the last newline.  It returns the first `m` lines, `m`
being the smaller of the limit and the number of lines, each without a `'\r'`
in front of its newline; when the EOF-tail test holds it adds everything that
follows these `m` lines as one more string and empties the buffer.  The byte
in front of the buffer must not be `'\r'` when the first line is empty and is
returned, and the buffer must hold no NUL byte, which the host runtime
refuses in a string. -/
theorem read_lines_on_buffered_lines (env : Env) (fuel : Nat) (c : Connection) (src : Source)
    (n : Int) (all : List (List Nat)) (tail : List Nat) (m : Nat)
    (hfuel : 0 < fuel) (hvalid : ¬ c.handle < 0)
    (hsplit : c.utf8 = terminated all ++ tail)
    (hall : ∀ l ∈ all, 10 ∉ l) (htail : 10 ∉ tail) (hne : all ≠ [])
    (hz : ∀ l ∈ all, 0 ∉ l) (hzt : 0 ∉ tail)
    (hm : m = min (if n < 0 then 1000 else n.toNat) all.length)
    (hbefore : 0 < m → all.head? = some [] → env.utf8_before ≠ 13) :
    processx_connection_read_lines env fuel c src n
      = .ok ((all.take m).map strip_cr ++
              (if eof_tail c then [terminated (all.drop m) ++ tail] else []),
            { c with utf8 := if eof_tail c then [] else terminated (all.drop m) ++ tail },
            src) := by
  obtain ⟨l0, all', rfl⟩ := List.exists_cons_of_ne_nil hne
  have hsplit0 : c.utf8 = l0 ++ 10 :: (terminated all' ++ tail) := by
    rw [hsplit, terminated_cons]; simp
  have hru := read_until_newline_buffered env fuel c src l0 _ hfuel (hall l0 (by simp)) hsplit0
  have hcount := find_lines_loop_count c (if n < 0 then 1000 else n) tail htail (l0 :: all') []
    (c.utf8.length + 1) 0 hall (by simpa using hsplit)
    (by
      have := terminated_length_ge (l0 :: all')
      rw [hsplit, List.length_append]; omega)
  simp only [List.length_nil, Nat.zero_add, Nat.sub_zero] at hcount
  have hlim : (if n < 0 then (1000 : Int) else n).toNat = (if n < 0 then 1000 else n.toNat) := by
    split_ifs
    · rfl
    · rfl
  rw [hlim, ← hm] at hcount
  have hmle : m ≤ (l0 :: all').length := by rw [hm]; exact Nat.min_le_right _ _
  have hloop := read_lines_loop_lines env c tail m (l0 :: all') [] (-1) [] hmle hall hz
    (by simpa using hsplit) (Or.inl rfl) (fun h0 _ => hbefore h0)
  simp only [List.length_nil, Nat.cast_zero, zero_sub, List.nil_append] at hloop
  have htd := terminated_take_drop m (l0 :: all')
  have hulen : c.utf8.length
      = (terminated ((l0 :: all').take m)).length
        + (terminated ((l0 :: all').drop m) ++ tail).length := by
    rw [hsplit, ← htd]; simp only [List.length_append]; omega
  have hdrop : c.utf8.drop (terminated ((l0 :: all').take m)).length
      = terminated ((l0 :: all').drop m) ++ tail := by
    rw [hsplit, ← htd, List.append_assoc, List.drop_left]
  unfold processx_connection_read_lines processx__connection_find_lines
    PROCESSX_CHECK_VALID_CONN
  simp only [hvalid, if_false, bind, Except.bind, hru, pure, Except.pure, hcount, hloop]
  by_cases heof : eof_tail c = true
  · simp only [heof, if_true]
    unfold mkCharLenCE utf8_drop
    have e1 : ¬ ((c.utf8.length : Int) - 1
        - (((terminated ((l0 :: all').take m)).length : Int) - 1) < 0) := by omega
    have e2 : ¬ (((terminated ((l0 :: all').take m)).length : Int) - 1 + 1 < 0 ∨
        (c.utf8.length : Int) < ((terminated ((l0 :: all').take m)).length : Int) - 1 + 1
          + ((c.utf8.length : Int) - 1
            - (((terminated ((l0 :: all').take m)).length : Int) - 1))) := by omega
    have e3 : (c.utf8.length : Int) - 1 ≥ 0 := by
      have : 0 < c.utf8.length := by
        rw [hsplit0]; simp
      omega
    have e4 : ¬ ((c.utf8.length : Int) - 1 + 1 < 0 ∨
        (c.utf8.length : Int) < (c.utf8.length : Int) - 1 + 1) := by omega
    have e5 : (((terminated ((l0 :: all').take m)).length : Int) - 1 + 1).toNat
        = (terminated ((l0 :: all').take m)).length := by omega
    have e6 : ((c.utf8.length : Int) - 1
        - (((terminated ((l0 :: all').take m)).length : Int) - 1)).toNat
        = (terminated ((l0 :: all').drop m) ++ tail).length := by omega
    have e7 : ((c.utf8.length : Int) - 1 + 1).toNat = c.utf8.length := by omega
    have e8 : 0 ∉ terminated ((l0 :: all').drop m) ++ tail := by
      intro hmem
      rcases List.mem_append.mp hmem with hmem | hmem
      · simp only [terminated, List.mem_flatten, List.mem_map] at hmem
        obtain ⟨x, ⟨l, hl, rfl⟩, hx⟩ := hmem
        rcases List.mem_append.mp hx with hx | hx
        · exact hz l (List.mem_of_mem_drop hl) hx
        · simp at hx
      · exact hzt hmem
    simp only [e1, e2, e3, e4, e5, e6, e7, e8, if_false, if_true, hdrop, List.take_length,
      List.drop_length]
  · simp only [heof, if_false, Bool.false_eq_true, List.append_nil]
    by_cases h0 : m = 0
    · subst h0
      have hc : ¬ ((-1 : Int) ≥ 0) := by omega
      simp only [if_true, hc, if_false, List.take_zero, List.map_nil, List.drop_zero,
        ← hsplit]
    · have hc : (((terminated ((l0 :: all').take m)).length : Int) - 1) ≥ 0 := by
        have hpos : 0 < ((l0 :: all').take m).length := by
          simp only [List.length_take, List.length_cons]; omega
        have := terminated_length_ge ((l0 :: all').take m)
        omega
      unfold utf8_drop
      have e4 : ¬ (((terminated ((l0 :: all').take m)).length : Int) - 1 + 1 < 0 ∨
          (c.utf8.length : Int) < ((terminated ((l0 :: all').take m)).length : Int) - 1 + 1) := by
        omega
      have e5 : (((terminated ((l0 :: all').take m)).length : Int) - 1 + 1).toNat
          = (terminated ((l0 :: all').take m)).length := by omega
      simp only [h0, if_false, hc, if_true, e4, e5, hdrop]

theorem strip_cr_length (l : List Nat) :
    (strip_cr l).length = l.length - if l.getLast? = some 13 then 1 else 0 := by
  rw [strip_cr_eq_take, List.length_take]
  omega

/-- What `processx_c_connection_read_line` does when the decoded buffer holds a
newline: `l` is the first line and `post` what follows its newline.  The call
returns the length of `l` without a final `'\r'` and stores that line; from the
decoded buffer it removes one byte more than it returns, so a `'\n'` stays
behind when a `'\r'` was cut off, and it empties the buffer when the EOF-tail
test holds. -/
theorem read_line_on_buffered_line (env : Env) (fuel : Nat) (c : Connection) (src : Source)
    (lb : LineBuf) (l post : List Nat) (hfuel : 0 < fuel) (heof : c.is_eof_ = false)
    (hno : 10 ∉ l) (h : c.utf8 = l ++ 10 :: post) (hsize : c.utf8.length < SIZE_MOD)
    (hbefore : l = [] → env.utf8_before ≠ 13) :
    ∃ lb' : LineBuf,
      processx_c_connection_read_line env fuel c src lb
        = .ok (((strip_cr l).length : Int), lb',
            { c with utf8 := if eof_tail c then [] else c.utf8.drop ((strip_cr l).length + 1) },
            src) ∧
      lb'.line ((strip_cr l).length : Int) = strip_cr l ∧
      (lb'.linep.getD []).getD (strip_cr l).length 1 = 0 := by
  have hru := read_until_newline_buffered env fuel c src l post hfuel hno h
  have hsl := slashr_test env c [] l post (by simpa using h) (Or.inl rfl) (fun _ hl => hbefore hl)
  simp only [List.length_nil, Nat.zero_add] at hsl
  have hk := strip_cr_length l
  have hkle : (strip_cr l).length ≤ l.length := by omega
  have hulen : c.utf8.length = l.length + (post.length + 1) := by rw [h]; simp
  have hnl : (if utf8_at env c ((l.length : Int) - 1) = 13 then (l.length : Int) - 1
      else (l.length : Int)) = ((strip_cr l).length : Int) := by
    by_cases h13 : l.getLast? = some 13
    · have hpos : 0 < l.length := by
        rcases l with _ | ⟨x, t⟩
        · simp at h13
        · simp
      rw [if_pos (hsl.mpr h13), hk, if_pos h13]; omega
    · rw [if_neg (fun hh => h13 (hsl.mp hh)), hk, if_neg h13]; simp
  have hneed : ((((strip_cr l).length : Int) + 1) % (SIZE_MOD : Int)).toNat
      = (strip_cr l).length + 1 := by
    have h1 : (0 : Int) ≤ ((strip_cr l).length : Int) + 1 := by omega
    have h2 : ((strip_cr l).length : Int) + 1 < (SIZE_MOD : Int) := by omega
    rw [Int.emod_eq_of_lt h1 h2]; omega
  have htake : c.utf8.take (strip_cr l).length = strip_cr l := by
    rw [h, List.take_append_of_le_length hkle]
    conv_rhs => rw [strip_cr_eq_take]
    rw [hk]
  refine ⟨{ (match lb.linep with
              | none => ({ linep := some (malloc ((strip_cr l).length + 1)),
                           linecapp := (strip_cr l).length + 1 } : LineBuf)
              | some p =>
                if lb.linecapp < (strip_cr l).length + 1 then
                  { linep := some (realloc p ((strip_cr l).length + 1)),
                    linecapp := (strip_cr l).length + 1 }
                else lb) with
            linep := some (poke (memcpy ((match lb.linep with
              | none => ({ linep := some (malloc ((strip_cr l).length + 1)),
                           linecapp := (strip_cr l).length + 1 } : LineBuf)
              | some p =>
                if lb.linecapp < (strip_cr l).length + 1 then
                  { linep := some (realloc p ((strip_cr l).length + 1)),
                    linecapp := (strip_cr l).length + 1 }
                else lb).linep.getD []) c.utf8 (strip_cr l).length) (strip_cr l).length 0) },
    ?_, ?_, ?_⟩
  · unfold processx_c_connection_read_line
    have hn1 : ¬ ((l.length : Int) = -1 ∧ eof_tail c = false) := by omega
    have hn2 : ¬ ((l.length : Int) = -1) := by omega
    have hn3 : ¬ (((strip_cr l).length : Int) < 0) := by omega
    simp only [heof, Bool.false_eq_true, if_false, bind, Except.bind, hru, hn1, hn2, hnl, hneed,
      hn3, Int.toNat_ofNat, pure, Except.pure]
    by_cases he : eof_tail c = true
    · simp only [he, Bool.true_eq_false, if_false, if_true]
      simp
    · have he' : eof_tail c = false := by simpa using he
      unfold utf8_drop
      have e1 : ¬ (((strip_cr l).length : Int) + 1 < 0 ∨
          (c.utf8.length : Int) < ((strip_cr l).length : Int) + 1) := by omega
      have e2 : (((strip_cr l).length : Int) + 1).toNat = (strip_cr l).length + 1 := by omega
      simp [he', e1, e2, heof]
  · have hlen : (strip_cr l).length ≤ (strip_cr l).length := le_refl _
    simp only [LineBuf.line, Option.getD_some, Int.toNat_ofNat, poke, memcpy, htake]
    rw [List.take_append_of_le_length (by simp), List.take_take, Nat.min_self,
      List.take_append_of_le_length hlen, List.take_length]
  · simp only [Option.getD_some, poke, memcpy, htake]
    rw [List.getD_eq_getElem?_getD, List.getElem?_append_right (by simp)]
    simp

/-! ## Reading lines: the code evaluated on small buffers -/

/-- C1 (code defect, evaluated): on the decoded buffer "a\r\nb\n" the first
`processx_c_connection_read_line` call returns "a" but removes only the two
bytes "a\r", so the buffer it leaves is "\nb\n"; the second call then returns an
empty line, and "b" arrives with the third call only. -/
theorem read_line_crlf_serves_an_extra_empty_line :
    processx_c_connection_read_line (sample_env 0) 1
        (sample_connection [97, 13, 10, 98, 10] false) quiet ⟨none, 0⟩
      = .ok (1, ⟨some [97, 0], 2⟩, sample_connection [10, 98, 10] false, quiet) ∧
    processx_c_connection_read_line (sample_env 0) 1
        (sample_connection [10, 98, 10] false) quiet ⟨some [97, 0], 2⟩
      = .ok (0, ⟨some [0, 0], 2⟩, sample_connection [98, 10] false, quiet) ∧
    processx_c_connection_read_line (sample_env 0) 1
        (sample_connection [98, 10] false) quiet ⟨some [0, 0], 2⟩
      = .ok (1, ⟨some [98, 0], 2⟩, sample_connection [] false, quiet) := by
  refine ⟨?_, ?_, ?_⟩ <;> rfl

/-- C2 (code defect, evaluated): at end of stream (raw EOF seen, raw buffer
empty) with the decoded buffer "a\nb", the first
`processx_c_connection_read_line` call returns "a" and empties the whole decoded
buffer; the second call returns 0 and sets the EOF flag, the third returns -1.
The line "b" is never returned. -/
theorem read_line_at_eof_drops_the_tail :
    processx_c_connection_read_line (sample_env 0) 1
        (sample_connection [97, 10, 98] true) quiet ⟨none, 0⟩
      = .ok (1, ⟨some [97, 0], 2⟩, sample_connection [] true, quiet) ∧
    processx_c_connection_read_line (sample_env 0) 1
        (sample_connection [] true) quiet ⟨some [97, 0], 2⟩
      = .ok (0, ⟨some [97, 0], 2⟩, { sample_connection [] true with is_eof_ := true }, quiet) ∧
    processx_c_connection_read_line (sample_env 0) 1
        { sample_connection [] true with is_eof_ := true } quiet ⟨some [97, 0], 2⟩
      = .ok (-1, ⟨some [97, 0], 2⟩, { sample_connection [] true with is_eof_ := true }, quiet) := by
  refine ⟨?_, ?_, ?_⟩ <;> rfl

/-- C3 (code defect, evaluated): a new connection whose source delivers "a",
then "\nb", then end of file.  One `processx_c_connection_read_line` call
returns 3 with the bytes "a\nb" in the line buffer: the line it serves contains
a `'\n'`. -/
theorem read_line_serves_a_line_with_newline :
    (processx_c_connection_read_line (sample_env 0) 3
        (processx_c_connection_create 3 .ASYNCPIPE none)
        (chunks_then_eof [[97], [10, 98]]) ⟨none, 0⟩).map
        (fun r => (r.1, r.2.1.line r.1, r.2.2.1.utf8))
      = .ok (3, [97, 10, 98], []) ∧
    (10 : Nat) ∈ [97, 10, 98] := by
  refine ⟨?_, ?_⟩
  · rfl
  · decide

/-- C4 (code defect, evaluated): on the decoded buffer "\r\n", with a null
`*linep` and `*linecapp = 0`, `processx_c_connection_read_line` returns 0 after
serving the empty line: `*linep` has been allocated, `*linecapp` is 1 and one
byte has left the decoded buffer.  The same happens on a buffer that starts
with `'\n'`. -/
theorem read_line_returns_zero_and_touches_linep :
    processx_c_connection_read_line (sample_env 0) 1
        (sample_connection [13, 10] false) quiet ⟨none, 0⟩
      = .ok (0, ⟨some [0], 1⟩, sample_connection [10] false, quiet) ∧
    processx_c_connection_read_line (sample_env 0) 1
        (sample_connection [10, 98] false) quiet ⟨none, 0⟩
      = .ok (0, ⟨some [0], 1⟩, sample_connection [98] false, quiet) ∧
    (⟨some [0], 1⟩ : LineBuf) ≠ ⟨none, 0⟩ := by
  refine ⟨?_, ?_, ?_⟩
  · rfl
  · rfl
  · decide

/-- C5 (code defect, evaluated): at end of stream with the decoded buffer
"a\nb", `processx_connection_read_lines` with `n = 1` returns the two strings
"a" and "b"; with `n = 0` it returns one string. -/
theorem read_lines_returns_more_than_n :
    processx_connection_read_lines (sample_env 0) 1 (sample_connection [97, 10, 98] true) quiet 1
      = .ok ([[97], [98]], sample_connection [] true, quiet) ∧
    processx_connection_read_lines (sample_env 0) 1 (sample_connection [97, 10, 98] true) quiet 0
      = .ok ([[97, 10, 98]], sample_connection [] true, quiet) := by
  refine ⟨?_, ?_⟩ <;> rfl

/-- C6 (code defect, evaluated): on the decoded buffer "\nb\n" the `'\r'` test
for the first (empty) line reads the byte in front of the buffer.  When that
byte is `'\r'` the length handed to `mkCharLenCE` is -1 and the call fails;
when it is 0 the call returns "" and "b". -/
theorem read_lines_empty_first_line_reads_before_the_buffer :
    processx_connection_read_lines (sample_env 13) 1 (sample_connection [10, 98, 10] false) quiet 2
      = .error .negative_length ∧
    processx_connection_read_lines (sample_env 0) 1 (sample_connection [10, 98, 10] false) quiet 2
      = .ok ([[], [98]], sample_connection [] false, quiet) := by
  refine ⟨?_, ?_⟩ <;> rfl

/-- C7 (code defect, evaluated): at end of stream with the decoded buffer
"a\nb\nc", `processx_connection_read_lines` with `n = 1` returns "a" and, as its
last element, "b\nc": not the bytes after the last `'\n'`, which are "c". -/
theorem read_lines_tail_spans_unread_lines :
    processx_connection_read_lines (sample_env 0) 1
        (sample_connection [97, 10, 98, 10, 99] true) quiet 1
      = .ok ([[97], [98, 10, 99]], sample_connection [] true, quiet) := by
  rfl

/-! ## Reading bytes into a caller's buffer -/

/-- Splitting into characters by lead byte is unique: the characters in front
of a buffer are the first characters of every split of the whole buffer. -/
theorem charSeq_take_of_split (a : List (List Nat)) :
    ∀ (b : List (List Nat)) (t : List Nat), CharSeq a → CharSeq b → a.flatten ++ t = b.flatten →
      a = b.take a.length ∧ t = (b.drop a.length).flatten := by
  induction a with
  | nil => intro b t _ _ h; simpa using h
  | cons ch a ih =>
    intro b t ha hb h
    have hane := (charSeq_cons.mp ha).1.1
    rcases b with _ | ⟨ch2, b⟩
    · exfalso
      have := congrArg List.length h
      have hpos : 0 < ch.length := List.length_pos.mpr hane
      simp only [List.flatten_cons, List.flatten_nil, List.length_append, List.length_nil] at this
      omega
    · obtain ⟨h1, h2, _, _⟩ := @charSeq_head_of_split (ch2 :: b).flatten _ _ _ h.symm ha
      obtain ⟨h3, h4, _, _⟩ := @charSeq_head_of_split (ch2 :: b).flatten _ [] _
        (by simp) hb
      have hch : ch = ch2 := by rw [h1, ← h3]
      have hrest : a.flatten ++ t = b.flatten := by
        rw [← h2, h4, List.append_nil]
      obtain ⟨i1, i2⟩ := ih b t (charSeq_cons.mp ha).2 (charSeq_cons.mp hb).2 hrest
      subst hch
      refine ⟨?_, ?_⟩
      · simp only [List.length_cons, List.take_succ_cons]
        rw [← i1]
      · simpa using i2

/-- A well-formed sequence has at most four bytes. -/
theorem utf8_sequence_le_four {l : List Nat} {n : Nat} (h : utf8_sequence l = some n) : n ≤ 4 := by
  rcases l with _ | ⟨a, r⟩
  · simp [utf8_sequence] at h
  · simp only [utf8_sequence] at h
    split_ifs at h
    all_goals
      simp only [Option.some.injEq] at h
      omega

/-- Every well-formed UTF-8 string splits into characters by lead byte, none
longer than four bytes. -/
theorem well_formed_utf8_upto_split_le_four (fuel : Nat) :
    ∀ l : List Nat, well_formed_utf8_upto fuel l = true →
      ∃ cs, CharSeq cs ∧ cs.flatten = l ∧ ∀ ch ∈ cs, ch.length ≤ 4 := by
  induction fuel with
  | zero =>
    intro l h
    rcases l with _ | ⟨a, r⟩
    · exact ⟨[], charSeq_nil, rfl, by simp⟩
    · simp [well_formed_utf8_upto] at h
  | succ fuel ih =>
    intro l h
    rcases l with _ | ⟨a, r⟩
    · exact ⟨[], charSeq_nil, rfl, by simp⟩
    · simp only [well_formed_utf8_upto] at h
      cases hs : utf8_sequence (a :: r) with
      | none => simp [hs] at h
      | some n =>
        simp only [hs] at h
        obtain ⟨hn, hpos, hlen⟩ := utf8_sequence_length hs
        have h4 := utf8_sequence_le_four hs
        obtain ⟨cs, hc, hfl, hle⟩ := ih _ h
        have hh : ((a :: r).take n).headD 0 = a := by
          obtain ⟨m, rfl⟩ : ∃ m, n = m + 1 := ⟨n - 1, by omega⟩
          rfl
        have htl : ((a :: r).take n).length = n := by
          rw [List.length_take, Nat.min_eq_left hlen]
        refine ⟨(a :: r).take n :: cs, charSeq_cons.mpr ⟨⟨?_, ?_⟩, hc⟩, ?_, ?_⟩
        · intro h0; rw [h0] at htl; simp at htl; omega
        · rw [hh, htl]; exact hn
        · rw [List.flatten_cons, hfl, List.take_append_drop]
        · intro ch hch
          rcases List.mem_cons.mp hch with rfl | hch
          · omega
          · exact hle ch hch

/-- C11: `processx_c_connection_read_chars` never cuts a character.  A buffer
size below 4 is refused before anything else is done.  For a size `nbyte` of at
least 4 (and at most the largest `ssize_t`), once the availability step and the
scan have succeeded on the state `c1` whose decoded buffer splits into the
characters `cs`, the call copies the first `k` characters of `cs`, for some
`k`, and nothing else; these are at most `nbyte` bytes, they are removed from
the decoded buffer, and `k` is at least 1 when the decoded buffer is not empty
and no character is longer than 4 bytes.  Every well-formed UTF-8 buffer
splits into characters of at most 4 bytes. -/
theorem read_bytes_copies_whole_characters (env : Env) (c : Connection) (src : Source)
    (buffer : List Nat) (nbyte : Nat) :
    (nbyte < 4 →
      processx_c_connection_read_chars env c src buffer nbyte = .error .buffer_too_small) ∧
    (4 ≤ nbyte → nbyte < SSIZE_LIMIT →
      ∀ (c1 : Connection) (src1 : Source) (chars : Option Nat) (bytes : Nat),
        processx__connection_find_chars env c src (-1) (to_ssize nbyte)
          = .ok (c1, src1, chars, bytes) →
        ∀ cs : List (List Nat), CharSeq cs → cs.flatten = c1.utf8 →
          ∃ k, k ≤ cs.length ∧
            processx_c_connection_read_chars env c src buffer nbyte
              = .ok (bytes, (cs.take k).flatten ++ buffer.drop bytes,
                  { c1 with utf8 := (cs.drop k).flatten }, src1) ∧
            bytes = (cs.take k).flatten.length ∧ bytes ≤ nbyte ∧
            (c1.utf8 ≠ [] → (∀ ch ∈ cs, ch.length ≤ 4) → 1 ≤ k)) ∧
    (∀ l : List Nat, well_formed_utf8 l = true →
      ∃ cs, CharSeq cs ∧ cs.flatten = l ∧ ∀ ch ∈ cs, ch.length ≤ 4) := by
  refine ⟨?_, ?_, fun l hl => well_formed_utf8_upto_split_le_four _ l hl⟩
  · intro h
    unfold processx_c_connection_read_chars
    simp [h, throw, throwThe, MonadExceptOf.throw, bind, Except.bind]
  · intro h4 hlim c1 src1 chars bytes hf cs hcs hfl
    have hss : to_ssize nbyte = (nbyte : Int) := by
      unfold to_ssize; rw [if_pos hlim]
    have hn4 : ¬ nbyte < 4 := by omega
    have hread : ∀ (tk dr : List Nat), c1.utf8 = tk ++ dr → bytes = tk.length →
        processx_c_connection_read_chars env c src buffer nbyte
          = .ok (bytes, tk ++ buffer.drop bytes, { c1 with utf8 := dr }, src1) := by
      intro tk dr hsplit hb
      unfold processx_c_connection_read_chars utf8_drop memcpy
      have e1 : ¬ ((bytes : Int) < 0 ∨ (c1.utf8.length : Int) < (bytes : Int)) := by
        rw [hsplit, List.length_append]; omega
      simp only [hn4, if_false, bind, Except.bind, hf, e1, pure, Except.pure, Int.toNat_ofNat]
      rw [hsplit, hb, List.take_left, List.drop_left]
    obtain ⟨_, _, h3⟩ := find_chars_inv hf
    rcases h3 with ⟨h0, _, hb⟩ | ⟨h0, k, _, hk⟩
    · have hnil : c1.utf8 = [] := by
        rcases h0 with h0 | h0
        · exact List.eq_nil_of_length_eq_zero h0
        · omega
      refine ⟨0, by omega, ?_, by simp [hb], by omega, fun hne => absurd hnil hne⟩
      have := hread [] cs.flatten (by rw [hfl]; simp) (by simp [hb])
      simpa using this
    · obtain ⟨k', j, hk', hj, cs', tail, hsplit, hc', hlen', hflen', _, hlb, _, hmax⟩ :=
        find_utf8_chars_loop_ok _ _ _ _ _ _ _ _ hk
      have hkk : k' = k := by omega
      have hjj : j = bytes := by omega
      subst hkk hjj
      obtain ⟨u1, u2⟩ := charSeq_take_of_split cs' cs tail hc' hcs (by rw [hfl, hsplit])
      rw [hlen'] at u1 u2
      have hkle : k' ≤ cs.length := by
        have := congrArg List.length u1
        rw [hlen', List.length_take] at this
        omega
      refine ⟨k', hkle, ?_, by rw [← u1, hflen'], ?_, ?_⟩
      · rw [← u1, ← u2]
        exact hread cs'.flatten tail hsplit hflen'.symm
      · have := hlb (by rw [hss]; omega)
        rw [hss] at this
        omega
      · intro hne hle
        rcases cs with _ | ⟨ch0, rest⟩
        · exfalso; apply hne; rw [← hfl]; rfl
        · have := hmax [ch0] rest.flatten (by rw [← hfl]; simp)
            (charSeq_cons.mpr ⟨(charSeq_cons.mp hcs).1, charSeq_nil⟩)
            (fun h0 => by omega)
            (fun _ => by
              have := hle ch0 (by simp)
              rw [hss]
              simp only [List.flatten_cons, List.flatten_nil, List.append_nil]
              omega)
          simpa using this

/-- C11, on a concrete connection: with "€Aé" decoded and room for four bytes
the call copies "€A", two whole characters, and leaves "é". -/
theorem read_bytes_copies_whole_characters_witness :
    processx_c_connection_read_chars (sample_env 0)
        (sample_connection [0xe2, 0x82, 0xac, 0x41, 0xc3, 0xa9] false) quiet [0, 0, 0, 0] 3
      = .error .buffer_too_small ∧
    ∃ k, k ≤ ([[0xe2, 0x82, 0xac], [0x41], [0xc3, 0xa9]] : List (List Nat)).length ∧
      processx_c_connection_read_chars (sample_env 0)
          (sample_connection [0xe2, 0x82, 0xac, 0x41, 0xc3, 0xa9] false) quiet [0, 0, 0, 0] 4
        = .ok (4, (([[0xe2, 0x82, 0xac], [0x41], [0xc3, 0xa9]] : List (List Nat)).take k).flatten
                ++ ([0, 0, 0, 0] : List Nat).drop 4,
            { sample_connection [0xe2, 0x82, 0xac, 0x41, 0xc3, 0xa9] false with
              utf8 := (([[0xe2, 0x82, 0xac], [0x41], [0xc3, 0xa9]] : List (List Nat)).drop k).flatten },
            quiet) ∧
      4 = (([[0xe2, 0x82, 0xac], [0x41], [0xc3, 0xa9]] : List (List Nat)).take k).flatten.length ∧
      4 ≤ 4 ∧
      ((sample_connection [0xe2, 0x82, 0xac, 0x41, 0xc3, 0xa9] false).utf8 ≠ [] →
        (∀ ch ∈ ([[0xe2, 0x82, 0xac], [0x41], [0xc3, 0xa9]] : List (List Nat)), ch.length ≤ 4) →
        1 ≤ k) :=
  ⟨(read_bytes_copies_whole_characters (sample_env 0)
      (sample_connection [0xe2, 0x82, 0xac, 0x41, 0xc3, 0xa9] false) quiet [0, 0, 0, 0] 3).1
      (by decide),
   (read_bytes_copies_whole_characters (sample_env 0)
      (sample_connection [0xe2, 0x82, 0xac, 0x41, 0xc3, 0xa9] false) quiet [0, 0, 0, 0] 4).2.1
      (by decide) (by decide)
      (sample_connection [0xe2, 0x82, 0xac, 0x41, 0xc3, 0xa9] false) quiet (some 2) 4 (by rfl)
      [[0xe2, 0x82, 0xac], [0x41], [0xc3, 0xa9]]
      (by intro ch hch; simp at hch; rcases hch with rfl | rfl | rfl <;> decide) (by rfl)⟩

/-! ## The converter for UTF-8 input -/

/-- A well-formed sequence is recognised whatever follows it. -/
theorem utf8_sequence_append {s rest : List Nat} (h : utf8_sequence s = some s.length) :
    utf8_sequence (s ++ rest) = some s.length := by
  rcases s with _ | ⟨a, _ | ⟨b, _ | ⟨c, _ | ⟨d, _ | ⟨e, r⟩⟩⟩⟩⟩
  · simp [utf8_sequence] at h
  · simp only [utf8_sequence, List.length_cons, List.length_nil] at h ⊢
    split_ifs at h <;> simp_all
  · simp only [utf8_sequence, List.length_cons, List.length_nil] at h ⊢
    split_ifs at h <;> simp_all
  · simp only [utf8_sequence, List.length_cons, List.length_nil] at h ⊢
    split_ifs at h <;> simp_all
    split_ifs <;> first | rfl | omega
  · simp only [utf8_sequence, List.length_cons, List.length_nil] at h ⊢
    split_ifs at h <;> simp_all
    split_ifs <;> first | rfl | omega
  · simp only [utf8_sequence, List.length_cons] at h
    split_ifs at h <;> simp at h

/-- A well-formed sequence is as long as `utf8_sequence` says. -/
theorem utf8_sequence_take {l : List Nat} {n : Nat} (h : utf8_sequence l = some n) :
    utf8_sequence (l.take n) = some (l.take n).length ∧ (l.take n).length = n := by
  obtain ⟨_, hpos, hlen⟩ := utf8_sequence_length h
  have hl : (l.take n).length = n := by rw [List.length_take]; omega
  refine ⟨?_, hl⟩
  rw [hl]
  rcases l with _ | ⟨a, r⟩
  · simp [utf8_sequence] at h
  · simp only [utf8_sequence] at h
    split_ifs at h with h1 h2 h3 h4 h5 h6 h7
    all_goals simp only [Option.some.injEq] at h
    all_goals subst h
    · simp [utf8_sequence, h1]
    · rcases r with _ | ⟨b, r⟩
      · simp at h3
      · simp only [List.getD_cons_zero] at h3
        simp [utf8_sequence, h1, h2, h3.2]
    · rcases r with _ | ⟨b, _ | ⟨c, r⟩⟩
      · simp at h5
      · simp at h5
      · simp only [List.getD_cons_zero, List.getD_cons_succ] at h5
        simp [utf8_sequence, h1, h2, h4, h5.2.1, h5.2.2]
    · rcases r with _ | ⟨b, _ | ⟨c, _ | ⟨d, r⟩⟩⟩
      · simp at h7
      · simp at h7
      · simp at h7
      · simp only [List.getD_cons_zero, List.getD_cons_succ] at h7
        simp [utf8_sequence, h1, h2, h4, h6, h7.2.1, h7.2.2.1, h7.2.2.2]

/-- The beginning of a well-formed sequence, cut before its end, is no
sequence and is recognised as cut short. -/
theorem utf8_cut_sequence {t u : List Nat} (h : utf8_sequence (t ++ u) = some (t ++ u).length)
    (ht : t ≠ []) (hu : u ≠ []) : utf8_sequence t = none ∧ utf8_incomplete t = true := by
  obtain ⟨x, u, rfl⟩ := List.exists_cons_of_ne_nil hu
  rcases t with _ | ⟨a, _ | ⟨b, _ | ⟨c, _ | ⟨d, t⟩⟩⟩⟩
  · exact absurd rfl ht
  · simp only [utf8_sequence, utf8_incomplete, List.cons_append, List.nil_append,
      List.length_cons, List.length_nil, List.getD_cons_zero, List.getD_cons_succ] at h ⊢
    split_ifs at h <;> simp_all <;> omega
  · simp only [utf8_sequence, utf8_incomplete, List.cons_append, List.nil_append,
      List.length_cons, List.length_nil, List.getD_cons_zero, List.getD_cons_succ] at h ⊢
    split_ifs at h <;> simp_all
    all_goals
      refine ⟨?_, by omega⟩
      split_ifs <;> first | rfl | omega
  · simp only [utf8_sequence, utf8_incomplete, List.cons_append, List.nil_append,
      List.length_cons, List.length_nil, List.getD_cons_zero, List.getD_cons_succ] at h ⊢
    split_ifs at h <;> simp_all
    split_ifs <;> first | rfl | omega
  · simp only [utf8_sequence, List.cons_append, List.length_cons, List.length_append] at h
    split_ifs at h <;> simp at h

theorem validSeqs_nil : ValidSeqs [] := by
  intro s h; cases h

theorem validSeqs_cons {s : List Nat} {ws : List (List Nat)} :
    ValidSeqs (s :: ws) ↔ utf8_sequence s = some s.length ∧ ValidSeqs ws := by
  simp [ValidSeqs]

theorem validSeqs_ne_nil {s : List Nat} (h : utf8_sequence s = some s.length) : s ≠ [] := by
  intro h0; subst h0; simp [utf8_sequence] at h

/-- A concatenation of well-formed sequences is well-formed UTF-8. -/
theorem well_formed_of_validSeqs (ws : List (List Nat)) :
    ∀ fuel, ValidSeqs ws → ws.flatten.length ≤ fuel →
      well_formed_utf8_upto fuel ws.flatten = true := by
  induction ws with
  | nil => intro fuel _ _; cases fuel <;> rfl
  | cons s ws ih =>
    intro fuel hv hf
    obtain ⟨hs, hws⟩ := validSeqs_cons.mp hv
    have hne := validSeqs_ne_nil hs
    obtain ⟨a, r, rfl⟩ := List.exists_cons_of_ne_nil hne
    simp only [List.flatten_cons, List.length_append, List.length_cons] at hf
    obtain ⟨m, rfl⟩ : ∃ m, fuel = m + 1 := ⟨fuel - 1, by omega⟩
    have happ := @utf8_sequence_append _ ws.flatten hs
    rw [List.flatten_cons]
    show well_formed_utf8_upto (m + 1) (a :: (r ++ ws.flatten)) = true
    rw [well_formed_utf8_upto]
    have happ' : utf8_sequence (a :: (r ++ ws.flatten)) = some (a :: r).length := happ
    rw [happ']
    simp only
    have hd : List.drop (a :: r).length (a :: (r ++ ws.flatten)) = ws.flatten := by
      have : a :: (r ++ ws.flatten) = (a :: r) ++ ws.flatten := rfl
      rw [this, List.drop_left]
    rw [hd]
    exact ih m hws (by omega)

/-- Well-formed UTF-8 is a concatenation of well-formed sequences. -/
theorem validSeqs_of_well_formed (fuel : Nat) :
    ∀ l : List Nat, well_formed_utf8_upto fuel l = true →
      ∃ ws, ValidSeqs ws ∧ ws.flatten = l := by
  induction fuel with
  | zero =>
    intro l h
    rcases l with _ | ⟨a, r⟩
    · exact ⟨[], validSeqs_nil, rfl⟩
    · simp [well_formed_utf8_upto] at h
  | succ fuel ih =>
    intro l h
    rcases l with _ | ⟨a, r⟩
    · exact ⟨[], validSeqs_nil, rfl⟩
    · simp only [well_formed_utf8_upto] at h
      cases hs : utf8_sequence (a :: r) with
      | none => simp [hs] at h
      | some n =>
        simp only [hs] at h
        obtain ⟨ws, hv, hfl⟩ := ih _ h
        obtain ⟨h1, _⟩ := utf8_sequence_take hs
        exact ⟨(a :: r).take n :: ws, validSeqs_cons.mpr ⟨h1, hv⟩,
          by rw [List.flatten_cons, hfl, List.take_append_drop]⟩

/-- The status with which the converter for UTF-8 input stops in front of the
bytes `t`, none of which begins a well-formed sequence. -/
theorem utf8_convert_valid (ws : List (List Nat)) :
    ∀ (fuel : Nat) (t : List Nat) (room : Nat), ValidSeqs ws →
      (t = [] ∨ utf8_sequence t = none) → ws.flatten.length ≤ room →
      (ws.flatten ++ t).length ≤ fuel →
      utf8_convert fuel (ws.flatten ++ t) room
        = { consumed := ws.flatten.length, produced := ws.flatten,
            status := if t = [] then .converted
                      else if utf8_incomplete t then .EINVAL else .EILSEQ } := by
  induction ws with
  | nil =>
    intro fuel t room _ ht _ hf
    simp only [List.flatten_nil, List.nil_append, List.length_nil] at hf ⊢
    by_cases h0 : t = []
    · subst h0
      cases fuel <;> simp [utf8_convert]
    · have hlen : 0 < t.length := List.length_pos.mpr h0
      obtain ⟨m, rfl⟩ : ∃ m, fuel = m + 1 := ⟨fuel - 1, by omega⟩
      have hnone : utf8_sequence t = none := by
        rcases ht with h | h
        · exact absurd h h0
        · exact h
      rw [utf8_convert, if_neg h0, hnone, if_neg h0]
      simp only
      split_ifs <;> rfl
  | cons s ws ih =>
    intro fuel t room hv ht hroom hf
    obtain ⟨hs, hws⟩ := validSeqs_cons.mp hv
    have hne := validSeqs_ne_nil hs
    have hslen : 0 < s.length := List.length_pos.mpr hne
    simp only [List.flatten_cons, List.length_append] at hroom hf
    obtain ⟨m, rfl⟩ : ∃ m, fuel = m + 1 := ⟨fuel - 1, by omega⟩
    have hin : (s :: ws).flatten ++ t = s ++ (ws.flatten ++ t) := by simp
    have hne2 : s ++ (ws.flatten ++ t) ≠ [] := by
      intro h0
      have := congrArg List.length h0
      simp only [List.length_append, List.length_nil] at this
      omega
    rw [hin, utf8_convert, if_neg hne2, utf8_sequence_append hs]
    simp only
    rw [if_pos (by omega), List.drop_left, List.take_left,
      ih m t (room - s.length) hws ht (by omega) (by simp only [List.length_append]; omega)]
    simp

/-- Where a piece `x` cut from the front of well-formed sequences ends: after
`k` whole sequences and a beginning `t` of the next one. -/
theorem validSeqs_split_at (ws : List (List Nat)) :
    ∀ (x y : List Nat), ValidSeqs ws → x ++ y = ws.flatten →
      ∃ (k : Nat) (t : List Nat), k ≤ ws.length ∧ x = (ws.take k).flatten ++ t ∧
        (t = [] ∨ (utf8_sequence t = none ∧ utf8_incomplete t = true)) ∧
        t ++ y = (ws.drop k).flatten := by
  induction ws with
  | nil =>
    intro x y _ h
    simp only [List.flatten_nil, List.append_eq_nil] at h
    exact ⟨0, [], by simp, by simp [h.1], Or.inl rfl, by simp [h.2]⟩
  | cons s ws ih =>
    intro x y hv h
    obtain ⟨hs, hws⟩ := validSeqs_cons.mp hv
    rw [List.flatten_cons] at h
    rcases List.append_eq_append_iff.mp h with ⟨a', h1, h2⟩ | ⟨c', h1, h2⟩
    · by_cases hx : x = []
      · subst hx
        exact ⟨0, [], by simp, by simp, Or.inl rfl, by simpa using h⟩
      · by_cases ha : a' = []
        · subst ha
          rw [List.append_nil] at h1
          rw [List.nil_append] at h2
          exact ⟨1, [], by simp, by simp [h1], Or.inl rfl, by simp [h2]⟩
        · have hcut := @utf8_cut_sequence x a' (by rw [← h1]; exact hs) hx ha
          exact ⟨0, x, by simp, by simp, Or.inr hcut, by simpa using h⟩
    · obtain ⟨k, t, hk, hx, ht, hty⟩ := ih c' y hws h2.symm
      refine ⟨k + 1, t, by simp; omega, ?_, ht, ?_⟩
      · rw [h1, hx]; simp
      · simpa using hty

/-! ## Decode passes -/

/-- The loop of a decode pass leaves an end part of its input. -/
theorem to_utf8_loop_suffix (env : Env) (ctx : Int) (eof_raw : Bool) :
    ∀ (fuel : Nat) (inbuf : List Nat) (room : Nat) (out : List Nat) (w : Bool),
      ∃ k, (to_utf8_loop env ctx eof_raw fuel inbuf room out w).1 = inbuf.drop k := by
  intro fuel
  induction fuel with
  | zero => intro inbuf room out w; exact ⟨0, by simp [to_utf8_loop]⟩
  | succ fuel ih =>
    intro inbuf room out w
    rw [to_utf8_loop]
    simp only
    cases hs : (env.Riconv ctx inbuf room).status with
    | converted => exact ⟨_, rfl⟩
    | E2BIG => exact ⟨_, rfl⟩
    | failed => exact ⟨_, rfl⟩
    | EINVAL =>
      simp only
      split_ifs
      · exact ⟨inbuf.length, by simp⟩
      · exact ⟨_, rfl⟩
    | EILSEQ =>
      simp only
      split_ifs
      · obtain ⟨k, hk⟩ := ih (List.drop 1 (List.drop (env.Riconv ctx inbuf room).consumed inbuf))
          (room - (env.Riconv ctx inbuf room).produced.length)
          (out ++ (env.Riconv ctx inbuf room).produced) w
        exact ⟨(env.Riconv ctx inbuf room).consumed + 1 + k, by rw [hk]; simp [Nat.add_comm, Nat.add_left_comm]⟩
      · exact ⟨(env.Riconv ctx inbuf room).consumed + 1, by simp [Nat.add_comm]⟩

/-- The loop of a decode pass adds to the bytes produced so far, and with a
converter that keeps to its room it adds no more than the room. -/
theorem to_utf8_loop_out (env : Env) (ctx : Int) (eof_raw : Bool) :
    ∀ (fuel : Nat) (inbuf : List Nat) (room : Nat) (out : List Nat) (w : Bool),
      ∃ o, (to_utf8_loop env ctx eof_raw fuel inbuf room out w).2.1 = out ++ o ∧
        (Riconv_bounded env → o.length ≤ room) := by
  intro fuel
  induction fuel with
  | zero => intro inbuf room out w; exact ⟨[], by simp [to_utf8_loop], fun _ => by simp⟩
  | succ fuel ih =>
    intro inbuf room out w
    rw [to_utf8_loop]
    simp only
    have hb : Riconv_bounded env → (env.Riconv ctx inbuf room).produced.length ≤ room :=
      fun h => h ctx inbuf room
    cases hs : (env.Riconv ctx inbuf room).status with
    | converted => exact ⟨_, rfl, hb⟩
    | E2BIG => exact ⟨_, rfl, hb⟩
    | failed => exact ⟨_, rfl, hb⟩
    | EINVAL =>
      simp only
      split_ifs
      · exact ⟨_, rfl, hb⟩
      · exact ⟨_, rfl, hb⟩
    | EILSEQ =>
      simp only
      split_ifs
      · obtain ⟨o, ho, hol⟩ := ih (List.drop 1 (List.drop (env.Riconv ctx inbuf room).consumed inbuf))
          (room - (env.Riconv ctx inbuf room).produced.length)
          (out ++ (env.Riconv ctx inbuf room).produced) w
        refine ⟨(env.Riconv ctx inbuf room).produced ++ o, by rw [ho]; simp, ?_⟩
        intro hbd
        have := hb hbd
        have := hol hbd
        simp only [List.length_append]
        omega
      · exact ⟨_, rfl, hb⟩

/-- A decode pass on an empty raw buffer, or with no room in the decoded
buffer, changes nothing but the descriptor. -/
theorem to_utf8_nothing (env : Env) (c : Connection)
    (h : c.buffer.length = 0 ∨ size_sub c.utf8_allocated_size c.utf8.length = 0) :
    processx__connection_to_utf8 env c = ({ c with iconv_ctx := opened_ctx env c }, 0, false) := by
  unfold processx__connection_to_utf8 opened_ctx
  rcases c with ⟨ty, cl, eo, er, cd, enc, ictx, hd, buf, bas, u8, uas, pidx⟩
  simp only at h
  by_cases h0 : ictx = 0
  · simp only [h0, if_true]
    rw [if_pos h]
  · simp only [h0, if_false]
    rw [if_pos h]

/-- A decode pass that runs: the raw buffer becomes what the loop left, the
decoded buffer grows by what the loop produced, whose size is returned. -/
theorem to_utf8_runs (env : Env) (c : Connection)
    (h : ¬ (c.buffer.length = 0 ∨ size_sub c.utf8_allocated_size c.utf8.length = 0)) :
    processx__connection_to_utf8 env c
      = ({ c with iconv_ctx := opened_ctx env c,
                  buffer := (to_utf8_loop env (opened_ctx env c) c.is_eof_raw_ c.buffer.length
                    c.buffer (size_sub c.utf8_allocated_size c.utf8.length) [] false).1,
                  utf8 := c.utf8 ++ (to_utf8_loop env (opened_ctx env c) c.is_eof_raw_
                    c.buffer.length c.buffer
                    (size_sub c.utf8_allocated_size c.utf8.length) [] false).2.1 },
          (to_utf8_loop env (opened_ctx env c) c.is_eof_raw_ c.buffer.length c.buffer
            (size_sub c.utf8_allocated_size c.utf8.length) [] false).2.1.length,
          (to_utf8_loop env (opened_ctx env c) c.is_eof_raw_ c.buffer.length c.buffer
            (size_sub c.utf8_allocated_size c.utf8.length) [] false).2.2) := by
  obtain ⟨k, hk⟩ := to_utf8_loop_suffix env (opened_ctx env c) c.is_eof_raw_ c.buffer.length
    c.buffer (size_sub c.utf8_allocated_size c.utf8.length) [] false
  unfold processx__connection_to_utf8
  have hctx : (if c.iconv_ctx = 0 then
      { c with iconv_ctx := env.Riconv_open (c.encoding.getD "") } else c)
      = { c with iconv_ctx := opened_ctx env c } := by
    unfold opened_ctx
    split_ifs <;> rfl
  simp only [hctx, h, if_false]
  split_ifs with hp
  · rfl
  · have h1 : (to_utf8_loop env (opened_ctx env c) c.is_eof_raw_ c.buffer.length c.buffer
        (size_sub c.utf8_allocated_size c.utf8.length) [] false).2.1 = [] := by
      apply List.eq_nil_of_length_eq_zero
      omega
    have h2 : (to_utf8_loop env (opened_ctx env c) c.is_eof_raw_ c.buffer.length c.buffer
        (size_sub c.utf8_allocated_size c.utf8.length) [] false).1 = c.buffer := by
      rw [hk]
      rw [hk, List.length_drop] at hp
      have : k = 0 ∨ c.buffer.length = 0 := by omega
      rcases this with h0 | h0
      · rw [h0]; rfl
      · rw [List.eq_nil_of_length_eq_zero h0]; simp
    rw [h1, h2]
    simp

/-- The loop of a decode pass with the converter for UTF-8 input, on whole
sequences followed by nothing: everything is converted. -/
theorem to_utf8_loop_valid (env : Env)
    (hR : ∀ ctx input room, env.Riconv ctx input room = Riconv_utf8 ctx input room)
    (ctx : Int) (eof_raw : Bool) (ws : List (List Nat)) (fuel room : Nat) (out : List Nat)
    (w : Bool) (hv : ValidSeqs ws) (hroom : ws.flatten.length ≤ room) :
    to_utf8_loop env ctx eof_raw (fuel + 1) ws.flatten room out w
      = ([], out ++ ws.flatten, w) := by
  have h := utf8_convert_valid ws ws.flatten.length [] room hv (Or.inl rfl) hroom (by simp)
  rw [List.append_nil] at h
  rw [to_utf8_loop]
  simp only [hR, Riconv_utf8, h]
  simp

/-- The loop of a decode pass with the converter for UTF-8 input, on whole
sequences followed by the beginning of one: the whole sequences are converted,
and the beginning is kept, or dropped with a warning at the end of the input. -/
theorem to_utf8_loop_cut (env : Env)
    (hR : ∀ ctx input room, env.Riconv ctx input room = Riconv_utf8 ctx input room)
    (ctx : Int) (eof_raw : Bool) (ws : List (List Nat)) (t : List Nat) (fuel room : Nat)
    (out : List Nat) (w : Bool) (hv : ValidSeqs ws)
    (ht : utf8_sequence t = none ∧ utf8_incomplete t = true)
    (hroom : ws.flatten.length ≤ room) :
    to_utf8_loop env ctx eof_raw (fuel + 1) (ws.flatten ++ t) room out w
      = if eof_raw then ([], out ++ ws.flatten, true) else (t, out ++ ws.flatten, w) := by
  have htne : t ≠ [] := by
    intro h0
    rw [h0] at ht
    exact absurd ht.2 (by decide)
  have h := utf8_convert_valid ws (ws.flatten ++ t).length t room hv (Or.inr ht.1) hroom le_rfl
  rw [to_utf8_loop]
  simp only [hR, Riconv_utf8, h]
  simp [htne, ht.2]

/-- One decode pass with the converter for UTF-8 input and raw EOF not set, on
a raw buffer of whole sequences followed by nothing or by the beginning of a
sequence: the whole sequences move to the decoded buffer, the beginning stays. -/
theorem to_utf8_pass_valid (env : Env)
    (hR : ∀ ctx input room, env.Riconv ctx input room = Riconv_utf8 ctx input room)
    (c : Connection) (ws : List (List Nat)) (t : List Nat)
    (hbuf : c.buffer = ws.flatten ++ t) (hv : ValidSeqs ws)
    (ht : t = [] ∨ (utf8_sequence t = none ∧ utf8_incomplete t = true))
    (heof : c.is_eof_raw_ = false)
    (hroom : c.utf8.length + ws.flatten.length ≤ c.utf8_allocated_size) :
    (processx__connection_to_utf8 env c).1.utf8 = c.utf8 ++ ws.flatten ∧
    (processx__connection_to_utf8 env c).1.buffer = t ∧
    (processx__connection_to_utf8 env c).1.is_eof_raw_ = false ∧
    (processx__connection_to_utf8 env c).1.utf8_allocated_size = c.utf8_allocated_size ∧
    (processx__connection_to_utf8 env c).2.1 = ws.flatten.length ∧
    (processx__connection_to_utf8 env c).2.2 = false := by
  have hsz : size_sub c.utf8_allocated_size c.utf8.length
      = c.utf8_allocated_size - c.utf8.length := by
    unfold size_sub
    rw [if_pos (by omega)]
  by_cases h : c.buffer.length = 0 ∨ size_sub c.utf8_allocated_size c.utf8.length = 0
  · rw [to_utf8_nothing env c h]
    have hw : ws.flatten = [] := by
      rcases h with h | h
      · rw [hbuf] at h
        have := List.eq_nil_of_length_eq_zero h
        exact (List.append_eq_nil.mp this).1
      · apply List.eq_nil_of_length_eq_zero
        rw [hsz] at h
        omega
    rw [hw] at hbuf ⊢
    simpa [heof] using hbuf
  · rw [to_utf8_runs env c h]
    have hpos : ∃ n, c.buffer.length = n + 1 := by
      refine ⟨c.buffer.length - 1, ?_⟩
      have : c.buffer.length ≠ 0 := fun h0 => h (Or.inl h0)
      omega
    obtain ⟨n, hn⟩ := hpos
    have hr : ws.flatten.length ≤ size_sub c.utf8_allocated_size c.utf8.length := by
      rw [hsz]; omega
    rw [hn, heof]
    rcases ht with ht | ht
    · subst ht
      rw [List.append_nil] at hbuf
      rw [hbuf, to_utf8_loop_valid env hR _ false ws n _ [] false hv hr]
      simp
    · rw [hbuf, to_utf8_loop_cut env hR _ false ws t n _ [] false hv ht hr]
      simp

/-- Whole sequences stay whole sequences when some are left out. -/
theorem validSeqs_take_drop (ws : List (List Nat)) (k : Nat) (h : ValidSeqs ws) :
    ValidSeqs (ws.take k) ∧ ValidSeqs (ws.drop k) :=
  ⟨fun s hs => h s (List.mem_of_mem_take hs), fun s hs => h s (List.mem_of_mem_drop hs)⟩

/-- The beginning of a sequence is not the whole of a run of whole sequences. -/
theorem cut_is_not_whole (ws : List (List Nat)) (t : List Nat) (hv : ValidSeqs ws)
    (ht : t = [] ∨ (utf8_sequence t = none ∧ utf8_incomplete t = true))
    (h : t = ws.flatten) : t = [] := by
  rcases ht with ht | ht
  · exact ht
  · cases ws with
    | nil => simpa using h
    | cons s ws =>
      have hs := (validSeqs_cons.mp hv).1
      rw [h, List.flatten_cons, utf8_sequence_append hs] at ht
      exact absurd ht.1 (by simp)

/-- Chunks of a run of whole sequences, fed one per decode pass: after the
last one the decoded buffer has grown by the sequences that are complete and
the raw buffer holds the beginning of the next one, if any. -/
theorem feed_all_valid (env : Env)
    (hR : ∀ ctx input room, env.Riconv ctx input room = Riconv_utf8 ctx input room) :
    ∀ (chunks : List (List Nat)) (c : Connection) (ws : List (List Nat)) (rest : List Nat),
      ValidSeqs ws →
      (c.buffer = [] ∨ (utf8_sequence c.buffer = none ∧ utf8_incomplete c.buffer = true)) →
      c.buffer ++ chunks.flatten ++ rest = ws.flatten →
      c.is_eof_raw_ = false →
      c.utf8.length + ws.flatten.length ≤ c.utf8_allocated_size →
      ∃ (k : Nat) (t : List Nat), k ≤ ws.length ∧
        c.buffer ++ chunks.flatten = (ws.take k).flatten ++ t ∧
        (t = [] ∨ (utf8_sequence t = none ∧ utf8_incomplete t = true)) ∧
        t ++ rest = (ws.drop k).flatten ∧
        (feed_all env c chunks).utf8 = c.utf8 ++ (ws.take k).flatten ∧
        (feed_all env c chunks).buffer = t := by
  intro chunks
  induction chunks with
  | nil =>
    intro c ws rest _ ht hsplit _ _
    exact ⟨0, c.buffer, Nat.zero_le _, by simp, ht, by simpa using hsplit, by simp [feed_all],
      by simp [feed_all]⟩
  | cons ch chunks ih =>
    intro c ws rest hv ht hsplit heof hroom
    have hs1 : (c.buffer ++ ch) ++ (chunks.flatten ++ rest) = ws.flatten := by
      rw [← hsplit]; simp
    obtain ⟨k1, t1, hk1, hx, ht1, hy⟩ := validSeqs_split_at ws _ _ hv hs1
    have hlen : (ws.take k1).flatten.length + (ws.drop k1).flatten.length = ws.flatten.length := by
      rw [← List.length_append, ← List.flatten_append, List.take_append_drop]
    obtain ⟨hv1, hv2⟩ := validSeqs_take_drop ws k1 hv
    obtain ⟨hu, hb, he, ha, _, _⟩ := to_utf8_pass_valid env hR
      { c with buffer := c.buffer ++ ch } (ws.take k1) t1 hx hv1 ht1 heof (by simp only; omega)
    have hfeed : feed_all env c (ch :: chunks) = feed_all env (feed env c ch) chunks := rfl
    obtain ⟨k2, t2, hk2, hx2, ht2, hy2, hu2, hb2⟩ := ih (feed env c ch) (ws.drop k1) rest hv2
      (by unfold feed; rw [hb]; exact ht1)
      (by unfold feed; rw [hb, List.append_assoc]; exact hy)
      (by unfold feed; exact he)
      (by unfold feed; rw [hu, ha]; simp only [List.length_append]; omega)
    have htake : (ws.take (k1 + k2)).flatten
        = (ws.take k1).flatten ++ ((ws.drop k1).take k2).flatten := by
      rw [List.take_add, List.flatten_append]
    refine ⟨k1 + k2, t2, ?_, ?_, ht2, ?_, ?_, ?_⟩
    · rw [List.length_drop] at hk2; omega
    · have h1 : (feed env c ch).buffer = t1 := by unfold feed; exact hb
      rw [h1] at hx2
      rw [htake, List.append_assoc, ← hx2, List.flatten_cons, ← List.append_assoc, hx,
        List.append_assoc]
    · rw [hy2, List.drop_drop, Nat.add_comm]
    · have h1 : (feed env c ch).utf8 = c.utf8 ++ (ws.take k1).flatten := by unfold feed; exact hu
      rw [hfeed, hu2, h1, htake, List.append_assoc]
    · rw [hfeed, hb2]

/-- Chunks that make up a run of whole sequences, fed one per decode pass to a
connection with an empty raw buffer: the decoded buffer grows by the run and
the raw buffer is empty again. -/
theorem feed_all_whole (env : Env)
    (hR : ∀ ctx input room, env.Riconv ctx input room = Riconv_utf8 ctx input room)
    (chunks : List (List Nat)) (c : Connection) (ws : List (List Nat)) (hv : ValidSeqs ws)
    (hraw : c.buffer = []) (hsplit : chunks.flatten = ws.flatten) (heof : c.is_eof_raw_ = false)
    (hroom : c.utf8.length + ws.flatten.length ≤ c.utf8_allocated_size) :
    (feed_all env c chunks).utf8 = c.utf8 ++ ws.flatten ∧ (feed_all env c chunks).buffer = [] := by
  obtain ⟨k, t, _, _, ht, hy, hu, hb⟩ := feed_all_valid env hR chunks c ws [] hv (Or.inl hraw)
    (by rw [hraw]; simpa using hsplit) heof hroom
  rw [List.append_nil] at hy
  have ht0 := cut_is_not_whole (ws.drop k) t (validSeqs_take_drop ws k hv).2 ht hy
  have hd : (ws.drop k).flatten = [] := by rw [← hy, ht0]
  have hw : (ws.take k).flatten = ws.flatten := by
    conv_rhs => rw [← List.take_append_drop k ws, List.flatten_append, hd, List.append_nil]
  exact ⟨by rw [hu, hw], by rw [hb, ht0]⟩

/-- C15: with the converter for UTF-8 input, raw EOF not set and room in the
decoded buffer, feeding a well-formed UTF-8 string in chunks, one per decode
pass (`processx__connection_to_utf8`), however it is split, appends the string
itself to the decoded buffer, which is what one pass on the un-split string
appends; the raw buffer is empty at the end, and after every pass the text
appended so far is well-formed UTF-8 (it ends on a character boundary) and is,
followed by the raw buffer, the input fed so far. -/
theorem chunked_utf8_decodes_as_unsplit (env : Env)
    (hR : ∀ ctx input room, env.Riconv ctx input room = Riconv_utf8 ctx input room)
    (c : Connection) (chunks : List (List Nat))
    (hwf : well_formed_utf8 chunks.flatten = true) (hraw : c.buffer = [])
    (heof : c.is_eof_raw_ = false)
    (hroom : c.utf8.length + chunks.flatten.length ≤ c.utf8_allocated_size) :
    (feed_all env c chunks).utf8 = c.utf8 ++ chunks.flatten ∧
    (feed_all env c chunks).buffer = [] ∧
    (feed_all env c chunks).utf8 = (feed env c chunks.flatten).utf8 ∧
    ∀ j, j ≤ chunks.length →
      ∃ text : List Nat, (feed_all env c (chunks.take j)).utf8 = c.utf8 ++ text ∧
        well_formed_utf8 text = true ∧
        text ++ (feed_all env c (chunks.take j)).buffer = (chunks.take j).flatten := by
  obtain ⟨ws, hv, hws⟩ := validSeqs_of_well_formed _ _ hwf
  have hroom1 : c.utf8.length + ws.flatten.length ≤ c.utf8_allocated_size := by rw [hws]; exact hroom
  obtain ⟨h1, h2⟩ := feed_all_whole env hR chunks c ws hv hraw hws.symm heof hroom1
  obtain ⟨h3, _⟩ := feed_all_whole env hR [chunks.flatten] c ws hv hraw (by simpa using hws.symm)
    heof hroom1
  have h4 : feed_all env c [chunks.flatten] = feed env c chunks.flatten := rfl
  rw [h4] at h3
  refine ⟨by rw [h1, hws], h2, by rw [h1, h3], ?_⟩
  intro j _
  obtain ⟨k, t, _, hx, _, _, hu, hb⟩ := feed_all_valid env hR (chunks.take j) c ws
    (chunks.drop j).flatten hv (Or.inl hraw)
    (by rw [hraw, List.nil_append, ← List.flatten_append, List.take_append_drop, hws]) heof hroom1
  refine ⟨(ws.take k).flatten, hu, ?_, ?_⟩
  · exact well_formed_of_validSeqs _ _ (validSeqs_take_drop ws k hv).1 le_rfl
  · rw [hb, ← hx, hraw, List.nil_append]

/-- C15 at a concrete input: "A€é" fed as `41 E2 | 82 | AC C3 | A9`. -/
theorem chunked_utf8_decodes_as_unsplit_witness :
    (∀ ctx input room, utf8_env.Riconv ctx input room = Riconv_utf8 ctx input room) ∧
    well_formed_utf8 [[0x41, 0xe2], [0x82], [0xac, 0xc3], [0xa9]].flatten = true ∧
    (sample_connection [0x5a] false).buffer = [] ∧
    (sample_connection [0x5a] false).is_eof_raw_ = false ∧
    (feed_all utf8_env (sample_connection [0x5a] false)
      [[0x41, 0xe2], [0x82], [0xac, 0xc3], [0xa9]]).utf8
        = [0x5a, 0x41, 0xe2, 0x82, 0xac, 0xc3, 0xa9] ∧
    (feed_all utf8_env (sample_connection [0x5a] false)
      [[0x41, 0xe2], [0x82], [0xac, 0xc3], [0xa9]]).buffer = [] :=
  ⟨fun _ _ _ => rfl, by decide, rfl, rfl,
    (chunked_utf8_decodes_as_unsplit utf8_env (fun _ _ _ => rfl) (sample_connection [0x5a] false)
      [[0x41, 0xe2], [0x82], [0xac, 0xc3], [0xa9]] (by decide) rfl rfl (by decide)).1,
    (chunked_utf8_decodes_as_unsplit utf8_env (fun _ _ _ => rfl) (sample_connection [0x5a] false)
      [[0x41, 0xe2], [0x82], [0xac, 0xc3], [0xa9]] (by decide) rfl rfl (by decide)).2.1⟩

/-- The loop of a decode pass that stops at an incomplete sequence: the input
left is that of the stop, or nothing, with a warning, at the end of the input;
the bytes produced do not depend on which. -/
theorem to_utf8_loop_stop (env : Env) (ctx : Int) (eof_raw : Bool) :
    ∀ (fuel : Nat) (inbuf : List Nat) (room : Nat) (out : List Nat) (w : Bool),
      (to_utf8_stop env ctx fuel inbuf room).1 = .EINVAL →
      to_utf8_loop env ctx eof_raw fuel inbuf room out w
        = (if eof_raw then [] else (to_utf8_stop env ctx fuel inbuf room).2,
           (to_utf8_loop env ctx false fuel inbuf room out w).2.1,
           if eof_raw then true else w) := by
  intro fuel
  induction fuel with
  | zero => intro inbuf room out w h; simp [to_utf8_stop] at h
  | succ fuel ih =>
    intro inbuf room out w h
    rw [to_utf8_stop] at h ⊢
    rw [to_utf8_loop, to_utf8_loop]
    simp only at h ⊢
    cases hs : (env.Riconv ctx inbuf room).status with
    | converted => rw [hs] at h; simp at h
    | E2BIG => rw [hs] at h; simp at h
    | failed => rw [hs] at h; simp at h
    | EINVAL => cases eof_raw <;> simp
    | EILSEQ =>
      rw [hs] at h
      simp only at h ⊢
      by_cases hl : (List.drop 1 (List.drop (env.Riconv ctx inbuf room).consumed inbuf)).length > 0
      · simp only [hl, if_true] at h ⊢
        exact ih _ _ _ _ h
      · simp only [hl, if_false] at h
        cases h

/-- The reference converter for UTF-8 input keeps to its room. -/
theorem utf8_convert_bounded : ∀ (fuel : Nat) (input : List Nat) (room : Nat),
    (utf8_convert fuel input room).produced.length ≤ room := by
  intro fuel
  induction fuel with
  | zero => intro input room; simp [utf8_convert]
  | succ fuel ih =>
    intro input room
    rw [utf8_convert]
    cases hs : utf8_sequence input with
    | none =>
      simp only
      split_ifs <;> simp
    | some n =>
      simp only
      split_ifs with h0 hn
      · simp
      · have := ih (input.drop n) (room - n)
        simp only [List.length_append, List.length_take]
        omega
      · simp

/-- The environment of the reference converter keeps to its room. -/
theorem utf8_env_bounded : Riconv_bounded utf8_env :=
  fun _ input room => utf8_convert_bounded input.length input room

/-- The stop of the reference converter on whole sequences followed by the
beginning of one. -/
theorem to_utf8_stop_cut (env : Env)
    (hR : ∀ ctx input room, env.Riconv ctx input room = Riconv_utf8 ctx input room)
    (ctx : Int) (ws : List (List Nat)) (t : List Nat) (fuel room : Nat) (hv : ValidSeqs ws)
    (ht : utf8_sequence t = none ∧ utf8_incomplete t = true)
    (hroom : ws.flatten.length ≤ room) :
    to_utf8_stop env ctx (fuel + 1) (ws.flatten ++ t) room = (.EINVAL, t) := by
  have htne : t ≠ [] := by
    intro h0
    rw [h0] at ht
    exact absurd ht.2 (by decide)
  have h := utf8_convert_valid ws (ws.flatten ++ t).length t room hv (Or.inr ht.1) hroom le_rfl
  rw [to_utf8_stop]
  simp only [hR, Riconv_utf8, h]
  simp [htne, ht.2]

/-- A decode pass that stops at an incomplete sequence, in one equation. -/
theorem to_utf8_at_stop (env : Env) (c : Connection)
    (hfree : c.utf8.length < c.utf8_allocated_size)
    (hstop : (pass_stop env c).1 = .EINVAL) :
    processx__connection_to_utf8 env c
      = ({ c with iconv_ctx := opened_ctx env c,
                  buffer := if c.is_eof_raw_ then [] else (pass_stop env c).2,
                  utf8 := c.utf8 ++ (to_utf8_loop env (opened_ctx env c) false c.buffer.length
                    c.buffer (size_sub c.utf8_allocated_size c.utf8.length) [] false).2.1 },
          (to_utf8_loop env (opened_ctx env c) false c.buffer.length c.buffer
            (size_sub c.utf8_allocated_size c.utf8.length) [] false).2.1.length,
          if c.is_eof_raw_ then true else false) := by
  have hsz : size_sub c.utf8_allocated_size c.utf8.length
      = c.utf8_allocated_size - c.utf8.length := by
    unfold size_sub
    rw [if_pos (by omega)]
  have hne : c.buffer.length ≠ 0 := by
    intro h0
    unfold pass_stop at hstop
    rw [h0, to_utf8_stop] at hstop
    cases hstop
  have hrun : ¬ (c.buffer.length = 0 ∨ size_sub c.utf8_allocated_size c.utf8.length = 0) := by
    rw [hsz]; omega
  rw [to_utf8_runs env c hrun,
    to_utf8_loop_stop env (opened_ctx env c) c.is_eof_raw_ _ _ _ [] false hstop]
  rfl

/-- C17: a decode pass (`processx__connection_to_utf8`) that runs and stops at
an incomplete multi-byte sequence (the last `Riconv` call reports `EINVAL`),
with a converter that keeps to its room.  Raw EOF not set: the raw buffer
becomes the input that call left and no warning is raised.  Raw EOF set: the
warning is raised and the raw buffer becomes empty.  In both cases the raw
buffer becomes an end part of itself (its size decreases by the bytes
consumed), the decoded buffer grows by the bytes produced, whose number is
returned, within the allocated size, and the bytes produced are the same
whether raw EOF is set or not.  With the converter for UTF-8 input and a raw
buffer `V ++ t`, `V` well-formed and `t` a sequence cut short, the stop is at
`t` and the bytes produced are `V`, so none of `t` reaches the decoded
buffer. -/
theorem decode_pass_at_incomplete_tail (env : Env) (c : Connection)
    (hbd : Riconv_bounded env) (hfree : c.utf8.length < c.utf8_allocated_size)
    (hstop : (pass_stop env c).1 = .EINVAL) :
    (c.is_eof_raw_ = false →
      (processx__connection_to_utf8 env c).1.buffer = (pass_stop env c).2 ∧
      (processx__connection_to_utf8 env c).2.2 = false) ∧
    (c.is_eof_raw_ = true →
      (processx__connection_to_utf8 env c).1.buffer = [] ∧
      (processx__connection_to_utf8 env c).2.2 = true) ∧
    (∃ indone, indone ≤ c.buffer.length ∧
      (processx__connection_to_utf8 env c).1.buffer = c.buffer.drop indone ∧
      (processx__connection_to_utf8 env c).1.buffer.length = c.buffer.length - indone) ∧
    (∃ produced : List Nat,
      (processx__connection_to_utf8 env c).1.utf8 = c.utf8 ++ produced ∧
      (processx__connection_to_utf8 env c).2.1 = produced.length) ∧
    (processx__connection_to_utf8 env c).1.utf8.length ≤ c.utf8_allocated_size ∧
    (processx__connection_to_utf8 env c).1.utf8
      = (processx__connection_to_utf8 env { c with is_eof_raw_ := false }).1.utf8 ∧
    (∀ V t : List Nat,
      (∀ ctx input room, env.Riconv ctx input room = Riconv_utf8 ctx input room) →
      well_formed_utf8 V = true → utf8_sequence t = none → utf8_incomplete t = true →
      c.buffer = V ++ t → c.utf8.length + V.length ≤ c.utf8_allocated_size →
      pass_stop env c = (.EINVAL, t) ∧
      (processx__connection_to_utf8 env c).1.utf8 = c.utf8 ++ V) := by
  have hsz : size_sub c.utf8_allocated_size c.utf8.length
      = c.utf8_allocated_size - c.utf8.length := by
    unfold size_sub
    rw [if_pos (by omega)]
  have heq := to_utf8_at_stop env c hfree hstop
  have heq0 := to_utf8_at_stop env { c with is_eof_raw_ := false } hfree hstop
  obtain ⟨k, hk⟩ := to_utf8_loop_suffix env (opened_ctx env c) false c.buffer.length c.buffer
    (size_sub c.utf8_allocated_size c.utf8.length) [] false
  obtain ⟨o, ho, hol⟩ := to_utf8_loop_out env (opened_ctx env c) false c.buffer.length c.buffer
    (size_sub c.utf8_allocated_size c.utf8.length) [] false
  have hstop2 : (pass_stop env c).2 = c.buffer.drop k := by
    have h := to_utf8_loop_stop env (opened_ctx env c) false _ _ _ [] false hstop
    rw [← hk, h]
    rfl
  refine ⟨?_, ?_, ?_, ?_, ?_, ?_, ?_⟩
  · intro he
    rw [heq, he]
    exact ⟨rfl, rfl⟩
  · intro he
    rw [heq, he]
    exact ⟨rfl, rfl⟩
  · rw [heq]
    cases he : c.is_eof_raw_ with
    | true => exact ⟨c.buffer.length, le_rfl, by simp, by simp⟩
    | false =>
      refine ⟨min k c.buffer.length, Nat.min_le_right _ _, ?_, ?_⟩
      · simp only [Bool.false_eq_true, if_false, hstop2]
        rcases Nat.le_total k c.buffer.length with hle | hle
        · rw [Nat.min_eq_left hle]
        · rw [Nat.min_eq_right hle, List.drop_of_length_le hle, List.drop_of_length_le le_rfl]
      · simp only [Bool.false_eq_true, if_false, hstop2, List.length_drop]
        omega
  · rw [heq]
    exact ⟨_, rfl, rfl⟩
  · rw [heq, ho]
    have := hol hbd
    simp only [List.nil_append, List.length_append]
    omega
  · rw [heq, heq0]
    rfl
  · intro V t hR hV ht1 ht2 hbuf hroom
    obtain ⟨ws, hv, hws⟩ := validSeqs_of_well_formed _ _ hV
    subst hws
    have hlen : ∃ n, c.buffer.length = n + 1 := by
      refine ⟨c.buffer.length - 1, ?_⟩
      have : t ≠ [] := by
        intro h0
        rw [h0] at ht2
        exact absurd ht2 (by decide)
      have : t.length ≠ 0 := fun h0 => this (List.eq_nil_of_length_eq_zero h0)
      rw [hbuf, List.length_append]
      omega
    obtain ⟨n, hn⟩ := hlen
    have hr : ws.flatten.length ≤ size_sub c.utf8_allocated_size c.utf8.length := by
      rw [hsz]; omega
    constructor
    · unfold pass_stop
      rw [hn, hbuf]
      exact to_utf8_stop_cut env hR _ ws t n _ hv ⟨ht1, ht2⟩ hr
    · rw [heq, hn, hbuf, to_utf8_loop_cut env hR _ false ws t n _ [] false hv ⟨ht1, ht2⟩ hr]
      simp

/-- C17 at a concrete input: the raw buffer `41 C3` (the character after `A` is
cut short), with raw EOF not set and with raw EOF set. -/
theorem decode_pass_at_incomplete_tail_witness :
    Riconv_bounded utf8_env ∧
    (pass_stop utf8_env { sample_connection [0x5a] false with buffer := [0x41, 0xc3] }).1
      = .EINVAL ∧
    processx__connection_to_utf8 utf8_env
        { sample_connection [0x5a] false with buffer := [0x41, 0xc3] }
      = ({ sample_connection [0x5a] false with buffer := [0xc3], utf8 := [0x5a, 0x41] },
          1, false) ∧
    ((processx__connection_to_utf8 utf8_env
        { sample_connection [0x5a] true with buffer := [0x41, 0xc3] }).1.buffer = [] ∧
      (processx__connection_to_utf8 utf8_env
        { sample_connection [0x5a] true with buffer := [0x41, 0xc3] }).2.2 = true) :=
  ⟨utf8_env_bounded, rfl, rfl,
    (decode_pass_at_incomplete_tail utf8_env
      { sample_connection [0x5a] true with buffer := [0x41, 0xc3] }
      utf8_env_bounded (by decide) rfl).2.1 rfl⟩

/-! ## Encoding names -/

/-- C18, as the code has it: creating a connection with an encoding name the
converter does not know returns a connection, with the name stored and no
converter opened; the first decode pass asks for the converter, stores the
answer `(void *) -1` unchecked and converts nothing. -/
theorem create_accepts_an_unknown_encoding :
    (processx_c_connection_create 3 .ASYNCPIPE (some "no-such-encoding")).encoding
      = some "no-such-encoding" ∧
    (processx_c_connection_create 3 .ASYNCPIPE (some "no-such-encoding")).iconv_ctx = 0 ∧
    strict_env.Riconv_open "no-such-encoding" = -1 ∧
    processx__connection_to_utf8 strict_env
        { processx__connection_alloc
            (processx_c_connection_create 3 .ASYNCPIPE (some "no-such-encoding")) with
          buffer := [0x41] }
      = ({ processx__connection_alloc
            (processx_c_connection_create 3 .ASYNCPIPE (some "no-such-encoding")) with
          buffer := [0x41], iconv_ctx := -1 }, 0, false) := by
  refine ⟨by decide, rfl, by decide, ?_⟩
  rw [to_utf8_runs _ _ (by decide)]
  rfl

/-- C18, amended: `processx_c_connection_create` accepts every encoding name:
it stores the name (nothing for the empty name) and opens no converter; the
converter is asked for by a decode pass (`processx__connection_to_utf8`) on a
connection that has none, and what `Riconv_open` answers is stored as it is. -/
theorem create_stores_the_encoding_unchecked (os_handle : Int) (type : FileType)
    (name : String) (env : Env) (c : Connection) :
    (processx_c_connection_create os_handle type (some name)).encoding
      = (if name.isEmpty then none else some name) ∧
    (processx_c_connection_create os_handle type (some name)).iconv_ctx = 0 ∧
    (processx_c_connection_create os_handle type (some name)).is_closed_ = false ∧
    (processx__connection_to_utf8 env c).1.iconv_ctx
      = (if c.iconv_ctx = 0 then env.Riconv_open (c.encoding.getD "") else c.iconv_ctx) := by
  refine ⟨rfl, rfl, rfl, ?_⟩
  by_cases h : c.buffer.length = 0 ∨ size_sub c.utf8_allocated_size c.utf8.length = 0
  · rw [to_utf8_nothing env c h]; rfl
  · rw [to_utf8_runs env c h]; rfl

/-! ## Writing and closing -/

/-- C19: `processx_c_connection_write_bytes` on a connection with a valid
handle makes exactly one `write(2)` call, on the handle and with the first
`nbytes` bytes of the buffer; it returns the count that call reports, returns 0
without an error when the call fails with `EAGAIN` or `EWOULDBLOCK`, and raises
an error for every other `errno`.  On a connection with an invalid handle, as
every connection is after `processx_c_connection_close`, it raises an error and
makes no `write(2)` call. -/
theorem write_bytes_makes_one_attempt (c : Connection) (snk : Sink) (buffer : List Nat)
    (nbytes : Nat) :
    (0 ≤ c.handle →
      (processx_c_connection_write_bytes c snk buffer nbytes).2
        = (snk.write c.handle (buffer.take nbytes)).2 ∧
      (processx_c_connection_write_bytes c snk buffer nbytes).2.attempts
        = snk.attempts ++ [(c.handle, buffer.take nbytes)] ∧
      (∀ n, (snk.write c.handle (buffer.take nbytes)).1 = .wrote n →
        (processx_c_connection_write_bytes c snk buffer nbytes).1 = .ok n) ∧
      (∀ e, (snk.write c.handle (buffer.take nbytes)).1 = .fail e →
        (e = EAGAIN ∨ e = EWOULDBLOCK) →
        (processx_c_connection_write_bytes c snk buffer nbytes).1 = .ok 0) ∧
      (∀ e, (snk.write c.handle (buffer.take nbytes)).1 = .fail e →
        ¬ (e = EAGAIN ∨ e = EWOULDBLOCK) →
        (processx_c_connection_write_bytes c snk buffer nbytes).1 = .error (.write_failed e))) ∧
    (c.handle < 0 →
      processx_c_connection_write_bytes c snk buffer nbytes = (.error .invalid_connection, snk)) ∧
    processx_c_connection_write_bytes (processx_c_connection_close c).1 snk buffer nbytes
      = (.error .invalid_connection, snk) := by
  refine ⟨?_, ?_, ?_⟩
  · intro h
    have hv : PROCESSX_CHECK_VALID_CONN c = .ok () := by
      unfold PROCESSX_CHECK_VALID_CONN
      rw [if_neg (by omega)]
    have hat : (snk.write c.handle (buffer.take nbytes)).2.attempts
        = snk.attempts ++ [(c.handle, buffer.take nbytes)] := by
      unfold Sink.write
      cases snk.script <;> rfl
    unfold processx_c_connection_write_bytes
    rw [hv]
    simp only
    cases ho : (snk.write c.handle (buffer.take nbytes)).1 with
    | wrote n =>
      refine ⟨rfl, hat, ?_, ?_, ?_⟩
      · intro m hm; cases hm; rfl
      · intro e he; cases he
      · intro e he; cases he
    | fail e0 =>
      simp only
      by_cases hb : e0 = EAGAIN ∨ e0 = EWOULDBLOCK
      · rw [if_pos hb]
        refine ⟨rfl, hat, ?_, ?_, ?_⟩
        · intro m hm; cases hm
        · intro e _ _; rfl
        · intro e he hne; cases he; exact absurd hb hne
      · rw [if_neg hb]
        refine ⟨rfl, hat, ?_, ?_, ?_⟩
        · intro m hm; cases hm
        · intro e he he2; cases he; exact absurd he2 hb
        · intro e he _; cases he; rfl
  · intro h
    unfold processx_c_connection_write_bytes PROCESSX_CHECK_VALID_CONN
    rw [if_pos h]
  · rfl

/-- C19 at concrete inputs: a call that is taken in part, one that would block,
one that fails with `EPIPE` (32), and one on a closed connection. -/
theorem write_bytes_makes_one_attempt_witness :
    processx_c_connection_write_bytes (sample_connection [] false) (steady (.wrote 2))
        [0x61, 0x62, 0x63] 3
      = (.ok 2, { steady (.wrote 2) with attempts := [(3, [0x61, 0x62, 0x63])] }) ∧
    (processx_c_connection_write_bytes (sample_connection [] false) (steady (.fail EAGAIN))
        [0x61, 0x62, 0x63] 3).1 = .ok 0 ∧
    (processx_c_connection_write_bytes (sample_connection [] false) (steady (.fail 32))
        [0x61, 0x62, 0x63] 3).1 = .error (.write_failed 32) ∧
    processx_c_connection_write_bytes (processx_c_connection_close (sample_connection [] false)).1
        (steady (.wrote 2)) [0x61, 0x62, 0x63] 3
      = (.error .invalid_connection, steady (.wrote 2)) :=
  ⟨rfl,
    ((write_bytes_makes_one_attempt (sample_connection [] false) (steady (.fail EAGAIN))
      [0x61, 0x62, 0x63] 3).1 (by decide)).2.2.2.1 EAGAIN rfl (Or.inl rfl),
    ((write_bytes_makes_one_attempt (sample_connection [] false) (steady (.fail 32))
      [0x61, 0x62, 0x63] 3).1 (by decide)).2.2.2.2 32 rfl (by decide),
    (write_bytes_makes_one_attempt (sample_connection [] false) (steady (.wrote 2))
      [0x61, 0x62, 0x63] 3).2.2⟩

/-- C20: `processx_c_connection_close` applied twice gives the state that one
application gives; the first call gives the descriptor to `close(2)` when the
handle is valid, the second call makes no `close(2)` call, nor does
`processx_c_connection_destroy` after a close; a close changes the handle
(to -1) and the closed flag (to set) and nothing else. -/
theorem close_is_idempotent (c : Connection) :
    (processx_c_connection_close (processx_c_connection_close c).1).1
      = (processx_c_connection_close c).1 ∧
    (processx_c_connection_close (processx_c_connection_close c).1).2 = none ∧
    (processx_c_connection_close c).2 = (if 0 ≤ c.handle then some c.handle else none) ∧
    (processx_c_connection_close c).1 = { c with handle := -1, is_closed_ := true } ∧
    (processx_c_connection_destroy (some (processx_c_connection_close c).1)).1 = none := by
  refine ⟨rfl, rfl, rfl, rfl, ?_⟩
  unfold processx_c_connection_destroy
  simp only
  split_ifs <;> rfl

/-! ## The end-of-file flags -/

/-- A decode pass changes neither end-of-file flag. -/
theorem to_utf8_flags (env : Env) (c : Connection) :
    (processx__connection_to_utf8 env c).1.is_eof_ = c.is_eof_ ∧
    (processx__connection_to_utf8 env c).1.is_eof_raw_ = c.is_eof_raw_ := by
  by_cases h : c.buffer.length = 0 ∨ size_sub c.utf8_allocated_size c.utf8.length = 0
  · rw [to_utf8_nothing env c h]; exact ⟨rfl, rfl⟩
  · rw [to_utf8_runs env c h]; exact ⟨rfl, rfl⟩

/-- A decode pass on an empty raw buffer changes neither buffer. -/
theorem to_utf8_of_empty (env : Env) (c : Connection) (h : c.buffer = []) :
    (processx__connection_to_utf8 env c).1.buffer = [] ∧
    (processx__connection_to_utf8 env c).1.utf8 = c.utf8 ∧
    (processx__connection_to_utf8 env c).2.1 = 0 := by
  rw [to_utf8_nothing env c (Or.inl (by rw [h]; rfl))]
  exact ⟨h, rfl, rfl⟩

/-- A decode pass keeps the invariant of the end-of-file flags. -/
theorem to_utf8_keeps_eof_invariant (env : Env) (c : Connection) (h : eof_invariant c) :
    eof_invariant (processx__connection_to_utf8 env c).1 := by
  intro he
  rw [(to_utf8_flags env c).1] at he
  obtain ⟨h1, h2, h3⟩ := h he
  obtain ⟨hb, hu, _⟩ := to_utf8_of_empty env c h2
  exact ⟨by rw [(to_utf8_flags env c).2]; exact h1, hb, by rw [hu]; exact h3⟩

/-- A raw read that sets `is_eof_` leaves `is_eof_raw_` set and both buffers
empty, and returns 0. -/
theorem read_sets_eof {env : Env} {c : Connection} {src : Source} {c1 : Connection}
    {s1 : Source} {n : Nat} (h : processx__connection_read env c src = .ok (c1, s1, n))
    (hc : c.is_eof_ = false) (h1 : c1.is_eof_ = true) :
    c1.is_eof_raw_ = true ∧ c1.buffer = [] ∧ c1.utf8 = [] ∧ n = 0 := by
  unfold processx__connection_read at h
  by_cases hfirst : c.is_eof_raw_ = true ∧ c.buffer.length = 0
  · rw [if_pos hfirst] at h
    simp only [Except.ok.injEq, Prod.mk.injEq] at h
    obtain ⟨rfl, rfl, rfl⟩ := h
    by_cases hu : c.utf8.length = 0
    · rw [if_pos hu]
      exact ⟨hfirst.1, List.eq_nil_of_length_eq_zero hfirst.2,
        List.eq_nil_of_length_eq_zero hu, rfl⟩
    · rw [if_neg hu, hc] at h1
      cases h1
  · rw [if_neg hfirst] at h
    simp only at h
    generalize hc' : (if c.buffer_allocated_size = 0 then processx__connection_alloc c else c)
      = c' at h
    have hc'e : c'.is_eof_ = false := by
      rw [← hc']
      split_ifs
      · exact hc
      · exact hc
    by_cases htodo : (c'.buffer_allocated_size : Int) - (c'.buffer.length : Int) = 0
    · rw [if_pos htodo] at h
      simp only [Except.ok.injEq, Prod.mk.injEq] at h
      obtain ⟨rfl, rfl, rfl⟩ := h
      rw [(to_utf8_flags env c').1, hc'e] at h1
      cases h1
    · rw [if_neg htodo] at h
      generalize src.read (((c'.buffer_allocated_size : Int) - (c'.buffer.length : Int))
        % (SIZE_MOD : Int)).toNat = rd at h
      obtain ⟨o, s2⟩ := rd
      cases o with
      | fail e =>
        simp only at h
        by_cases he : e = EAGAIN
        · rw [if_pos he] at h
          by_cases hb : c'.buffer.length > 0
          · rw [if_pos hb] at h
            simp only [Except.ok.injEq, Prod.mk.injEq] at h
            obtain ⟨rfl, rfl, rfl⟩ := h
            rw [(to_utf8_flags env c').1, hc'e] at h1
            cases h1
          · rw [if_neg hb] at h
            simp only [Except.ok.injEq, Prod.mk.injEq] at h
            obtain ⟨rfl, rfl, rfl⟩ := h
            rw [hc'e] at h1
            cases h1
        · rw [if_neg he] at h
          cases h
      | data bs =>
        simp only at h
        by_cases hbs : bs.length = 0
        · have hbs0 : bs = [] := List.eq_nil_of_length_eq_zero hbs
          subst hbs0
          simp only [List.length_nil, if_true, List.append_nil] at h
          by_cases hb : c'.buffer.length > 0
          · rw [if_pos hb] at h
            simp only [Except.ok.injEq, Prod.mk.injEq] at h
            obtain ⟨rfl, rfl, rfl⟩ := h
            rw [(to_utf8_flags env _).1] at h1
            simp only at h1
            rw [if_neg (by omega), hc'e] at h1
            cases h1
          · rw [if_neg hb] at h
            simp only [Except.ok.injEq, Prod.mk.injEq] at h
            obtain ⟨rfl, rfl, rfl⟩ := h
            simp only at h1
            by_cases hu : c'.utf8.length = 0 ∧ c'.buffer.length = 0
            · exact ⟨rfl, List.eq_nil_of_length_eq_zero hu.2,
                List.eq_nil_of_length_eq_zero hu.1, rfl⟩
            · rw [if_neg hu, hc'e] at h1
              cases h1
        · simp only [hbs, if_false] at h
          have hb : (c'.buffer ++ bs).length > 0 := by
            rw [List.length_append]; omega
          rw [if_pos hb] at h
          simp only [Except.ok.injEq, Prod.mk.injEq] at h
          obtain ⟨rfl, rfl, rfl⟩ := h
          rw [(to_utf8_flags env _).1] at h1
          simp only at h1
          rw [hc'e] at h1
          cases h1

/-- A raw read on a connection whose `is_eof_` flag is set, under the
invariant: nothing happens and 0 is returned. -/
theorem read_at_eof (env : Env) (c : Connection) (src : Source) (hinv : eof_invariant c)
    (he : c.is_eof_ = true) : processx__connection_read env c src = .ok (c, src, 0) := by
  obtain ⟨h1, h2, h3⟩ := hinv he
  unfold processx__connection_read
  rw [if_pos ⟨h1, by rw [h2]; rfl⟩, if_pos (by rw [h3]; rfl)]
  rcases c with ⟨ty, cl, eo, er, cd, enc, ictx, hd, buf, bas, u8, uas, pidx⟩
  simp only at he
  rw [he]

/-- A raw read keeps the invariant of the end-of-file flags. -/
theorem read_keeps_eof_invariant {env : Env} {c : Connection} {src : Source} {c1 : Connection}
    {s1 : Source} {n : Nat} (h : processx__connection_read env c src = .ok (c1, s1, n))
    (hinv : eof_invariant c) : eof_invariant c1 := by
  cases he : c.is_eof_ with
  | true =>
    rw [read_at_eof env c src hinv he] at h
    simp only [Except.ok.injEq, Prod.mk.injEq] at h
    rw [← h.1]
    exact hinv
  | false =>
    intro h1
    obtain ⟨a, b, d, _⟩ := read_sets_eof h he h1
    exact ⟨a, b, d⟩

/-- The availability step of `processx__connection_find_chars` keeps the
invariant, and when it sets `is_eof_` the decoded buffer is empty and no byte
is counted. -/
theorem find_chars_eof {env : Env} {c : Connection} {src : Source} {maxchars maxbytes : Int}
    {c1 : Connection} {src1 : Source} {chars : Option Nat} {bytes : Nat}
    (h : processx__connection_find_chars env c src maxchars maxbytes
      = .ok (c1, src1, chars, bytes)) :
    (eof_invariant c → eof_invariant c1) ∧
    (c.is_eof_ = false → c1.is_eof_ = true → c1.utf8 = [] ∧ bytes = 0) := by
  obtain ⟨_, h2, h3⟩ := find_chars_inv h
  have hb : c1.utf8 = [] → bytes = 0 := by
    intro hu
    rcases h3 with ⟨_, _, hb⟩ | ⟨h0, _⟩
    · exact hb
    · exact absurd (Or.inl (by rw [hu]; rfl)) h0
  rcases h2 with ⟨hc, _, n, hr⟩ | ⟨_, hcc, _⟩
  · refine ⟨read_keeps_eof_invariant hr, fun _ h1 => ?_⟩
    obtain ⟨_, _, hu, _⟩ := read_sets_eof hr hc h1
    exact ⟨hu, hb hu⟩
  · subst hcc
    refine ⟨id, fun h0 h1 => ?_⟩
    rw [h0] at h1
    cases h1

/-- Removing the beginning of the decoded buffer keeps the invariant and the
flags. -/
theorem utf8_drop_eof {c c2 : Connection} {k : Int} (h : utf8_drop c k = .ok c2) :
    c2.is_eof_ = c.is_eof_ ∧ (eof_invariant c → eof_invariant c2) := by
  unfold utf8_drop at h
  split_ifs at h
  simp only [Except.ok.injEq] at h
  subst h
  refine ⟨rfl, fun hinv he => ?_⟩
  obtain ⟨a, b, d⟩ := hinv he
  exact ⟨a, b, by simp only; rw [d]; exact List.drop_nil⟩

/-- The invariant and the lag of `is_eof_` for `processx_connection_read_chars`. -/
theorem read_chars_eof {env : Env} {c : Connection} {src : Source} {nchars : Int}
    {text : List Nat} {c2 : Connection} {src2 : Source}
    (h : processx_connection_read_chars env c src nchars = .ok (text, c2, src2)) :
    (eof_invariant c → eof_invariant c2) ∧
    (c.is_eof_ = false → c2.is_eof_ = true → text = []) := by
  obtain ⟨c1, chars, bytes, hf, hn⟩ := read_chars_inv h
  rw [read_chars_of_find_chars hf hn] at h
  simp only [Except.ok.injEq, Prod.mk.injEq] at h
  obtain ⟨rfl, rfl, _⟩ := h
  obtain ⟨f1, f2⟩ := find_chars_eof hf
  refine ⟨fun hinv he => ?_, fun h0 h1 => ?_⟩
  · obtain ⟨a, b, d⟩ := f1 hinv he
    exact ⟨a, b, by simp only; rw [d]; exact List.drop_nil⟩
  · obtain ⟨hu, _⟩ := f2 h0 h1
    rw [hu]; exact List.take_nil

/-- What `processx_c_connection_read_chars` does once the availability step
and the scan have succeeded. -/
theorem read_bytes_of_find_chars {env : Env} {c : Connection} {src : Source}
    {buffer : List Nat} {nbyte : Nat} {c1 : Connection} {src1 : Source} {chars : Option Nat}
    {bytes : Nat} (h4 : 4 ≤ nbyte)
    (h : processx__connection_find_chars env c src (-1) (to_ssize nbyte)
      = .ok (c1, src1, chars, bytes)) :
    processx_c_connection_read_chars env c src buffer nbyte
      = .ok (bytes, memcpy buffer c1.utf8 bytes, { c1 with utf8 := c1.utf8.drop bytes }, src1) := by
  have hle := find_chars_bytes_le h
  have hn4 : ¬ nbyte < 4 := by omega
  have e1 : ¬ ((bytes : Int) < 0 ∨ (c1.utf8.length : Int) < (bytes : Int)) := by omega
  unfold processx_c_connection_read_chars utf8_drop
  simp only [hn4, if_false, bind, Except.bind, h, e1, pure, Except.pure, Int.toNat_ofNat]

/-- The invariant and the lag of `is_eof_` for `processx_c_connection_read_chars`. -/
theorem read_bytes_eof {env : Env} {c : Connection} {src : Source} {buffer : List Nat}
    {nbyte n : Nat} {b1 : List Nat} {c2 : Connection} {src2 : Source}
    (h : processx_c_connection_read_chars env c src buffer nbyte = .ok (n, b1, c2, src2)) :
    (eof_invariant c → eof_invariant c2) ∧
    (c.is_eof_ = false → c2.is_eof_ = true → n = 0 ∧ b1 = buffer) := by
  by_cases h4 : nbyte < 4
  · simp [processx_c_connection_read_chars, h4, throw, throwThe, MonadExceptOf.throw, bind,
      Except.bind] at h
  · cases hf : processx__connection_find_chars env c src (-1) (to_ssize nbyte) with
    | error f =>
      simp [processx_c_connection_read_chars, h4, hf, bind, Except.bind, pure, Except.pure] at h
    | ok r =>
      obtain ⟨c1, src1, chars, bytes⟩ := r
      rw [read_bytes_of_find_chars (by omega) hf] at h
      simp only [Except.ok.injEq, Prod.mk.injEq] at h
      obtain ⟨rfl, rfl, rfl, _⟩ := h
      obtain ⟨f1, f2⟩ := find_chars_eof hf
      refine ⟨fun hinv he => ?_, fun h0 h1 => ?_⟩
      · obtain ⟨a, b, d⟩ := f1 hinv he
        exact ⟨a, b, by simp only; rw [d]; exact List.drop_nil⟩
      · obtain ⟨hu, hb⟩ := f2 h0 h1
        subst hb
        exact ⟨rfl, by simp [memcpy]⟩

/-- Growing the decoded buffer changes neither the flags nor the data. -/
theorem realloc_eof (env : Env) (c : Connection) :
    (processx__connection_realloc env c).is_eof_ = c.is_eof_ ∧
    (eof_invariant c → eof_invariant (processx__connection_realloc env c)) :=
  ⟨rfl, fun h => h⟩

/-- The loop of `processx__connection_read_until_newline` keeps the invariant,
and when it sets `is_eof_` the decoded buffer is empty and no newline is
reported. -/
theorem read_until_newline_loop_eof (env : Env) :
    ∀ (fuel : Nat) (c : Connection) (src : Source) (ptr e : Nat) (c1 : Connection)
      (s1 : Source) (nl : Int),
      read_until_newline_loop env fuel c src ptr e = .ok (c1, s1, nl) →
      (eof_invariant c → eof_invariant c1) ∧
      (c.is_eof_ = false → c1.is_eof_ = true → c1.utf8 = [] ∧ nl = -1) := by
  intro fuel
  induction fuel with
  | zero =>
    intro c src ptr e c1 s1 nl h
    simp [read_until_newline_loop] at h
  | succ fuel ih =>
    intro c src ptr e c1 s1 nl h
    rw [read_until_newline_loop] at h
    simp only at h
    by_cases hp : scan_newline c.utf8 (e - ptr) ptr e < e
    · rw [if_pos hp] at h
      simp only [Except.ok.injEq, Prod.mk.injEq] at h
      obtain ⟨rfl, _, _⟩ := h
      exact ⟨id, fun h0 h1 => by rw [h0] at h1; cases h1⟩
    · rw [if_neg hp] at h
      cases he : c.is_eof_ with
      | true =>
        simp only [he, if_true, Except.ok.injEq, Prod.mk.injEq] at h
        obtain ⟨rfl, _, _⟩ := h
        exact ⟨id, fun h0 => by cases h0⟩
      | false =>
        simp only [he, Bool.false_eq_true, if_false] at h
        generalize hc' : (if c.utf8.length ≥ size_sub c.utf8_allocated_size 8 then
          processx__connection_realloc env c else c) = c' at h
        have hc'e : c'.is_eof_ = false := by
          rw [← hc']
          split_ifs
          · exact he
          · exact he
        have hc'i : eof_invariant c → eof_invariant c' := by
          rw [← hc']
          split_ifs
          · exact (realloc_eof env c).2
          · exact id
        cases hr : processx__connection_read env c' src with
        | error f => simp [hr] at h
        | ok r =>
          obtain ⟨r1, r2, r3⟩ := r
          simp only [hr] at h
          by_cases h0 : r3 = 0
          · rw [if_pos h0] at h
            simp only [Except.ok.injEq, Prod.mk.injEq] at h
            obtain ⟨rfl, _, rfl⟩ := h
            refine ⟨fun hinv => read_keeps_eof_invariant hr (hc'i hinv), fun _ h1 => ?_⟩
            obtain ⟨_, _, hu, _⟩ := read_sets_eof hr hc'e h1
            exact ⟨hu, rfl⟩
          · rw [if_neg h0] at h
            obtain ⟨i1, i2⟩ := ih r1 r2 _ _ c1 s1 nl h
            have hr1 : r1.is_eof_ = false := by
              cases hx : r1.is_eof_ with
              | false => rfl
              | true =>
                obtain ⟨_, _, _, hn⟩ := read_sets_eof hr hc'e hx
                exact absurd hn h0
            exact ⟨fun hinv => i1 (read_keeps_eof_invariant hr (hc'i hinv)), fun _ h1 => i2 hr1 h1⟩

/-- The function `processx__connection_read_until_newline` keeps the invariant,
and when it sets `is_eof_` the decoded buffer is empty and no newline is
reported. -/
theorem read_until_newline_eof {env : Env} {fuel : Nat} {c : Connection} {src : Source}
    {c1 : Connection} {s1 : Source} {nl : Int}
    (h : processx__connection_read_until_newline env fuel c src = .ok (c1, s1, nl)) :
    (eof_invariant c → eof_invariant c1) ∧
    (c.is_eof_ = false → c1.is_eof_ = true → c1.utf8 = [] ∧ nl = -1) := by
  unfold processx__connection_read_until_newline at h
  by_cases hu : c.utf8.length = 0
  · simp only [hu, if_true, bind, Except.bind] at h
    cases hr : processx__connection_read env c src with
    | error f => simp [hr, Except.map] at h
    | ok r =>
      obtain ⟨r1, r2, r3⟩ := r
      simp only [hr, Except.map] at h
      by_cases hu1 : r1.utf8.length = 0
      · simp only [hu1, if_true, pure, Except.pure, Except.ok.injEq, Prod.mk.injEq] at h
        obtain ⟨rfl, _, rfl⟩ := h
        exact ⟨fun hinv => read_keeps_eof_invariant hr hinv,
          fun _ _ => ⟨List.eq_nil_of_length_eq_zero hu1, rfl⟩⟩
      · simp only [hu1, if_false] at h
        obtain ⟨i1, i2⟩ := read_until_newline_loop_eof env fuel r1 r2 _ _ c1 s1 nl h
        refine ⟨fun hinv => i1 (read_keeps_eof_invariant hr hinv), fun h0 h1 => ?_⟩
        have hr1 : r1.is_eof_ = false := by
          cases hx : r1.is_eof_ with
          | false => rfl
          | true =>
            obtain ⟨_, _, hn, _⟩ := read_sets_eof hr h0 hx
            rw [hn] at hu1
            exact absurd rfl hu1
        exact i2 hr1 h1
  · simp only [hu, if_false, bind, Except.bind, pure, Except.pure] at h
    exact read_until_newline_loop_eof env fuel c src _ _ c1 s1 nl h

/-- The invariant and the lag of `is_eof_` for `processx_c_connection_read_line`. -/
theorem read_line_eof {env : Env} {fuel : Nat} {c : Connection} {src : Source} {lb : LineBuf}
    {ret : Int} {lb1 : LineBuf} {c2 : Connection} {s2 : Source}
    (h : processx_c_connection_read_line env fuel c src lb = .ok (ret, lb1, c2, s2)) :
    (eof_invariant c → eof_invariant c2) ∧
    (c.is_eof_ = false → c2.is_eof_ = true → ret = 0 ∧ lb1 = lb ∧ c2.utf8 = []) ∧
    (c.is_eof_ = true → ret = -1 ∧ lb1 = lb ∧ c2 = c ∧ s2 = src) := by
  unfold processx_c_connection_read_line at h
  cases he : c.is_eof_ with
  | true =>
    simp only [he, if_true, pure, Except.pure, Except.ok.injEq, Prod.mk.injEq] at h
    obtain ⟨rfl, rfl, rfl, rfl⟩ := h
    exact ⟨id, fun h0 => (by cases h0), fun _ => ⟨rfl, rfl, rfl, rfl⟩⟩
  | false =>
    simp only [he, Bool.false_eq_true, if_false, bind, Except.bind] at h
    cases hr : processx__connection_read_until_newline env fuel c src with
    | error f => simp [hr] at h
    | ok r =>
      obtain ⟨c1, s1, nl⟩ := r
      obtain ⟨i1, i2⟩ := read_until_newline_eof hr
      simp only [hr] at h
      by_cases hfirst : nl = -1 ∧ eof_tail c1 = false
      · rw [if_pos hfirst] at h
        simp only [pure, Except.pure, Except.ok.injEq, Prod.mk.injEq] at h
        obtain ⟨rfl, rfl, rfl, rfl⟩ := h
        refine ⟨i1, fun _ h1 => ⟨rfl, rfl, (i2 he h1).1⟩, fun h0 => by cases h0⟩
      · rw [if_neg hfirst] at h
        have key : c2.is_eof_ = c1.is_eof_ ∧ (eof_invariant c1 → eof_invariant c2) := by
          split_ifs at h <;>
          first
          | (simp [throw, throwThe, MonadExceptOf.throw] at h; done)
          | (split at h
             · simp at h
             · rename_i v heq
               simp only [pure, Except.pure, Except.ok.injEq, Prod.mk.injEq] at h
               obtain ⟨_, _, rfl, _⟩ := h
               exact utf8_drop_eof heq)
          | (simp only [pure, Except.pure, Except.ok.injEq, Prod.mk.injEq] at h
             obtain ⟨_, _, rfl, _⟩ := h
             exact ⟨rfl, fun hinv he1 => ⟨(hinv he1).1, (hinv he1).2.1, rfl⟩⟩)
        refine ⟨fun hinv => key.2 (i1 hinv), fun _ h1 => ?_, fun h0 => by cases h0⟩
        rw [key.1] at h1
        obtain ⟨hu, hn⟩ := i2 he h1
        exfalso
        apply hfirst
        refine ⟨hn, ?_⟩
        unfold eof_tail
        rw [hu]
        simp

/-- The function `processx_connection_read_lines` keeps the invariant of the
end-of-file flags. -/
theorem read_lines_eof {env : Env} {fuel : Nat} {c : Connection} {src : Source} {nlines : Int}
    {result : List (List Nat)} {c2 : Connection} {s2 : Source}
    (h : processx_connection_read_lines env fuel c src nlines = .ok (result, c2, s2)) :
    eof_invariant c → eof_invariant c2 := by
  unfold processx_connection_read_lines processx__connection_find_lines
    PROCESSX_CHECK_VALID_CONN at h
  by_cases hh : c.handle < 0
  · simp [hh, bind, Except.bind] at h
  · simp only [hh, if_false, bind, Except.bind] at h
    cases hr : processx__connection_read_until_newline env fuel c src with
    | error f => simp [hr] at h
    | ok r =>
      obtain ⟨c1, s1, nl⟩ := r
      obtain ⟨i1, _⟩ := read_until_newline_eof hr
      simp only [hr, pure, Except.pure] at h
      have key : c2.is_eof_ = c1.is_eof_ ∧ (eof_invariant c1 → eof_invariant c2) := by
        iterate 6 (all_goals (try split at h))
        all_goals first
          | (simp at h; done)
          | (simp only [Except.ok.injEq, Prod.mk.injEq] at h
             obtain ⟨_, rfl, _⟩ := h
             first
             | exact utf8_drop_eof (by assumption)
             | exact ⟨rfl, id⟩)
      exact fun hinv => key.2 (i1 hinv)

/-- The check before polling keeps the invariant of the end-of-file flags. -/
theorem poll_ready_eof (env : Env) (c : Connection) (h : eof_invariant c) :
    eof_invariant (PROCESSX__I_POLL_FUNC_CONNECTION_READY env c).2 := by
  unfold PROCESSX__I_POLL_FUNC_CONNECTION_READY
  simp only
  split_ifs <;> first | exact h | exact to_utf8_keeps_eof_invariant env c h

/-- The poll function keeps the invariant of the end-of-file flags. -/
theorem poll_func_eof (env : Env) (c : Connection) (h : eof_invariant c) :
    eof_invariant (processx_i_poll_func_connection env c).2.1 := by
  have := poll_ready_eof env c h
  unfold processx_i_poll_func_connection
  split
  · rename_i ev c1 heq
    rw [heq] at this
    exact this
  · rename_i c1 heq
    rw [heq] at this
    exact this

/-- Closing changes neither flag of the invariant nor the buffers. -/
theorem close_eof (c : Connection) (h : eof_invariant c) :
    eof_invariant (processx_c_connection_close c).1 := h

/-- A new connection has no end-of-file flag set. -/
theorem create_eof (os_handle : Int) (type : FileType) (encoding : Option String) :
    eof_invariant (processx_c_connection_create os_handle type encoding) := by
  intro h
  cases h

/-- The end-of-file bookkeeping keeps the invariant. -/
theorem mark_eof_raw_eof (c : Connection) (h : eof_invariant c) :
    eof_invariant (Win.mark_eof_raw c) := by
  intro he
  unfold Win.mark_eof_raw at he ⊢
  simp only at he
  by_cases hb : c.utf8.length = 0 ∧ c.buffer.length = 0
  · exact ⟨rfl, List.eq_nil_of_length_eq_zero hb.2, List.eq_nil_of_length_eq_zero hb.1⟩
  · rw [if_neg hb] at he
    obtain ⟨_, b, d⟩ := h he
    exact ⟨rfl, b, d⟩

/-- Allocating the buffers keeps the invariant and the flag. -/
theorem alloc_eof (c : Connection) (h : eof_invariant c) :
    eof_invariant (processx__connection_alloc c) ∧
    (processx__connection_alloc c).is_eof_ = c.is_eof_ :=
  ⟨fun he => ⟨(h he).1, rfl, rfl⟩, rfl⟩

/-- Setting up the event changes neither the shared fields nor `read_pending`. -/
theorem start_read_event_con {os : Win.StartRead} {w w1 : Win.WinConnection}
    (h : Win.start_read_event os w = .ok w1) :
    w1.con = w.con ∧ w1.read_pending = w.read_pending := by
  unfold Win.start_read_event at h
  split_ifs at h <;> cases h <;> exact ⟨rfl, rfl⟩

/-- Calling `ReadFile` keeps the invariant; when no read was pending, one is
left pending only with the flag `is_eof_` as it was. -/
theorem start_read_issue_eof {env : Env} {os : Win.StartRead} {w w1 : Win.WinConnection}
    (h : Win.start_read_issue env os w = .ok w1) (hinv : eof_invariant w.con) :
    eof_invariant w1.con ∧
    (w.read_pending = false → w1.read_pending = true → w1.con.is_eof_ = w.con.is_eof_) := by
  unfold Win.start_read_issue at h
  simp only at h
  have hc : eof_invariant
      (if w.con.buffer_allocated_size = 0 then processx__connection_alloc w.con else w.con) ∧
      (if w.con.buffer_allocated_size = 0 then processx__connection_alloc w.con
        else w.con).is_eof_ = w.con.is_eof_ := by
    split_ifs
    · exact alloc_eof w.con hinv
    · exact ⟨hinv, rfl⟩
  generalize (if w.con.buffer_allocated_size = 0 then processx__connection_alloc w.con
    else w.con) = c at h hc
  cases hrf : os.ReadFile with
  | none =>
    simp only [hrf, Except.ok.injEq] at h
    subst h
    exact ⟨hc.1, fun _ _ => hc.2⟩
  | some err =>
    simp only [hrf] at h
    by_cases he1 : err = Win.ERROR_BROKEN_PIPE ∨ err = Win.ERROR_HANDLE_EOF
    · rw [if_pos he1] at h
      simp only [Except.ok.injEq] at h
      subst h
      refine ⟨?_, fun hp hp1 => ?_⟩
      · simp only
        split_ifs
        · exact to_utf8_keeps_eof_invariant env _ (mark_eof_raw_eof c hc.1)
        · exact mark_eof_raw_eof c hc.1
      · simp only at hp1
        rw [hp] at hp1
        cases hp1
    · rw [if_neg he1] at h
      by_cases he2 : err = Win.ERROR_IO_PENDING
      · rw [if_pos he2] at h
        simp only [Except.ok.injEq] at h
        subst h
        exact ⟨hc.1, fun _ _ => hc.2⟩
      · rw [if_neg he2] at h
        cases h

/-- Starting a read keeps the invariant, and a read is pending afterwards only
on a connection whose `is_eof_` flag is unset, when the flag was unset
before. -/
theorem start_read_eof {env : Env} {os : Win.StartRead} {w w1 : Win.WinConnection}
    (h : Win.processx__connection_start_read env os w = .ok w1)
    (hinv : eof_invariant w.con) :
    eof_invariant w1.con ∧
    (w.con.is_eof_ = false → w1.read_pending = true → w1.con.is_eof_ = false) := by
  unfold Win.processx__connection_start_read at h
  by_cases h0 : w.con.handle = 0
  · rw [if_pos h0] at h
    simp only [Except.ok.injEq] at h
    subst h
    exact ⟨hinv, fun he _ => he⟩
  · rw [if_neg h0] at h
    cases hp : w.read_pending with
    | true =>
      simp only [hp, if_true, Except.ok.injEq] at h
      subst h
      exact ⟨hinv, fun he _ => he⟩
    | false =>
      simp only [hp, Bool.false_eq_true, if_false] at h
      cases hev : Win.start_read_event os w with
      | error f => simp [hev] at h
      | ok w' =>
        simp only [hev] at h
        obtain ⟨e1, e2⟩ := start_read_event_con hev
        obtain ⟨i1, i2⟩ := start_read_issue_eof h (by rw [e1]; exact hinv)
        refine ⟨i1, fun he hp1 => ?_⟩
        rw [i2 (by rw [e2]; exact hp) hp1, e1]
        exact he

/-- The handling of a completion packet in `processx__connection_read`
(Windows) keeps the invariant on a connection whose `is_eof_` flag is unset. -/
theorem read_completion_eof (env : Env) (w : Win.WinConnection) (data : List Nat)
    (he : w.con.is_eof_ = false) : eof_invariant (Win.read_completion env w data).1.con := by
  have inv0 : ∀ c : Connection, c.is_eof_ = false → eof_invariant c := by
    intro c hc h1
    rw [hc] at h1
    cases h1
  unfold Win.read_completion
  simp only
  split_ifs <;>
  first
  | exact mark_eof_raw_eof _ (to_utf8_keeps_eof_invariant env _ (inv0 _ he))
  | exact to_utf8_keeps_eof_invariant env _ (inv0 _ he)
  | exact mark_eof_raw_eof _ (inv0 _ he)
  | exact inv0 _ he

/-- The handling of a completion packet in `processx_c_connection_poll`
(Windows) keeps the invariant on a connection whose `is_eof_` flag is unset. -/
theorem poll_completion_eof (env : Env) (w : Win.WinConnection) (data : List Nat)
    (he : w.con.is_eof_ = false) : eof_invariant (Win.poll_completion env w data).con := by
  have inv0 : ∀ c : Connection, c.is_eof_ = false → eof_invariant c := by
    intro c hc h1
    rw [hc] at h1
    cases h1
  unfold Win.poll_completion
  simp only
  split_ifs <;>
  first
  | exact mark_eof_raw_eof _ (to_utf8_keeps_eof_invariant env _ (inv0 _ he))
  | exact to_utf8_keeps_eof_invariant env _ (inv0 _ he)
  | exact mark_eof_raw_eof _ (inv0 _ he)
  | exact inv0 _ he

/-- The loop over the completion packets keeps the invariant on a connection
whose `is_eof_` flag is unset. -/
theorem dequeue_loop_eof (env : Env) (w : Win.WinConnection) (he : w.con.is_eof_ = false) :
    ∀ (q : List Win.Dequeued) (w1 : Win.WinConnection) (q1 : List Win.Dequeued) (n : Nat),
      Win.dequeue_loop env w q = .ok (w1, q1, n) → eof_invariant w1.con := by
  have inv0 : eof_invariant w.con := by
    intro h1
    rw [he] at h1
    cases h1
  intro q
  induction q with
  | nil =>
    intro w1 q1 n h
    simp only [Win.dequeue_loop, Except.ok.injEq, Prod.mk.injEq] at h
    rw [← h.1]
    exact inv0
  | cons d q ih =>
    intro w1 q1 n h
    cases d with
    | timeout =>
      simp only [Win.dequeue_loop, Except.ok.injEq, Prod.mk.injEq] at h
      rw [← h.1]
      exact inv0
    | failed code => simp [Win.dequeue_loop] at h
    | completion own data =>
      cases own with
      | false =>
        simp only [Win.dequeue_loop] at h
        exact ih w1 q1 n h
      | true =>
        simp only [Win.dequeue_loop, Except.ok.injEq, Prod.mk.injEq] at h
        rw [← h.1]
        exact read_completion_eof env w data he

/-- The raw read of the Windows backend keeps the invariant of the end-of-file
flags. -/
theorem win_read_eof {env : Env} {os : Win.StartRead} {q : List Win.Dequeued}
    {w w1 : Win.WinConnection} {q1 : List Win.Dequeued} {n : Nat}
    (h : Win.processx__connection_read env os q w = .ok (w1, q1, n))
    (hinv : eof_invariant w.con) : eof_invariant w1.con := by
  unfold Win.processx__connection_read at h
  by_cases hfirst : w.con.is_eof_raw_ = true ∧ w.con.buffer.length = 0
  · rw [if_pos hfirst] at h
    simp only [Except.ok.injEq, Prod.mk.injEq] at h
    rw [← h.1]
    split_ifs with hu
    · exact fun _ => ⟨hfirst.1, List.eq_nil_of_length_eq_zero hfirst.2,
        List.eq_nil_of_length_eq_zero hu⟩
    · exact hinv
  · rw [if_neg hfirst] at h
    simp only at h
    have he : w.con.is_eof_ = false := by
      cases hx : w.con.is_eof_ with
      | false => rfl
      | true =>
        obtain ⟨a, b, _⟩ := hinv hx
        exact absurd ⟨a, by rw [b]; rfl⟩ hfirst
    have hw : eof_invariant (if w.con.buffer_allocated_size = 0 then
          { w with con := processx__connection_alloc w.con } else w).con ∧
        (if w.con.buffer_allocated_size = 0 then
          { w with con := processx__connection_alloc w.con } else w).con.is_eof_ = false := by
      split_ifs
      · exact ⟨(alloc_eof w.con hinv).1, he⟩
      · exact ⟨hinv, he⟩
    generalize (if w.con.buffer_allocated_size = 0 then
          { w with con := processx__connection_alloc w.con } else w) = w' at h hw
    split_ifs at h with htodo
    · simp only [Except.ok.injEq, Prod.mk.injEq] at h
      rw [← h.1]
      exact to_utf8_keeps_eof_invariant env _ hw.1
    · cases hs : Win.processx__connection_start_read env os w' with
      | error f => simp [hs] at h
      | ok w2 =>
        simp only [hs] at h
        obtain ⟨i1, i2⟩ := start_read_eof hs hw.1
        cases hp : w2.read_pending with
        | true =>
          simp only [hp, if_true] at h
          exact dequeue_loop_eof env w2 (i2 hw.2 hp) q w1 q1 n h
        | false =>
          simp only [hp, Bool.false_eq_true, if_false, Except.ok.injEq, Prod.mk.injEq] at h
          rw [← h.1]
          exact i1

/-- The poll function of the Windows backend keeps the invariant of the
end-of-file flags. -/
theorem win_poll_func_eof {env : Env} {os : Win.StartRead} {w w1 : Win.WinConnection}
    {ev : PollEvent} {hd : Option Int}
    (h : Win.processx_i_poll_func_connection env os w = .ok (ev, w1, hd))
    (hinv : eof_invariant w.con) : eof_invariant w1.con := by
  unfold Win.processx_i_poll_func_connection at h
  have h1 := poll_ready_eof env w.con hinv
  split at h
  · rename_i ev1 c1 heq
    rw [heq] at h1
    simp only [Except.ok.injEq, Prod.mk.injEq] at h
    rw [← h.2.1]
    exact h1
  · rename_i c1 heq
    rw [heq] at h1
    split at h
    · cases h
    · rename_i w2 hs
      obtain ⟨i1, _⟩ := start_read_eof hs h1
      have h2 := poll_ready_eof env w2.con i1
      split at h
      · rename_i ev2 c2 heq2
        rw [heq2] at h2
        simp only [Except.ok.injEq, Prod.mk.injEq] at h
        rw [← h.2.1]
        exact h2
      · rename_i c2 heq2
        rw [heq2] at h2
        simp only [Except.ok.injEq, Prod.mk.injEq] at h
        rw [← h.2.1]
        exact h2

/-! ## The claims about the end-of-file flags -/

/-- On the unix backend every connection operation keeps the invariant that
`is_eof_` is set only when `is_eof_raw_` is set and both buffers are empty:
creating a connection gives it, and a decode pass, a raw read, `read_chars`,
`read_bytes` (`processx_c_connection_read_chars`), `read_line`, `read_lines`,
the check before polling and `close` lead from a state that has it to a state
that has it, whenever they return a state.  On Windows the raw read, the start
of a read and the poll function keep it for the connection they are called on,
and the handling of a completion packet keeps it for a connection whose
`is_eof_` flag is unset when the packet is handled; a packet handled for a
connection whose flag is set is not covered. -/
theorem eof_invariant_is_kept (env : Env) :
    (∀ os_handle type encoding,
      eof_invariant (processx_c_connection_create os_handle type encoding)) ∧
    (∀ c, eof_invariant c → eof_invariant (processx__connection_to_utf8 env c).1) ∧
    (∀ c src c1 s1 n, processx__connection_read env c src = .ok (c1, s1, n) →
      eof_invariant c → eof_invariant c1) ∧
    (∀ c src nchars text c1 s1,
      processx_connection_read_chars env c src nchars = .ok (text, c1, s1) →
      eof_invariant c → eof_invariant c1) ∧
    (∀ c src buffer nbyte n b1 c1 s1,
      processx_c_connection_read_chars env c src buffer nbyte = .ok (n, b1, c1, s1) →
      eof_invariant c → eof_invariant c1) ∧
    (∀ fuel c src lb ret lb1 c1 s1,
      processx_c_connection_read_line env fuel c src lb = .ok (ret, lb1, c1, s1) →
      eof_invariant c → eof_invariant c1) ∧
    (∀ fuel c src nlines result c1 s1,
      processx_connection_read_lines env fuel c src nlines = .ok (result, c1, s1) →
      eof_invariant c → eof_invariant c1) ∧
    (∀ c, eof_invariant c → eof_invariant (processx_i_poll_func_connection env c).2.1) ∧
    (∀ c, eof_invariant c → eof_invariant (processx_c_connection_close c).1) ∧
    (∀ os q w w1 q1 n, Win.processx__connection_read env os q w = .ok (w1, q1, n) →
      eof_invariant w.con → eof_invariant w1.con) ∧
    (∀ os w w1, Win.processx__connection_start_read env os w = .ok w1 →
      eof_invariant w.con → eof_invariant w1.con) ∧
    (∀ os w ev w1 hd, Win.processx_i_poll_func_connection env os w = .ok (ev, w1, hd) →
      eof_invariant w.con → eof_invariant w1.con) ∧
    (∀ w data, w.con.is_eof_ = false →
      eof_invariant (Win.read_completion env w data).1.con ∧
      eof_invariant (Win.poll_completion env w data).con) :=
  ⟨create_eof,
    fun c h => to_utf8_keeps_eof_invariant env c h,
    fun _ _ _ _ _ h => read_keeps_eof_invariant h,
    fun _ _ _ _ _ _ h => (read_chars_eof h).1,
    fun _ _ _ _ _ _ _ _ h => (read_bytes_eof h).1,
    fun _ _ _ _ _ _ _ _ h => (read_line_eof h).1,
    fun _ _ _ _ _ _ _ h => read_lines_eof h,
    fun c h => poll_func_eof env c h,
    fun c h => close_eof c h,
    fun _ _ _ _ _ _ h => win_read_eof h,
    fun _ _ _ h hinv => (start_read_eof h hinv).1,
    fun _ _ _ _ _ h => win_poll_func_eof h,
    fun w data he => ⟨read_completion_eof env w data he, poll_completion_eof env w data he⟩⟩

/-- The invariant at a concrete input: the raw read that finds the end of the
file on a connection with empty buffers sets both flags. -/
theorem eof_invariant_is_kept_example :
    processx__connection_read (sample_env 0) (sample_connection [] false) (chunks_then_eof [])
      = .ok ({ sample_connection [] false with is_eof_raw_ := true, is_eof_ := true },
          chunks_then_eof [], 0) ∧
    eof_invariant (sample_connection [] false) ∧
    eof_invariant { sample_connection [] false with is_eof_raw_ := true, is_eof_ := true } :=
  ⟨rfl, (by intro h; cases h),
    (eof_invariant_is_kept (sample_env 0)).2.2.1 (sample_connection [] false)
      (chunks_then_eof []) _ _ _ rfl (by intro h; cases h)⟩

/-- C13, as the code has it: on Windows, a read that completes with the single
byte `C3`, the first byte of a two-byte character, sets `is_eof_raw_` in
`processx__connection_read`, because the byte count is replaced by the return
value of the decode pass (0) before it is tested; the same packet handled in
`processx_c_connection_poll` leaves the flag unset, and so does the unix raw
read that gets the same byte from `read(2)`. -/
theorem win_read_sets_raw_eof_on_delivered_bytes :
    (Win.sample_pending []).con.is_eof_raw_ = false ∧
    Win.processx__connection_read utf8_env Win.read_started [.completion true [0xc3]]
        (Win.sample_pending [])
      = .ok ({ Win.sample_pending [] with
                con := { sample_connection [] false with buffer := [0xc3], is_eof_raw_ := true },
                read_pending := false }, [], 0) ∧
    (Win.poll_completion utf8_env (Win.sample_pending []) [0xc3]).con
      = { sample_connection [] false with buffer := [0xc3] } ∧
    processx__connection_read utf8_env (sample_connection [] false) (chunks_then_eof [[0xc3]])
      = .ok ({ sample_connection [] false with buffer := [0xc3] }, chunks_then_eof [], 0) :=
  ⟨rfl, rfl, rfl, rfl⟩

/-- C14: on a connection whose `is_eof_` flag is unset, a call of `read_chars`,
`read_bytes` (`processx_c_connection_read_chars`) or `read_line` that sets the
flag returns no data: the empty string, 0 bytes with the caller's buffer as it
was, and for `read_line` 0 with the line buffer untouched, after which every
`read_line` call returns -1 and changes nothing.  The `read_line` call on a
connection that is exhausted (`is_eof_raw_` set, both buffers empty) returns 0
and sets the flag. -/
theorem eof_flag_lags_one_call (env : Env) (c : Connection) (src : Source)
    (hc : c.is_eof_ = false) :
    (∀ nchars text c1 s1,
      processx_connection_read_chars env c src nchars = .ok (text, c1, s1) →
      c1.is_eof_ = true → text = []) ∧
    (∀ buffer nbyte n b1 c1 s1,
      processx_c_connection_read_chars env c src buffer nbyte = .ok (n, b1, c1, s1) →
      c1.is_eof_ = true → n = 0 ∧ b1 = buffer) ∧
    (∀ fuel lb ret lb1 c1 s1,
      processx_c_connection_read_line env fuel c src lb = .ok (ret, lb1, c1, s1) →
      c1.is_eof_ = true →
      ret = 0 ∧ lb1 = lb ∧
      ∀ fuel2 src2 lb2,
        processx_c_connection_read_line env fuel2 c1 src2 lb2 = .ok (-1, lb2, c1, src2)) ∧
    (c.is_eof_raw_ = true → c.buffer = [] → c.utf8 = [] →
      ∀ fuel lb, processx_c_connection_read_line env fuel c src lb
        = .ok (0, lb, { c with is_eof_ := true }, src)) := by
  refine ⟨fun _ _ _ _ h h1 => (read_chars_eof h).2 hc h1,
    fun _ _ _ _ _ _ h h1 => (read_bytes_eof h).2 hc h1, ?_, ?_⟩
  · intro fuel lb ret lb1 c1 s1 h h1
    obtain ⟨a, b, _⟩ := (read_line_eof h).2.1 hc h1
    refine ⟨a, b, fun fuel2 src2 lb2 => ?_⟩
    unfold processx_c_connection_read_line
    simp [h1, pure, Except.pure]
  · intro hr hb hu fuel lb
    have hread : processx__connection_read env c src = .ok ({ c with is_eof_ := true }, src, 0) := by
      unfold processx__connection_read
      rw [if_pos ⟨hr, by rw [hb]; rfl⟩, if_pos (by rw [hu]; rfl)]
    unfold processx_c_connection_read_line processx__connection_read_until_newline
    simp [hc, hu, hread, bind, Except.bind, Except.map, pure, Except.pure, eof_tail]

/-- C14 at a concrete input: `read_line` on a connection whose raw file is at
its end and whose buffers are empty returns 0 and sets `is_eof_`; the next
call returns -1. -/
theorem eof_flag_lags_one_call_witness :
    (sample_connection [] true).is_eof_ = false ∧
    processx_c_connection_read_line (sample_env 0) 5 (sample_connection [] true) quiet
        { linep := none, linecapp := 0 }
      = .ok (0, { linep := none, linecapp := 0 },
          { sample_connection [] true with is_eof_ := true }, quiet) ∧
    processx_c_connection_read_line (sample_env 0) 5
        { sample_connection [] true with is_eof_ := true } quiet { linep := none, linecapp := 0 }
      = .ok (-1, { linep := none, linecapp := 0 },
          { sample_connection [] true with is_eof_ := true }, quiet) :=
  ⟨rfl,
    (eof_flag_lags_one_call (sample_env 0) (sample_connection [] true) quiet rfl).2.2.2
      rfl rfl rfl 5 { linep := none, linecapp := 0 },
    rfl⟩

/-! ## The check before polling -/

/-- C29, as the code has it: the decoded buffer holds "a" and the source has
"\nb" ready and nothing after it.  `processx__connection_read_until_newline`
reads the two bytes, so the decoded buffer it leaves is "a\nb", and returns -1:
the loop goes on scanning up to the `end` it computed before the read. -/
theorem read_until_newline_misses_a_newline_it_read :
    processx__connection_read_until_newline (sample_env 0) 3 (sample_connection [97] false)
        { script := [.data [10, 98]], rest := .fail EAGAIN }
      = .ok (sample_connection [97, 10, 98] false, quiet, -1) ∧
    (10 : Nat) ∈ (sample_connection [97, 10, 98] false).utf8 ∧
    processx__find_newline (sample_connection [97, 10, 98] false) 0 = 1 :=
  ⟨rfl, by decide, rfl⟩

/-- C30, as the code has it: on the decoded buffer "\nb" the line is empty,
`newline` is 0, and `processx_c_connection_read_line` tests `utf8[newline - 1]`,
the byte in front of the buffer.  When that byte is `'\r'` the length becomes
-1 and the copy of -1 bytes is an invalid access; when it is 0 the call
returns the empty line. -/
theorem read_line_empty_line_reads_before_the_buffer :
    utf8_at (sample_env 13) (sample_connection [10, 98] false) (0 - 1) = 13 ∧
    processx_c_connection_read_line (sample_env 13) 1 (sample_connection [10, 98] false) quiet
        ⟨none, 0⟩
      = .error .bad_memory_access ∧
    processx_c_connection_read_line (sample_env 0) 1 (sample_connection [10, 98] false) quiet
        ⟨none, 0⟩
      = .ok (0, ⟨some [0], 1⟩, sample_connection [98] false, quiet) :=
  ⟨rfl, rfl, rfl⟩

/-! ## Quoting command line arguments (Windows) -/

/-- The loop adds to what was written before. -/
theorem quote_loop_written : ∀ (r : List Nat) (qh : Bool) (w : List Nat),
    Win.quote_loop r qh w = w ++ Win.quote_loop r qh [] := by
  intro r
  induction r with
  | nil => intro qh w; simp [Win.quote_loop]
  | cons c r ih =>
    intro qh w
    rw [Win.quote_loop, Win.quote_loop]
    simp only [List.nil_append]
    split_ifs
    · rw [ih qh ((w ++ [c]) ++ [92]), ih qh ([c] ++ [92])]; simp
    · rw [ih true ((w ++ [c]) ++ [92]), ih true ([c] ++ [92])]; simp
    · rw [ih false (w ++ [c]), ih false [c]]; simp

/-- The loop over two stretches of characters. -/
theorem quote_loop_append : ∀ (r r2 : List Nat) (qh : Bool) (w : List Nat),
    Win.quote_loop (r ++ r2) qh w
      = Win.quote_loop r2 (Win.quote_hit_after r qh) (Win.quote_loop r qh w) := by
  intro r
  induction r with
  | nil => intro r2 qh w; simp [Win.quote_loop, Win.quote_hit_after]
  | cons c r ih =>
    intro r2 qh w
    rw [List.cons_append, Win.quote_loop, Win.quote_loop, Win.quote_hit_after]
    split_ifs
    · exact ih r2 qh _
    · exact ih r2 true _
    · exact ih r2 false _

/-- The flag over two stretches of characters. -/
theorem quote_hit_after_append : ∀ (r r2 : List Nat) (qh : Bool),
    Win.quote_hit_after (r ++ r2) qh = Win.quote_hit_after r2 (Win.quote_hit_after r qh) := by
  intro r
  induction r with
  | nil => intro r2 qh; simp [Win.quote_hit_after]
  | cons c r ih =>
    intro r2 qh
    rw [List.cons_append, Win.quote_hit_after, Win.quote_hit_after]
    split_ifs
    · exact ih r2 qh
    · exact ih r2 true
    · exact ih r2 false

/-- After the loop has run over the end of the argument, `quote_hit` tells
whether a backslash in front of that end is to be doubled. -/
theorem quote_hit_after_reverse : ∀ s : List Nat,
    Win.quote_hit_after s.reverse true = Win.before_quote s := by
  intro s
  induction s with
  | nil => rfl
  | cons c s ih =>
    rw [List.reverse_cons, quote_hit_after_append, ih, Win.before_quote]
    simp only [Win.quote_hit_after]
    by_cases h92 : c = 92
    · subst h92
      cases Win.before_quote s <;> simp
    · by_cases h34 : c = 34
      · subst h34
        simp
      · simp [h92, h34]

/-- The loop, read backwards, is the documented escaping. -/
theorem quote_loop_reverse : ∀ s : List Nat,
    (Win.quote_loop s.reverse true []).reverse = Win.escape_documented s := by
  intro s
  induction s with
  | nil => rfl
  | cons c s ih =>
    rw [List.reverse_cons, quote_loop_append, quote_hit_after_reverse, Win.escape_documented]
    simp only [Win.quote_loop]
    by_cases h34 : c = 34
    · subst h34
      simp [ih]
    · by_cases h92 : c = 92 ∧ Win.before_quote s = true
      · obtain ⟨rfl, hq⟩ := h92
        simp [hq, ih]
      · have h1 : ¬ (Win.before_quote s = true ∧ c = 92) := fun h => h92 ⟨h.2, h.1⟩
        simp [h34, h92, h1, ih]

/-- Without double quotes and backslashes nothing is escaped. -/
theorem escape_documented_plain : ∀ s : List Nat,
    s.all (fun c => c ≠ 34 ∧ c ≠ 92) = true → Win.escape_documented s = s := by
  intro s
  induction s with
  | nil => intro _; rfl
  | cons c s ih =>
    intro h
    simp only [List.all_cons, Bool.and_eq_true, decide_eq_true_eq] at h
    rw [Win.escape_documented, if_neg h.1.1, if_neg (fun h2 => h.1.2 h2.1), ih h.2]

/-- The escaping at most doubles the length. -/
theorem escape_documented_length : ∀ s : List Nat,
    (Win.escape_documented s).length ≤ 2 * s.length := by
  intro s
  induction s with
  | nil => simp [Win.escape_documented]
  | cons c s ih =>
    rw [Win.escape_documented]
    split_ifs <;> simp only [List.length_cons] <;> omega

/-- The function `processx__quote_cmd_arg` writes the documented output. -/
theorem quote_cmd_arg_eq (source : List Nat) :
    Win.processx__quote_cmd_arg source = Win.quote_documented source := by
  unfold Win.processx__quote_cmd_arg Win.quote_documented
  by_cases h0 : source = []
  · subst h0; rfl
  · have hl : ¬ source.length = 0 := fun h => h0 (List.eq_nil_of_length_eq_zero h)
    rw [if_neg hl, if_neg h0]
    split_ifs with h1 h2
    · rfl
    · rw [escape_documented_plain source h2]
    · rw [quote_loop_reverse]

/-- The function `processx__quote_cmd_arg` writes at most `2 * len + 2`
characters. -/
theorem quote_cmd_arg_length (source : List Nat) :
    (Win.processx__quote_cmd_arg source).length ≤ 2 * source.length + 2 := by
  rw [quote_cmd_arg_eq]
  unfold Win.quote_documented
  have := escape_documented_length source
  split_ifs with h0 h1
  · subst h0; simp
  · omega
  · simp only [List.length_append, List.length_cons, List.length_nil]; omega

/-- The characters `processx__make_program_args` writes fit the buffer it
allocates. -/
theorem make_program_args_length (verbatim : Bool) : ∀ args : List (List Nat),
    (Win.processx__make_program_args verbatim args).length ≤ Win.dst_len args := by
  have hone : ∀ arg : List Nat,
      (if verbatim = true then arg else Win.processx__quote_cmd_arg arg).length
        ≤ 2 * arg.length + 2 := by
    intro arg
    split_ifs
    · omega
    · exact quote_cmd_arg_length arg
  intro args
  induction args with
  | nil => simp [Win.processx__make_program_args, Win.dst_len]
  | cons arg rest ih =>
    cases rest with
    | nil =>
      have := hone arg
      simp only [Win.processx__make_program_args, Win.dst_len, List.length_append,
        List.length_cons, List.length_nil, List.map_cons, List.map_nil, List.sum_cons,
        List.sum_nil]
      omega
    | cons arg2 rest2 =>
      have := hone arg
      rw [Win.processx__make_program_args]
      · simp only [Win.dst_len, List.length_append, List.length_cons, List.length_nil,
          List.map_cons, List.sum_cons] at ih ⊢
        omega
      · intro h
        cases h

/-- C28: `processx__quote_cmd_arg` writes the documented output for every
argument: `""` for the empty argument, the argument itself when it has no
space, tab or double quote, and otherwise the argument between double quotes,
with a backslash in front of every double quote and with every backslash
doubled that has only backslashes between it and a double quote or the end.
It writes at most `2 * len + 2` characters, and what
`processx__make_program_args` writes fits the `dst_len` characters it
allocates.  The examples of the comment follow, 34 being the double quote and
92 the backslash. -/
theorem quote_cmd_arg_as_documented (source : List Nat) :
    Win.processx__quote_cmd_arg source = Win.quote_documented source ∧
    (Win.processx__quote_cmd_arg source).length ≤ 2 * source.length + 2 ∧
    (∀ (verbatim : Bool) (args : List (List Nat)),
      (Win.processx__make_program_args verbatim args).length ≤ Win.dst_len args) ∧
    Win.processx__quote_cmd_arg [] = [34, 34] ∧
    Win.processx__quote_cmd_arg (Win.wide "hello" ++ [92] ++ Win.wide "world")
      = Win.wide "hello" ++ [92] ++ Win.wide "world" ∧
    Win.processx__quote_cmd_arg (Win.wide "hello" ++ [92, 92] ++ Win.wide "world")
      = Win.wide "hello" ++ [92, 92] ++ Win.wide "world" ∧
    Win.processx__quote_cmd_arg (Win.wide "hello" ++ [34] ++ Win.wide "world")
      = [34] ++ Win.wide "hello" ++ [92, 34] ++ Win.wide "world" ++ [34] ∧
    Win.processx__quote_cmd_arg (Win.wide "hello" ++ [34, 34] ++ Win.wide "world")
      = [34] ++ Win.wide "hello" ++ [92, 34, 92, 34] ++ Win.wide "world" ++ [34] ∧
    Win.processx__quote_cmd_arg (Win.wide "hello" ++ [92, 34] ++ Win.wide "world")
      = [34] ++ Win.wide "hello" ++ [92, 92, 92, 34] ++ Win.wide "world" ++ [34] ∧
    Win.processx__quote_cmd_arg (Win.wide "hello" ++ [92, 92, 34] ++ Win.wide "world")
      = [34] ++ Win.wide "hello" ++ [92, 92, 92, 92, 92, 34] ++ Win.wide "world" ++ [34] ∧
    Win.processx__quote_cmd_arg (Win.wide "hello world" ++ [92])
      = [34] ++ Win.wide "hello world" ++ [92, 92] ++ [34] :=
  ⟨quote_cmd_arg_eq source, quote_cmd_arg_length source,
    fun verbatim args => make_program_args_length verbatim args,
    by decide, by decide, by decide, by decide, by decide, by decide, by decide, by decide⟩

/-! ## Waiting in slices -/

/-- One `poll(2)` call adds itself to the trace, takes the first result of the
script, and leaves the rest. -/
theorem poller_poll (p : Poller) (fds : List Int) (t : Int) :
    (p.poll fds t).1 = p.script.headD p.rest ∧
    (p.poll fds t).2 = { p with script := p.script.tail, trace := p.trace ++ [.wait fds t] } := by
  rcases p with ⟨_ | ⟨a, s⟩, r, tr⟩ <;> exact ⟨rfl, rfl⟩

/-- The retry loop, when the call is not interrupted: one call. -/
theorem poll_retry_once (fuel : Nat) (p : Poller) (fds : List Int) (t : Int)
    (h : ¬ ((p.script.headD p.rest).ret = -1 ∧ (p.script.headD p.rest).errno = EINTR)) :
    poll_retry (fuel + 1) p fds t
      = (some (p.script.headD p.rest),
          { p with script := p.script.tail, trace := p.trace ++ [.wait fds t] }) := by
  rw [poll_retry]
  simp only [(poller_poll p fds t).1, (poller_poll p fds t).2]
  rw [if_neg h]

/-- The retry loop makes `poll(2)` calls with the given timeout only. -/
theorem poll_retry_trace : ∀ (fuel : Nat) (p : Poller) (fds : List Int) (t : Int),
    ∃ new, (poll_retry fuel p fds t).2.trace = p.trace ++ new ∧
      ∀ a ∈ new, a = PollAction.wait fds t := by
  intro fuel
  induction fuel with
  | zero => intro p fds t; exact ⟨[], by simp [poll_retry], by simp⟩
  | succ fuel ih =>
    intro p fds t
    rw [poll_retry]
    split_ifs
    · obtain ⟨new, h1, h2⟩ := ih (p.poll fds t).2 fds t
      refine ⟨PollAction.wait fds t :: new, ?_, ?_⟩
      · rw [h1, (poller_poll p fds t).2]; simp
      · intro a ha
        rcases List.mem_cons.mp ha with rfl | ha
        · rfl
        · exact h2 a ha
    · exact ⟨[PollAction.wait fds t], by rw [(poller_poll p fds t).2], by simp⟩

/-- Every `poll(2)` call of the waiting loop is on the given descriptors, with
a timeout between 0 and the interval. -/
theorem interruptible_loop_trace (I : Int) (hI : 0 < I) :
    ∀ (fuel : Nat) (p : Poller) (fds : List Int) (timeout timeleft : Int) (rev : List Nat),
      ∃ new, (interruptible_loop I fuel p fds timeout timeleft rev).2.trace = p.trace ++ new ∧
        ∀ a ∈ new, a = PollAction.check ∨ ∃ t, a = PollAction.wait fds t ∧ 0 ≤ t ∧ t ≤ I := by
  intro fuel
  induction fuel with
  | zero => intro p fds timeout timeleft rev; exact ⟨[], by simp [interruptible_loop], by simp⟩
  | succ fuel ih =>
    intro p fds timeout timeleft rev
    rw [interruptible_loop]
    by_cases hc : timeout < 0 ∨ timeleft > I
    · rw [if_pos hc]
      obtain ⟨new1, h1, h2⟩ := poll_retry_trace (fuel + 1) p fds I
      have hw : ∀ a ∈ new1, a = PollAction.check ∨
          ∃ t, a = PollAction.wait fds t ∧ 0 ≤ t ∧ t ≤ I :=
        fun a ha => Or.inr ⟨I, h2 a ha, le_of_lt hI, le_refl I⟩
      rcases hr : poll_retry (fuel + 1) p fds I with ⟨o, p1⟩
      rw [hr] at h1
      simp only at h1
      cases o with
      | none => exact ⟨new1, h1, hw⟩
      | some r =>
        simp only
        by_cases h0 : r.ret ≠ 0
        · rw [if_pos h0]
          exact ⟨new1, h1, hw⟩
        · rw [if_neg h0]
          obtain ⟨new2, h3, h4⟩ := ih p1.R_CheckUserInterrupt fds timeout (timeleft - I) r.revents
          refine ⟨new1 ++ [PollAction.check] ++ new2, ?_, ?_⟩
          · rw [h3]
            simp only [Poller.R_CheckUserInterrupt, h1, List.append_assoc]
          · intro a ha
            simp only [List.mem_append, List.mem_singleton] at ha
            rcases ha with (ha | ha) | ha
            · exact hw a ha
            · exact Or.inl ha
            · exact h4 a ha
    · rw [if_neg hc]
      by_cases h2 : timeleft ≥ 0
      · rw [if_pos h2]
        obtain ⟨new1, h1, h3⟩ := poll_retry_trace (fuel + 1) p fds timeleft
        have hw : ∀ a ∈ new1, a = PollAction.check ∨
            ∃ t, a = PollAction.wait fds t ∧ 0 ≤ t ∧ t ≤ I :=
          fun a ha => Or.inr ⟨timeleft, h3 a ha, h2, by omega⟩
        rcases hr : poll_retry (fuel + 1) p fds timeleft with ⟨o, p1⟩
        rw [hr] at h1
        simp only at h1
        cases o with
        | none => exact ⟨new1, h1, hw⟩
        | some r => exact ⟨new1, h1, hw⟩
      · rw [if_neg h2]
        exact ⟨[], by simp, by simp⟩

/-- One iteration of the waiting loop whose wait times out. -/
theorem loop_step_timeout (I : Int) (fuel : Nat) (p : Poller) (fds : List Int)
    (timeout tl : Int) (rev : List Nat) (hc : timeout < 0 ∨ tl > I)
    (h0 : (p.script.headD p.rest).ret = 0) :
    interruptible_loop I (fuel + 1) p fds timeout tl rev
      = interruptible_loop I fuel
          { p with script := p.script.tail,
                   trace := p.trace ++ [PollAction.wait fds I, PollAction.check] }
          fds timeout (tl - I) (p.script.headD p.rest).revents := by
  rw [interruptible_loop, if_pos hc, poll_retry_once fuel p fds I (by rw [h0]; simp)]
  simp only [h0, ne_eq, not_true_eq_false, if_false, Poller.R_CheckUserInterrupt,
    List.append_assoc, List.singleton_append]

/-- The wait after the loop. -/
theorem loop_step_last (I : Int) (fuel : Nat) (p : Poller) (fds : List Int)
    (timeout tl : Int) (rev : List Nat) (hc : ¬ (timeout < 0 ∨ tl > I)) (h0 : 0 ≤ tl)
    (hr : ¬ ((p.script.headD p.rest).ret = -1 ∧ (p.script.headD p.rest).errno = EINTR)) :
    interruptible_loop I (fuel + 1) p fds timeout tl rev
      = (.ok ((p.script.headD p.rest).ret, (p.script.headD p.rest).revents),
          { p with script := p.script.tail, trace := p.trace ++ [PollAction.wait fds tl] }) := by
  rw [interruptible_loop, if_neg hc, if_pos h0, poll_retry_once fuel p fds tl hr]

/-- A wait in the loop that does not time out ends the call. -/
theorem loop_step_result (I : Int) (fuel : Nat) (p : Poller) (fds : List Int)
    (timeout tl : Int) (rev : List Nat) (hc : timeout < 0 ∨ tl > I)
    (h0 : (p.script.headD p.rest).ret ≠ 0)
    (hr : ¬ ((p.script.headD p.rest).ret = -1 ∧ (p.script.headD p.rest).errno = EINTR)) :
    interruptible_loop I (fuel + 1) p fds timeout tl rev
      = (.ok ((p.script.headD p.rest).ret, (p.script.headD p.rest).revents),
          { p with script := p.script.tail, trace := p.trace ++ [PollAction.wait fds I] }) := by
  rw [interruptible_loop, if_pos hc, poll_retry_once fuel p fds I hr]
  simp only [h0, ne_eq, not_false_eq_true, if_true]

theorem full_slices_succ (fds : List Int) (I : Int) (k : Nat) :
    full_slices fds I (k + 1)
      = [PollAction.wait fds I, PollAction.check] ++ full_slices fds I k := by
  simp [full_slices, List.replicate_succ]

/-- The waits when every wait times out: full slices while more than the
interval is left, then one wait for what is left. -/
theorem idle_slices (I : Int) (hI : 0 < I) :
    ∀ (k fuel : Nat) (p : Poller) (fds : List Int) (timeout tl : Int) (rev : List Nat),
      p.times_out → 0 ≤ timeout → (k : Int) * I ≤ tl → tl ≤ ((k : Int) + 1) * I →
      (1 ≤ k → (k : Int) * I < tl) → k < fuel →
      ∃ rev', interruptible_loop I fuel p fds timeout tl rev
        = (.ok (0, rev'),
            { p with script := p.script.drop (k + 1),
                     trace := p.trace ++ full_slices fds I k
                       ++ [PollAction.wait fds (tl - (k : Int) * I)] }) := by
  intro k
  induction k with
  | zero =>
    intro fuel p fds timeout tl rev hq ht h1 h2 _ hf
    obtain ⟨f, rfl⟩ : ∃ f, fuel = f + 1 := ⟨fuel - 1, by omega⟩
    have hhead : (p.script.headD p.rest).ret = 0 := by
      cases hs : p.script with
      | nil => exact hq.2
      | cons r tl => exact hq.1 r (by rw [hs]; simp)
    simp only [Nat.cast_zero, zero_mul, zero_add, one_mul, sub_zero] at h1 h2 ⊢
    rw [loop_step_last I f p fds timeout tl rev (by omega) h1 (by rw [hhead]; simp), hhead]
    refine ⟨(p.script.headD p.rest).revents, ?_⟩
    simp [full_slices]
  | succ k ih =>
    intro fuel p fds timeout tl rev hq ht h1 h2 h3 hf
    obtain ⟨f, rfl⟩ : ∃ f, fuel = f + 1 := ⟨fuel - 1, by omega⟩
    have hhead : (p.script.headD p.rest).ret = 0 := by
      cases hs : p.script with
      | nil => exact hq.2
      | cons r tl => exact hq.1 r (by rw [hs]; simp)
    have hk : ((k + 1 : Nat) : Int) * I = (k : Int) * I + I := by push_cast; ring
    have hk2 : (((k + 1 : Nat) : Int) + 1) * I = (k : Int) * I + I + I := by push_cast; ring
    have hk3 : ((k : Int) + 1) * I = (k : Int) * I + I := by ring
    have hnn : 0 ≤ (k : Int) * I := mul_nonneg (Int.ofNat_nonneg k) (le_of_lt hI)
    have h3' := h3 (by omega)
    rw [hk] at h1 h3'
    rw [hk2] at h2
    rw [loop_step_timeout I f p fds timeout tl rev (Or.inr (by omega)) hhead]
    have hq' : Poller.times_out
        (Poller.mk p.script.tail p.rest
          (p.trace ++ [PollAction.wait fds I, PollAction.check])) :=
      ⟨fun r hr => hq.1 r (List.mem_of_mem_tail hr), hq.2⟩
    obtain ⟨rev', h⟩ := ih f _ fds timeout (tl - I) (p.script.headD p.rest).revents hq' ht
      (by omega) (by rw [hk3]; omega) (fun _ => by omega) (by omega)
    refine ⟨rev', ?_⟩
    rw [h, full_slices_succ, hk]
    simp only [List.append_assoc, List.drop_tail]
    congr 3
    ring_nf

/-- After waits that time out, the first wait that returns something else, and
is not an interrupted call, ends the waiting with that result. -/
theorem first_result_ends (I : Int) (hI : 0 < I) :
    ∀ (zs : List OSPoll) (fuel : Nat) (p : Poller) (fds : List Int) (timeout tl : Int)
      (rev : List Nat) (r : OSPoll) (tail : List OSPoll),
      p.script = zs ++ r :: tail → (∀ z ∈ zs, z.ret = 0) → r.ret ≠ 0 →
      ¬ (r.ret = -1 ∧ r.errno = EINTR) →
      (timeout < 0 ∨ (0 ≤ tl ∧ (zs.length : Int) * I ≤ tl ∧
        (zs ≠ [] → (zs.length : Int) * I < tl))) →
      zs.length < fuel →
      interruptible_loop I fuel p fds timeout tl rev
        = (.ok (r.ret, r.revents),
            { p with script := tail,
                     trace := p.trace ++ full_slices fds I zs.length
                       ++ [PollAction.wait fds
                            (if timeout < 0 ∨ tl - (zs.length : Int) * I > I then I
                             else tl - (zs.length : Int) * I)] }) := by
  intro zs
  induction zs with
  | nil =>
    intro fuel p fds timeout tl rev r tail hs _ hr0 hr hc hf
    obtain ⟨f, rfl⟩ : ∃ f, fuel = f + 1 := ⟨fuel - 1, by omega⟩
    have hhead : p.script.headD p.rest = r := by rw [hs]; rfl
    have htail : p.script.tail = tail := by rw [hs]; rfl
    simp only [List.length_nil, Nat.cast_zero, zero_mul, sub_zero, full_slices,
      List.replicate_zero, List.flatten_nil, List.append_nil]
    by_cases hcond : timeout < 0 ∨ tl > I
    · rw [loop_step_result I f p fds timeout tl rev hcond (by rw [hhead]; exact hr0)
        (by rw [hhead]; exact hr), hhead, htail, if_pos hcond]
    · have h0 : 0 ≤ tl := by
        rcases hc with hc | hc
        · exact absurd (Or.inl hc) hcond
        · exact hc.1
      rw [loop_step_last I f p fds timeout tl rev hcond h0 (by rw [hhead]; exact hr), hhead,
        htail, if_neg hcond]
  | cons z zs ih =>
    intro fuel p fds timeout tl rev r tail hs hz hr0 hr hc hf
    simp only [List.length_cons] at hf hc ⊢
    obtain ⟨f, rfl⟩ : ∃ f, fuel = f + 1 := ⟨fuel - 1, by omega⟩
    have hhead : p.script.headD p.rest = z := by rw [hs]; rfl
    have htail : p.script.tail = zs ++ r :: tail := by rw [hs]; rfl
    have hk : ((zs.length + 1 : Nat) : Int) * I = (zs.length : Int) * I + I := by
      push_cast; ring
    have hnn : 0 ≤ (zs.length : Int) * I := mul_nonneg (Int.ofNat_nonneg _) (le_of_lt hI)
    rw [hk] at hc ⊢
    have hcond : timeout < 0 ∨ tl > I := by
      rcases hc with hc | ⟨_, _, hc⟩
      · exact Or.inl hc
      · have := hc (by simp)
        exact Or.inr (by omega)
    rw [loop_step_timeout I f p fds timeout tl rev hcond
      (by rw [hhead]; exact hz z (by simp))]
    rw [ih f (Poller.mk p.script.tail p.rest
        (p.trace ++ [PollAction.wait fds I, PollAction.check])) fds timeout (tl - I)
      (p.script.headD p.rest).revents r tail htail (fun y hy => hz y (by simp [hy])) hr0 hr
      (by
        rcases hc with hc | ⟨h1, h2, h3⟩
        · exact Or.inl hc
        · have := h3 (by simp)
          exact Or.inr ⟨by omega, by omega, fun _ => by omega⟩)
      (by omega)]
    rw [full_slices_succ]
    have e : tl - I - (zs.length : Int) * I = tl - ((zs.length : Int) * I + I) := by ring
    simp only [List.append_assoc, e]

theorem wait_timeouts_append (a b : List PollAction) :
    wait_timeouts (a ++ b) = wait_timeouts a ++ wait_timeouts b := by
  induction a with
  | nil => rfl
  | cons x a ih =>
    cases x with
    | wait fds t => simp [wait_timeouts, ih]
    | check => simp [wait_timeouts, ih]

theorem wait_timeouts_full_slices (fds : List Int) (I : Int) (k : Nat) :
    wait_timeouts (full_slices fds I k) = List.replicate k I := by
  induction k with
  | zero => rfl
  | succ k ih =>
    rw [full_slices_succ, wait_timeouts_append, ih, List.replicate_succ]
    rfl

/-- The number of slices written with a rounded-up quotient. -/
theorem slices_count (T I : Nat) (hI : 0 < I) :
    (T - 1) / I + 1 = max 1 ((T + I - 1) / I) := by
  rcases Nat.eq_zero_or_pos T with h | h
  · subst h
    have : (0 + I - 1) / I = 0 := Nat.div_eq_of_lt (by omega)
    rw [this]
    simp
  · have e : T + I - 1 = (T - 1) + I := by omega
    rw [e, Nat.add_div_right _ hI]
    generalize (T - 1) / I = q
    omega

/-- C27, as the code has it, with an interval of 200 ms.  A timeout of 200 ms
gives one wait of 200 ms, a full slice that times out, with no call of
`R_CheckUserInterrupt` after it.  A first wait that returns -1 with `errno =
EINTR` does not end the call: the wait is made again and the call returns the
result of the second wait. -/
theorem interruptible_poll_last_slice_and_interrupted_wait :
    processx__interruptible_poll 200 3 idle [3] [0] 200
      = (.ok (0, []), { idle with trace := [PollAction.wait [3] 200] }) ∧
    processx__interruptible_poll 200 3
        { script := [{ ret := -1, errno := EINTR, revents := [0] },
                     { ret := 1, errno := 0, revents := [1] }],
          rest := { ret := 0, errno := 0, revents := [] }, trace := [] } [3] [0] 1000
      = (.ok (1, [1]),
          { script := [], rest := { ret := 0, errno := 0, revents := [] },
            trace := [PollAction.wait [3] 200, PollAction.wait [3] 200] }) :=
  ⟨rfl, rfl⟩

/-- C27, amended: `processx__interruptible_poll` with a positive interval `I`.
Every `poll(2)` call it makes is on the given descriptors with a timeout between
0 and `I`, whatever the timeout of the call and whatever the calls return.
With a timeout `T ≥ 0` and every wait timing out it makes `(T - 1) / I` waits
of `I`, each followed by `R_CheckUserInterrupt`, and then one wait for what is
left, which no check follows; these are `max 1 ⌈T / I⌉` waits, their timeouts
add up to `T`, and the call returns 0.  After waits that time out, the first
wait that returns something else and is not an interrupted call (-1 with
`EINTR`) ends the call with that result; an interrupted wait is made again
with the same timeout. -/
theorem interruptible_poll_waits_in_slices (I : Nat) (hI : 0 < I) (p : Poller) (fds : List Int)
    (rev : List Nat) :
    (∀ (fuel : Nat) (timeout : Int),
      ∃ new, (processx__interruptible_poll I fuel p fds rev timeout).2.trace = p.trace ++ new ∧
        ∀ a ∈ new, a = PollAction.check ∨
          ∃ t, a = PollAction.wait fds t ∧ 0 ≤ t ∧ t ≤ (I : Int)) ∧
    (∀ T fuel : Nat, p.times_out → (T - 1) / I < fuel →
      (∃ rev', processx__interruptible_poll I fuel p fds rev T
        = (.ok (0, rev'),
            { p with script := p.script.drop ((T - 1) / I + 1),
                     trace := p.trace ++ full_slices fds I ((T - 1) / I)
                       ++ [PollAction.wait fds ((T : Int) - ((T - 1) / I : Nat) * (I : Int))] })) ∧
      (wait_timeouts (full_slices fds I ((T - 1) / I)
          ++ [PollAction.wait fds ((T : Int) - ((T - 1) / I : Nat) * (I : Int))])).length
        = max 1 ((T + I - 1) / I) ∧
      (wait_timeouts (full_slices fds I ((T - 1) / I)
          ++ [PollAction.wait fds ((T : Int) - ((T - 1) / I : Nat) * (I : Int))])).sum
        = (T : Int)) ∧
    (∀ (zs : List OSPoll) (r : OSPoll) (tail : List OSPoll) (fuel : Nat) (timeout : Int),
      p.script = zs ++ r :: tail → (∀ z ∈ zs, z.ret = 0) → r.ret ≠ 0 →
      ¬ (r.ret = -1 ∧ r.errno = EINTR) →
      (timeout < 0 ∨ (0 ≤ timeout ∧ (zs.length : Int) * I ≤ timeout ∧
        (zs ≠ [] → (zs.length : Int) * I < timeout))) →
      zs.length < fuel →
      processx__interruptible_poll I fuel p fds rev timeout
        = (.ok (r.ret, r.revents),
            { p with script := tail,
                     trace := p.trace ++ full_slices fds I zs.length
                       ++ [PollAction.wait fds
                            (if timeout < 0 ∨ timeout - (zs.length : Int) * I > I then (I : Int)
                             else timeout - (zs.length : Int) * I)] })) ∧
    (∀ (fuel : Nat) (t : Int),
      (p.script.headD p.rest).ret = -1 → (p.script.headD p.rest).errno = EINTR →
      poll_retry (fuel + 1) p fds t
        = poll_retry fuel
            { p with script := p.script.tail, trace := p.trace ++ [PollAction.wait fds t] }
            fds t) := by
  have hIz : (0 : Int) < (I : Int) := by exact_mod_cast hI
  refine ⟨?_, ?_, ?_, ?_⟩
  · intro fuel timeout
    exact interruptible_loop_trace I hIz fuel p fds timeout timeout rev
  · intro T fuel hq hf
    have hd1 : (T - 1) / I * I ≤ T - 1 := Nat.div_mul_le_self _ _
    have hd2 : T - 1 < I * ((T - 1) / I + 1) := Nat.lt_mul_div_succ _ hI
    rw [Nat.mul_add, Nat.mul_one, Nat.mul_comm] at hd2
    generalize hk : (T - 1) / I = k at hd1 hd2 hf ⊢
    have hcast : ((k * I : Nat) : Int) = (k : Int) * (I : Int) := by push_cast; rfl
    generalize hm : k * I = m at hd1 hd2 hcast
    have c1 : (k : Int) * (I : Int) ≤ (T : Int) := by rw [← hcast]; exact_mod_cast (by omega : m ≤ T)
    have c2 : (T : Int) ≤ ((k : Int) + 1) * (I : Int) := by
      have : ((k : Int) + 1) * (I : Int) = ((m + I : Nat) : Int) := by
        push_cast; rw [hcast]; ring
      rw [this]
      exact_mod_cast (by omega : T ≤ m + I)
    have c3 : 1 ≤ k → (k : Int) * (I : Int) < (T : Int) := by
      intro h1
      rw [← hcast]
      have hmI : I ≤ m := by
        rw [← hm]
        exact Nat.le_mul_of_pos_left I (by omega)
      exact_mod_cast (by omega : m < T)
    refine ⟨?_, ?_, ?_⟩
    · exact idle_slices I hIz k fuel p fds T T rev hq (Int.ofNat_nonneg T) c1 c2 c3 hf
    · rw [wait_timeouts_append, wait_timeouts_full_slices, ← slices_count T I hI, hk]
      simp [wait_timeouts]
    · rw [wait_timeouts_append, wait_timeouts_full_slices]
      simp [wait_timeouts]
  · intro zs r tail fuel timeout hs hz hr0 hr hc hf
    exact first_result_ends I hIz zs fuel p fds timeout timeout rev r tail hs hz hr0 hr hc hf
  · intro fuel t h1 h2
    rw [poll_retry]
    simp only [(poller_poll p fds t).1, (poller_poll p fds t).2]
    rw [if_pos ⟨h1, h2⟩]

/-- C27 (amended) at a concrete input: a timeout of 500 ms with an interval of
200 ms and waits that all time out. -/
theorem interruptible_poll_waits_in_slices_witness :
    idle.times_out ∧
    processx__interruptible_poll 200 3 idle [3] [0] 500
      = (.ok (0, []),
          { idle with trace := [PollAction.wait [3] 200, PollAction.check,
              PollAction.wait [3] 200, PollAction.check, PollAction.wait [3] 100] }) ∧
    (wait_timeouts [PollAction.wait [3] 200, PollAction.check,
        PollAction.wait [3] 200, PollAction.check, PollAction.wait [3] 100]).length
      = max 1 ((500 + 200 - 1) / 200) :=
  ⟨⟨by simp [idle], rfl⟩, rfl,
    ((interruptible_poll_waits_in_slices 200 (by decide) idle [3] [0]).2.1 500 3
      ⟨by simp [idle], rfl⟩ (by decide)).2.1⟩

/-! ## Polling a set of pollables (unix) -/

theorem silent_indices_shift {α : Type} : ∀ (ps : List (Pollable α)) (i : Nat),
    silent_indices ps (i + 1) = (silent_indices ps i).map (fun j => j + 1) := by
  intro ps
  induction ps with
  | nil => intro i; rfl
  | cons el rest ih =>
    intro i
    simp only [silent_indices]
    split_ifs
    · rw [ih (i + 1)]; rfl
    · exact ih (i + 1)

/-- What the first loop of `processx_c_connection_poll` gives when it does not
fail: every pollable has the event and the object its `poll_func` gave, the
events are those the loop accepts, `hasdata` counts the ready ones and `ptr`
lists the silent ones. -/
theorem poll_precheck_spec {α : Type} : ∀ (ps0 : List (Pollable α)) (i : Nat)
    (ps : List (Pollable α)) (M : Nat) (pend : List (Nat × Int)),
    poll_precheck ps0 i = .ok (ps, M, pend) →
    ps = ps0.map (fun el => { el with object := (el.poll_func el.object).2.1,
                                      event := (el.poll_func el.object).1 }) ∧
    pend.map Prod.fst = silent_indices ps i ∧
    M = ready_count ps ∧
    (∀ el ∈ ps, el.event = .PXNOPIPE ∨ el.event = .PXCLOSED ∨ el.event = .PXREADY ∨
      el.event = .PXSILENT) := by
  intro ps0
  induction ps0 with
  | nil =>
    intro i ps M pend h
    simp only [poll_precheck, Except.ok.injEq, Prod.mk.injEq] at h
    obtain ⟨rfl, rfl, rfl⟩ := h
    exact ⟨rfl, rfl, rfl, by simp⟩
  | cons el rest ih =>
    intro i ps M pend h
    rw [poll_precheck] at h
    cases hq : poll_precheck rest (i + 1) with
    | error f =>
      rw [hq] at h
      split_ifs at h
    | ok q =>
      obtain ⟨qs, qm, qp⟩ := q
      obtain ⟨i1, i2, i3, i4⟩ := ih (i + 1) qs qm qp hq
      rw [hq] at h
      simp only at h
      by_cases h1 : (el.poll_func el.object).1 = .PXNOPIPE ∨ (el.poll_func el.object).1 = .PXCLOSED
      · rw [if_pos h1] at h
        simp only [Except.ok.injEq, Prod.mk.injEq] at h
        obtain ⟨rfl, rfl, rfl⟩ := h
        have hns : ¬ (el.poll_func el.object).1 = .PXSILENT := by
          rcases h1 with h1 | h1 <;> rw [h1] <;> decide
        have hnr : ¬ (el.poll_func el.object).1 = .PXREADY := by
          rcases h1 with h1 | h1 <;> rw [h1] <;> decide
        refine ⟨by rw [i1]; rfl, ?_, ?_, ?_⟩
        · simp only [silent_indices, hns, if_false]; exact i2
        · simp only [ready_count, List.filter_cons, hnr, decide_False, Bool.false_eq_true,
            if_false]
          exact i3
        · intro x hx
          rcases List.mem_cons.mp hx with rfl | hx
          · rcases h1 with h1 | h1
            · exact Or.inl h1
            · exact Or.inr (Or.inl h1)
          · exact i4 x hx
      · rw [if_neg h1] at h
        by_cases h2 : (el.poll_func el.object).1 = .PXREADY
        · rw [if_pos h2] at h
          simp only [Except.ok.injEq, Prod.mk.injEq] at h
          obtain ⟨rfl, rfl, rfl⟩ := h
          have hns : ¬ (el.poll_func el.object).1 = .PXSILENT := by rw [h2]; decide
          refine ⟨by rw [i1]; rfl, ?_, ?_, ?_⟩
          · simp only [silent_indices, hns, if_false]; exact i2
          · simp only [ready_count, List.filter_cons, h2, decide_True, if_true,
              List.length_cons]
            rw [i3]; rfl
          · intro x hx
            rcases List.mem_cons.mp hx with rfl | hx
            · exact Or.inr (Or.inr (Or.inl h2))
            · exact i4 x hx
        · rw [if_neg h2] at h
          by_cases h3 : (el.poll_func el.object).1 = .PXSILENT ∧
              0 ≤ (el.poll_func el.object).2.2.getD (-1)
          · rw [if_pos h3] at h
            simp only [Except.ok.injEq, Prod.mk.injEq] at h
            obtain ⟨rfl, rfl, rfl⟩ := h
            refine ⟨by rw [i1]; rfl, ?_, ?_, ?_⟩
            · simp only [silent_indices, h3.1, if_true, List.map_cons]
              rw [i2]
            · simp only [ready_count, List.filter_cons, h2, decide_False, Bool.false_eq_true,
                if_false]
              exact i3
            · intro x hx
              rcases List.mem_cons.mp hx with rfl | hx
              · exact Or.inr (Or.inr (Or.inr h3.1))
              · exact i4 x hx
          · rw [if_neg h3] at h
            cases h

/-- Marking pollables other than the first leaves the first alone. -/
theorem mark_timeout_shift {α : Type} : ∀ (pend : List (Nat × Int)) (x : Pollable α)
    (ps : List (Pollable α)), (∀ e ∈ pend, 1 ≤ e.1) →
    mark_timeout (x :: ps) pend = x :: mark_timeout ps (pend.map (fun e => (e.1 - 1, e.2))) := by
  intro pend
  induction pend with
  | nil => intro x ps _; rfl
  | cons e pend ih =>
    intro x ps h
    obtain ⟨j, hj⟩ : ∃ j, e.1 = j + 1 := ⟨e.1 - 1, by have := h e (by simp); omega⟩
    simp only [mark_timeout, List.map_cons, hj, set_event, Nat.add_sub_cancel]
    exact ih x _ (fun y hy => h y (by simp [hy]))

/-- Decoding for pollables other than the first leaves the first alone. -/
theorem decode_loop_shift {α : Type} : ∀ (pend : List (Nat × Int)) (x : Pollable α)
    (ps : List (Pollable α)) (rev : List Nat) (h : Nat), (∀ e ∈ pend, 1 ≤ e.1) →
    decode_loop (x :: ps) pend rev h
      = (x :: (decode_loop ps (pend.map (fun e => (e.1 - 1, e.2))) rev h).1,
          (decode_loop ps (pend.map (fun e => (e.1 - 1, e.2))) rev h).2) := by
  intro pend
  induction pend with
  | nil => intro x ps rev h _; rfl
  | cons e pend ih =>
    intro x ps rev h hp
    obtain ⟨j, hj⟩ : ∃ j, e.1 = j + 1 := ⟨e.1 - 1, by have := hp e (by simp); omega⟩
    simp only [decode_loop, List.map_cons, hj, set_event, Nat.add_sub_cancel]
    exact ih x _ _ _ (fun y hy => hp y (by simp [hy]))

/-- Indices counted from 1, moved down by one, are those counted from 0. -/
theorem pend_shift {α : Type} (ps : List (Pollable α)) (pend : List (Nat × Int))
    (h : pend.map Prod.fst = silent_indices ps 1) :
    (∀ e ∈ pend, 1 ≤ e.1) ∧
    (pend.map (fun e => (e.1 - 1, e.2))).map Prod.fst = silent_indices ps 0 := by
  rw [silent_indices_shift] at h
  have hall : ∀ e ∈ pend, 1 ≤ e.1 := by
    intro e he
    have : e.1 ∈ pend.map Prod.fst := List.mem_map_of_mem _ he
    rw [h] at this
    obtain ⟨j, _, hj⟩ := List.mem_map.mp this
    omega
  refine ⟨hall, ?_⟩
  have : (pend.map (fun e => (e.1 - 1, e.2))).map Prod.fst
      = (pend.map Prod.fst).map (fun j => j - 1) := by
    simp [List.map_map, Function.comp]
  rw [this, h, List.map_map]
  have hid : ((fun j => j - 1) ∘ fun j => j + 1) = (id : Nat → Nat) := by
    funext j
    simp
  rw [hid, List.map_id]

/-- The timeout loop over the silent pollables marks exactly these. -/
theorem mark_timeout_spec {α : Type} : ∀ (ps : List (Pollable α)) (pend : List (Nat × Int)),
    pend.map Prod.fst = silent_indices ps 0 → mark_timeout ps pend = silent_timed_out ps := by
  intro ps
  induction ps with
  | nil =>
    intro pend h
    simp only [silent_indices, List.map_eq_nil_iff] at h
    subst h
    rfl
  | cons el rest ih =>
    intro pend h
    simp only [silent_indices] at h
    by_cases hs : el.event = .PXSILENT
    · rw [if_pos hs] at h
      cases pend with
      | nil => simp at h
      | cons e pend =>
        simp only [List.map_cons, List.cons.injEq] at h
        obtain ⟨hp1, hp2⟩ := pend_shift rest pend h.2
        simp only [mark_timeout, h.1, set_event]
        rw [mark_timeout_shift pend _ rest hp1, ih _ hp2]
        simp [silent_timed_out, hs]
    · rw [if_neg hs] at h
      obtain ⟨hp1, hp2⟩ := pend_shift rest pend h
      rw [mark_timeout_shift pend _ rest hp1, ih _ hp2]
      simp [silent_timed_out, hs]

theorem ready_count_cons {α : Type} (el : Pollable α) (rest : List (Pollable α)) :
    ready_count (el :: rest)
      = (if el.event = .PXREADY then 1 else 0) + ready_count rest := by
  unfold ready_count
  rw [List.filter_cons]
  by_cases h : el.event = .PXREADY
  · simp [h]; omega
  · simp [h]

/-- The decoding loop over the silent pollables gives each of them the
decoding of its `revents`, and adds the ready ones to `hasdata`. -/
theorem decode_loop_spec {α : Type} : ∀ (ps : List (Pollable α)) (pend : List (Nat × Int))
    (rev : List Nat) (h : Nat), pend.map Prod.fst = silent_indices ps 0 →
    (decode_loop ps pend rev h).1 = silent_decoded ps rev ∧
    (decode_loop ps pend rev h).2 + ready_count ps = h + ready_count (silent_decoded ps rev) := by
  intro ps
  induction ps with
  | nil =>
    intro pend rev h hp
    simp only [silent_indices, List.map_eq_nil_iff] at hp
    subst hp
    exact ⟨rfl, rfl⟩
  | cons el rest ih =>
    intro pend rev h hp
    simp only [silent_indices] at hp
    by_cases hs : el.event = .PXSILENT
    · rw [if_pos hs] at hp
      cases pend with
      | nil => simp at hp
      | cons e pend =>
        simp only [List.map_cons, List.cons.injEq] at hp
        obtain ⟨hp1, hp2⟩ := pend_shift rest pend hp.2
        have hnr : ¬ el.event = .PXREADY := by rw [hs]; decide
        simp only [decode_loop, hp.1, set_event]
        rw [decode_loop_shift pend _ rest _ _ hp1]
        obtain ⟨i1, i2⟩ := ih _ rev.tail
          (h + if processx__poll_decode (rev.headD 0) = .PXREADY then 1 else 0) hp2
        refine ⟨by simp only [silent_decoded, hs, if_true, i1], ?_⟩
        have hx : ¬ (PollEvent.PXSILENT = PollEvent.PXREADY) := by decide
        simp only [silent_decoded, hs, if_true, ready_count_cons, hx, if_false]
        by_cases hd : processx__poll_decode (rev.headD 0) = .PXREADY
        · simp only [hd, if_true] at i2 ⊢
          omega
        · simp only [hd, if_false] at i2 ⊢
          omega
    · rw [if_neg hs] at hp
      obtain ⟨hp1, hp2⟩ := pend_shift rest pend hp
      rw [decode_loop_shift pend _ rest _ _ hp1]
      obtain ⟨i1, i2⟩ := ih _ rev h hp2
      refine ⟨by simp only [silent_decoded, hs, if_false, i1], ?_⟩
      simp only [silent_decoded, hs, if_false, ready_count_cons]
      omega

/-- The function `processx_c_connection_poll` after a first loop that did not
fail. -/
theorem poll_after_precheck {α : Type} (I : Int) (fuel : Nat) (p : Poller)
    (pollables ps : List (Pollable α)) (timeout : Int) (M : Nat) (pend : List (Nat × Int))
    (hne : pollables ≠ []) (hpre : poll_precheck pollables 0 = .ok (ps, M, pend)) :
    (pend = [] → processx_c_connection_poll I fuel p pollables timeout = (.ok (M, ps), p)) ∧
    (pend ≠ [] → ∀ (ret : Int) (rev : List Nat) (p1 : Poller),
      processx__interruptible_poll I fuel p (pend.map Prod.snd) (pend.map (fun _ => 0))
          (if M > 0 then 0 else timeout) = (.ok (ret, rev), p1) →
      (ret = -1 → processx_c_connection_poll I fuel p pollables timeout
        = (.error .poll_failed, p1)) ∧
      (ret = 0 → processx_c_connection_poll I fuel p pollables timeout
        = (.ok (M, if M = 0 then silent_timed_out ps else ps), p1)) ∧
      (ret ≠ -1 → ret ≠ 0 → processx_c_connection_poll I fuel p pollables timeout
        = (.ok (ready_count (silent_decoded ps rev), silent_decoded ps rev), p1))) ∧
    (pend ≠ [] →
      (processx_c_connection_poll I fuel p pollables timeout).2
        = (processx__interruptible_poll I fuel p (pend.map Prod.snd) (pend.map (fun _ => 0))
            (if M > 0 then 0 else timeout)).2) := by
  have hl : ¬ pollables.length = 0 := fun h => hne (List.eq_nil_of_length_eq_zero h)
  obtain ⟨_, hidx, hM, _⟩ := poll_precheck_spec pollables 0 ps M pend hpre
  refine ⟨?_, ?_, ?_⟩
  · intro h0
    unfold processx_c_connection_poll
    rw [if_neg hl, hpre]
    simp [h0]
  · intro h0 ret rev p1 hw
    have hpl : ¬ pend.length = 0 := fun h => h0 (List.eq_nil_of_length_eq_zero h)
    unfold processx_c_connection_poll
    rw [if_neg hl, hpre]
    simp only [hpl, if_false, hw]
    refine ⟨?_, ?_, ?_⟩
    · intro h1
      rw [if_pos h1]
    · intro h1
      have h2 : ¬ ret = -1 := by omega
      rw [if_neg h2, if_pos h1, mark_timeout_spec ps pend hidx]
    · intro h1 h2
      rw [if_neg h1, if_neg h2]
      obtain ⟨d1, d2⟩ := decode_loop_spec ps pend rev M hidx
      rw [d1]
      have : (decode_loop ps pend rev M).2 = ready_count (silent_decoded ps rev) := by omega
      rw [this]
  · intro h0
    have hpl : ¬ pend.length = 0 := fun h => h0 (List.eq_nil_of_length_eq_zero h)
    unfold processx_c_connection_poll
    rw [if_neg hl, hpre]
    simp only [hpl, if_false]
    rcases hw : processx__interruptible_poll I fuel p (pend.map Prod.snd)
      (pend.map (fun _ => 0)) (if M > 0 then 0 else timeout) with ⟨res, p1⟩
    cases res with
    | error f => rfl
    | ok r =>
      simp only
      split_ifs <;> rfl

/-- Decoding the events of the silent pollables loses no ready pollable. -/
theorem ready_count_silent_decoded {α : Type} : ∀ (ps : List (Pollable α)) (rev : List Nat),
    ready_count ps ≤ ready_count (silent_decoded ps rev) := by
  intro ps
  induction ps with
  | nil => intro rev; exact Nat.le_refl _
  | cons el rest ih =>
    intro rev
    simp only [silent_decoded]
    by_cases hs : el.event = .PXSILENT
    · have hx : ¬ (PollEvent.PXSILENT = PollEvent.PXREADY) := by decide
      have := ih rev.tail
      simp only [hs, if_true, ready_count_cons, hx, if_false]
      omega
    · have := ih rev
      simp only [hs, if_false, ready_count_cons]
      omega

/-- With no ready pollable, no pollable has the event `PXREADY`. -/
theorem ready_count_zero {α : Type} : ∀ (ps : List (Pollable α)), ready_count ps = 0 →
    ∀ el ∈ ps, el.event ≠ .PXREADY := by
  intro ps
  induction ps with
  | nil => intro _ el hel; simp at hel
  | cons x rest ih =>
    intro h el hel
    rw [ready_count_cons] at h
    rcases List.mem_cons.mp hel with rfl | hel
    · intro hr
      rw [if_pos hr] at h
      omega
    · exact ih (by omega) el hel

/-- A call of `processx__interruptible_poll` with timeout 0 makes `poll(2)`
calls with timeout 0 only, and no other call. -/
theorem interruptible_poll_zero (I : Int) (hI : 0 < I) (fuel : Nat) (p : Poller)
    (fds : List Int) (rev : List Nat) :
    ∃ new, (processx__interruptible_poll I fuel p fds rev 0).2.trace = p.trace ++ new ∧
      ∀ a ∈ new, a = PollAction.wait fds 0 := by
  unfold processx__interruptible_poll
  cases fuel with
  | zero => exact ⟨[], by simp [interruptible_loop], by simp⟩
  | succ fuel =>
    rw [interruptible_loop, if_neg (by omega), if_pos (le_refl 0)]
    obtain ⟨new, h1, h2⟩ := poll_retry_trace (fuel + 1) p fds 0
    rcases hr : poll_retry (fuel + 1) p fds 0 with ⟨o, p1⟩
    rw [hr] at h1
    cases o with
    | none => exact ⟨new, h1, h2⟩
    | some r => exact ⟨new, h1, h2⟩

/-- C26: `processx_c_connection_poll` (unix) when its first loop finds no
pollable ready and at least one silent, so that it waits.  If the wait
returns 0 (the timeout has passed), the call returns 0 and the pollables are
those of the first loop with `PXTIMEOUT` in place of every `PXSILENT`.  If the
wait returns a positive number, every silent pollable gets the decoding of its
`revents`, the others keep their event, and the call returns the number of
ready pollables.  The events of the first loop are those the `poll_func`
calls returned, none of them `PXTIMEOUT` and none `PXREADY`; an invalid
descriptor decodes to `PXCLOSED`, readable or hung up to `PXREADY`, and nothing
reported to `PXSILENT`. -/
theorem poll_marks_timeouts_and_decodes {α : Type} (I : Int) (fuel : Nat) (p p1 : Poller)
    (pollables ps : List (Pollable α)) (timeout ret : Int) (pend : List (Nat × Int))
    (rev : List Nat) (hne : pollables ≠ [])
    (hpre : poll_precheck pollables 0 = .ok (ps, 0, pend)) (hpend : pend ≠ [])
    (hw : processx__interruptible_poll I fuel p (pend.map Prod.snd) (pend.map (fun _ => 0))
      timeout = (.ok (ret, rev), p1)) :
    (ret = 0 → processx_c_connection_poll I fuel p pollables timeout
      = (.ok (0, silent_timed_out ps), p1)) ∧
    (ret ≠ -1 → ret ≠ 0 → processx_c_connection_poll I fuel p pollables timeout
      = (.ok (ready_count (silent_decoded ps rev), silent_decoded ps rev), p1)) ∧
    ps = pollables.map (fun el => { el with object := (el.poll_func el.object).2.1,
                                            event := (el.poll_func el.object).1 }) ∧
    (∀ el ∈ ps, el.event ≠ .PXTIMEOUT ∧ el.event ≠ .PXREADY) ∧
    (∀ code, code &&& POLLNVAL ≠ 0 → processx__poll_decode code = .PXCLOSED) ∧
    (∀ code, code &&& POLLNVAL = 0 → (code &&& POLLIN ≠ 0 ∨ code &&& POLLHUP ≠ 0) →
      processx__poll_decode code = .PXREADY) ∧
    (∀ code, code &&& POLLNVAL = 0 → code &&& POLLIN = 0 → code &&& POLLHUP = 0 →
      processx__poll_decode code = .PXSILENT) := by
  obtain ⟨_, h2, _⟩ := poll_after_precheck I fuel p pollables ps timeout 0 pend hne hpre
  obtain ⟨_, a2, a3⟩ := h2 hpend ret rev p1 (by simpa using hw)
  obtain ⟨s1, _, s3, s4⟩ := poll_precheck_spec pollables 0 ps 0 pend hpre
  refine ⟨fun h0 => by simpa using a2 h0, a3, s1, ?_, ?_, ?_, ?_⟩
  · intro el hel
    refine ⟨?_, ready_count_zero ps s3.symm el hel⟩
    rcases s4 el hel with h | h | h | h <;> rw [h] <;> decide
  · intro code h
    simp [processx__poll_decode, h]
  · intro code h1 h2
    simp only [processx__poll_decode, h1, ne_eq, not_true_eq_false, if_false]
    rw [if_pos h2]
  · intro code h1 h2 h3
    simp [processx__poll_decode, h1, h2, h3]

/-- C26 at concrete inputs: one connection with nothing buffered, polled for
100 ms; first the wait times out, then the system reports the descriptor
readable. -/
theorem poll_marks_timeouts_and_decodes_witness :
    processx_c_connection_poll 200 3 idle
        [processx_c_pollable_from_connection (sample_env 0) (sample_connection [] false)
          .PXSILENT] 100
      = (.ok (0, [processx_c_pollable_from_connection (sample_env 0)
            (sample_connection [] false) .PXTIMEOUT]),
          { idle with trace := [PollAction.wait [3] 100] }) ∧
    processx_c_connection_poll 200 3
        { script := [{ ret := 1, errno := 0, revents := [POLLIN] }],
          rest := { ret := 0, errno := 0, revents := [] }, trace := [] }
        [processx_c_pollable_from_connection (sample_env 0) (sample_connection [] false)
          .PXSILENT] 100
      = (.ok (1, [processx_c_pollable_from_connection (sample_env 0)
            (sample_connection [] false) .PXREADY]),
          { script := [], rest := { ret := 0, errno := 0, revents := [] },
            trace := [PollAction.wait [3] 100] }) :=
  ⟨(poll_marks_timeouts_and_decodes 200 3 idle { idle with trace := [PollAction.wait [3] 100] }
      [processx_c_pollable_from_connection (sample_env 0) (sample_connection [] false) .PXSILENT]
      [processx_c_pollable_from_connection (sample_env 0) (sample_connection [] false) .PXSILENT]
      100 0 [(0, 3)] [] (by simp) rfl (by simp) rfl).1 rfl,
    rfl⟩

/-- C24, as the code has it: two connections are polled with timeout 0.  The
first has decoded data, so one pollable is ready in the first loop; the second
has nothing buffered, and the system reports its descriptor readable.  The
call returns 2, not 1. -/
theorem poll_returns_more_than_the_ready_ones :
    (poll_precheck
        [processx_c_pollable_from_connection (sample_env 0) (sample_connection [0x61] false)
          .PXSILENT,
         processx_c_pollable_from_connection (sample_env 0)
          { sample_connection [] false with handle := 4 } .PXSILENT] 0).map (fun q => q.2.1)
      = .ok 1 ∧
    processx_c_connection_poll 200 3
        { script := [{ ret := 1, errno := 0, revents := [POLLIN] }],
          rest := { ret := 0, errno := 0, revents := [] }, trace := [] }
        [processx_c_pollable_from_connection (sample_env 0) (sample_connection [0x61] false)
          .PXSILENT,
         processx_c_pollable_from_connection (sample_env 0)
          { sample_connection [] false with handle := 4 } .PXSILENT] 0
      = (.ok (2, [processx_c_pollable_from_connection (sample_env 0)
            (sample_connection [0x61] false) .PXREADY,
          processx_c_pollable_from_connection (sample_env 0)
            { sample_connection [] false with handle := 4 } .PXREADY]),
          { script := [], rest := { ret := 0, errno := 0, revents := [] },
            trace := [PollAction.wait [4] 0] }) :=
  ⟨rfl, rfl⟩

/-- C24, amended: `processx_c_connection_poll` (unix) after a first loop that
found `M` pollables ready, `M` being the number of pollables whose `poll_func`
returned `PXREADY`.  With no silent pollable the call returns `M` and makes no
system call.  When `M > 0` or the timeout is 0, every system call of the wait
is a `poll(2)` call with timeout 0.  When the wait returns 0 the call returns
`M`; when it returns a positive number the call returns the number of
pollables that are ready after the decoding, which is at least `M`. -/
theorem poll_with_ready_pollables_does_not_block {α : Type} (I : Int) (hI : 0 < I) (fuel : Nat)
    (p : Poller) (pollables ps : List (Pollable α)) (timeout : Int) (M : Nat)
    (pend : List (Nat × Int)) (hne : pollables ≠ [])
    (hpre : poll_precheck pollables 0 = .ok (ps, M, pend)) :
    M = ready_count ps ∧
    ps = pollables.map (fun el => { el with object := (el.poll_func el.object).2.1,
                                            event := (el.poll_func el.object).1 }) ∧
    (pend = [] → processx_c_connection_poll I fuel p pollables timeout = (.ok (M, ps), p)) ∧
    (0 < M ∨ timeout = 0 →
      ∃ new, (processx_c_connection_poll I fuel p pollables timeout).2.trace = p.trace ++ new ∧
        ∀ a ∈ new, a = PollAction.wait (pend.map Prod.snd) 0) ∧
    (pend ≠ [] → ∀ (ret : Int) (rev : List Nat) (p1 : Poller),
      processx__interruptible_poll I fuel p (pend.map Prod.snd) (pend.map (fun _ => 0))
          (if M > 0 then 0 else timeout) = (.ok (ret, rev), p1) →
      (ret = 0 → (processx_c_connection_poll I fuel p pollables timeout).1.map Prod.fst
        = .ok M) ∧
      (ret ≠ -1 → ret ≠ 0 →
        (processx_c_connection_poll I fuel p pollables timeout).1
          = .ok (ready_count (silent_decoded ps rev), silent_decoded ps rev) ∧
        M ≤ ready_count (silent_decoded ps rev))) := by
  obtain ⟨s1, _, s3, _⟩ := poll_precheck_spec pollables 0 ps M pend hpre
  obtain ⟨a1, a2, a3⟩ := poll_after_precheck I fuel p pollables ps timeout M pend hne hpre
  refine ⟨s3, s1, a1, ?_, ?_⟩
  · intro h0
    by_cases hp : pend = []
    · rw [a1 hp]
      exact ⟨[], by simp, by simp⟩
    · rw [a3 hp]
      have ht : (if M > 0 then 0 else timeout) = 0 := by
        split_ifs with hM
        · rfl
        · rcases h0 with h0 | h0
          · exact absurd h0 hM
          · exact h0
      rw [ht]
      exact interruptible_poll_zero I hI fuel p _ _
  · intro hp ret rev p1 hw
    obtain ⟨_, b2, b3⟩ := a2 hp ret rev p1 hw
    refine ⟨fun h0 => by rw [b2 h0]; rfl, fun h1 h2 => ⟨by rw [b3 h1 h2], ?_⟩⟩
    rw [s3]
    exact ready_count_silent_decoded ps rev

/-- C24 (amended) at a concrete input: a connection with decoded data and one
with nothing buffered, polled with a timeout of 1000 ms; the wait is one
`poll(2)` call with timeout 0. -/
theorem poll_with_ready_pollables_does_not_block_witness :
    processx_c_connection_poll 200 3 idle
        [processx_c_pollable_from_connection (sample_env 0) (sample_connection [0x61] false)
          .PXSILENT,
         processx_c_pollable_from_connection (sample_env 0)
          { sample_connection [] false with handle := 4 } .PXSILENT] 1000
      = (.ok (1, [processx_c_pollable_from_connection (sample_env 0)
            (sample_connection [0x61] false) .PXREADY,
          processx_c_pollable_from_connection (sample_env 0)
            { sample_connection [] false with handle := 4 } .PXSILENT]),
          { idle with trace := [PollAction.wait [4] 0] }) ∧
    (1 : Nat) = ready_count
        [processx_c_pollable_from_connection (sample_env 0) (sample_connection [0x61] false)
          .PXREADY,
         processx_c_pollable_from_connection (sample_env 0)
          { sample_connection [] false with handle := 4 } .PXSILENT] :=
  ⟨rfl,
    (poll_with_ready_pollables_does_not_block 200 (by decide) 3 idle
      [processx_c_pollable_from_connection (sample_env 0) (sample_connection [0x61] false)
        .PXSILENT,
       processx_c_pollable_from_connection (sample_env 0)
        { sample_connection [] false with handle := 4 } .PXSILENT]
      [processx_c_pollable_from_connection (sample_env 0) (sample_connection [0x61] false)
        .PXREADY,
       processx_c_pollable_from_connection (sample_env 0)
        { sample_connection [] false with handle := 4 } .PXSILENT]
      1000 1 [(1, 4)] (by simp) rfl).1⟩

/-- A closed connection polls closed, whatever it holds. -/
theorem poll_func_closed (env : Env) (c : Connection) (h1 : c.is_closed_ = true) :
    processx_i_poll_func_connection env c = (.PXCLOSED, c, none) := by
  simp [processx_i_poll_func_connection, PROCESSX__I_POLL_FUNC_CONNECTION_READY, h1]

/-- An open connection with decoded data polls ready. -/
theorem poll_func_decoded_data (env : Env) (c : Connection) (h1 : c.is_closed_ = false)
    (h3 : c.utf8 ≠ []) :
    processx_i_poll_func_connection env c = (.PXREADY, c, none) := by
  have hlen : c.utf8.length > 0 := List.length_pos.mpr h3
  cases he : c.is_eof_ <;>
    simp [processx_i_poll_func_connection, PROCESSX__I_POLL_FUNC_CONNECTION_READY, h1, he, hlen]

/-- C22, as the code has it: a connection that has decoded data and has been
closed is polled.  The call returns 0 and the event is `PXCLOSED`, not
`PXREADY`. -/
theorem poll_of_closed_connection_with_data :
    (processx_c_connection_close (sample_connection [0x61] false)).1.utf8 = [0x61] ∧
    processx_c_connection_poll 200 3 idle
        [processx_c_pollable_from_connection (sample_env 0)
          (processx_c_connection_close (sample_connection [0x61] false)).1 .PXSILENT] 1000
      = (.ok (0, [processx_c_pollable_from_connection (sample_env 0)
            (processx_c_connection_close (sample_connection [0x61] false)).1 .PXCLOSED]),
          idle) :=
  ⟨rfl, rfl⟩

/-! ## Polling a set of pollables (Windows) -/

/-- C23, as the Windows code has it: connection 0 has "a" decoded
and a read pending, the state `processx__connection_read` leaves when it
starts a read that does not finish; connection 1 has nothing buffered.  The
completion packet of connection 0 is in the queue.  The first loop counts
pollable 0 as ready, the wait loop finds the packet, sets pollable 0 ready
again and counts it again: the call returns 2 with one pollable ready. -/
theorem win_poll_counts_a_ready_pollable_twice :
    Win.processx__connection_read (sample_env 0) Win.read_started []
        { Win.sample_pending [0x61] with read_pending := false }
      = .ok (Win.sample_pending [0x61], [], 0) ∧
    (Win.poll_precheck (sample_env 0) (fun _ => Win.read_started)
        [⟨some 0, .PXSILENT⟩, ⟨some 1, .PXSILENT⟩] 0
        [Win.sample_pending [0x61], Win.sample_silent 1]).map (fun q => (q.1, q.2.2))
      = .ok ([⟨some 0, .PXREADY⟩, ⟨some 1, .PXSILENT⟩], 1, [1]) ∧
    (Win.processx_c_connection_poll (sample_env 0) (fun _ => Win.read_started) 200 3
        [Win.sample_pending [0x61], Win.sample_silent 1] [.packet 0 [0x62]]
        [⟨some 0, .PXSILENT⟩, ⟨some 1, .PXSILENT⟩] 0).map (fun r => (r.1, r.2.1))
      = .ok (2, [⟨some 0, .PXREADY⟩, ⟨some 1, .PXSILENT⟩]) ∧
    Win.ready_count [⟨some 0, .PXREADY⟩, ⟨some 1, .PXSILENT⟩] = 1 :=
  ⟨rfl, rfl, rfl, rfl⟩

/-- C25, as the Windows code has it: connection 0 had a read pending when it
was closed, and the completion packet of that read, with no bytes, is in the
queue; connection 1 has nothing buffered.  The first loop sets pollable 0 to
`PXCLOSED`; the wait loop finds the packet and sets pollable 0 to `PXREADY`. -/
theorem win_poll_overwrites_a_closed_event :
    (Win.poll_precheck (sample_env 0) (fun _ => Win.read_started)
        [⟨some 0, .PXSILENT⟩, ⟨some 1, .PXSILENT⟩] 0
        [Win.processx_c_connection_close (Win.sample_pending []), Win.sample_silent 1]).map
          (fun q => (q.1, q.2.2))
      = .ok ([⟨some 0, .PXCLOSED⟩, ⟨some 1, .PXSILENT⟩], 0, [1]) ∧
    (Win.processx_c_connection_poll (sample_env 0) (fun _ => Win.read_started) 200 3
        [Win.processx_c_connection_close (Win.sample_pending []), Win.sample_silent 1]
        [.packet 0 []] [⟨some 0, .PXSILENT⟩, ⟨some 1, .PXSILENT⟩] 1000).map
          (fun r => (r.1, r.2.1))
      = .ok (1, [⟨some 0, .PXREADY⟩, ⟨some 1, .PXSILENT⟩]) :=
  ⟨rfl, rfl⟩

/-! ## The count and the resolved pollables (unix) -/

/-- Marking the silent pollables timed out changes no ready count. -/
theorem ready_count_silent_timed_out {α : Type} (ps : List (Pollable α)) :
    ready_count (silent_timed_out ps) = ready_count ps := by
  induction ps with
  | nil => rfl
  | cons el rest ih =>
    have ih' : (List.filter (fun el => decide (el.event = PollEvent.PXREADY))
        (silent_timed_out rest)).length
        = (List.filter (fun el => decide (el.event = PollEvent.PXREADY)) rest).length := ih
    by_cases h : el.event = .PXSILENT
    · simp [ready_count, silent_timed_out, List.filter_cons, h] at ih' ⊢
      exact ih'
    · by_cases h2 : el.event = .PXREADY
      · simp [ready_count, silent_timed_out, List.filter_cons, h, h2] at ih' ⊢
        exact ih'
      · simp [ready_count, silent_timed_out, List.filter_cons, h, h2] at ih' ⊢
        exact ih'

/-- Marking the silent pollables timed out leaves the other pollables. -/
theorem silent_timed_out_keeps {α : Type} (ps : List (Pollable α)) (i : Nat) (el : Pollable α)
    (h : ps[i]? = some el) (hs : el.event ≠ .PXSILENT) :
    (silent_timed_out ps)[i]? = some el := by
  simp [silent_timed_out, h, hs]

/-- Decoding for the silent pollables leaves the other pollables. -/
theorem silent_decoded_keeps {α : Type} : ∀ (ps : List (Pollable α)) (rev : List Nat) (i : Nat)
    (el : Pollable α), ps[i]? = some el → el.event ≠ .PXSILENT →
    (silent_decoded ps rev)[i]? = some el := by
  intro ps
  induction ps with
  | nil => intro rev i el h; simp at h
  | cons a rest ih =>
    intro rev i el h hs
    cases i with
    | zero =>
      simp at h
      subst h
      simp [silent_decoded, hs]
    | succ i =>
      simp at h
      by_cases ha : a.event = .PXSILENT
      · simp [silent_decoded, ha, ih rev.tail i el h hs]
      · simp [silent_decoded, ha, ih rev i el h hs]

/-- The function `processx_c_connection_poll` (unix), when it returns: the
value is the number of pollables whose event is `PXREADY`, and a pollable that
the first loop left with an event other than `PXSILENT` is as the first loop
left it. -/
theorem unix_poll_count_and_frame {α : Type} (I : Int) (fuel : Nat) (p p1 : Poller)
    (pollables final : List (Pollable α)) (timeout : Int) (n : Nat)
    (h : processx_c_connection_poll I fuel p pollables timeout = (.ok (n, final), p1)) :
    n = ready_count final ∧
    (pollables ≠ [] → ∃ ps M pend, poll_precheck pollables 0 = .ok (ps, M, pend) ∧
      ∀ (i : Nat) (el : Pollable α), ps[i]? = some el → el.event ≠ .PXSILENT →
        final[i]? = some el) := by
  by_cases hne : pollables = []
  · subst hne
    simp [processx_c_connection_poll] at h
    obtain ⟨⟨h1, h2⟩, _⟩ := h
    subst h1 h2
    exact ⟨rfl, fun h => absurd rfl h⟩
  · cases hpre : poll_precheck pollables 0 with
    | error f =>
      have hl : ¬ pollables.length = 0 := fun h => hne (List.eq_nil_of_length_eq_zero h)
      unfold processx_c_connection_poll at h
      rw [if_neg hl, hpre] at h
      simp at h
    | ok q =>
      obtain ⟨ps, M, pend⟩ := q
      obtain ⟨_, _, hM, _⟩ := poll_precheck_spec pollables 0 ps M pend hpre
      obtain ⟨a1, a2, _⟩ := poll_after_precheck I fuel p pollables ps timeout M pend hne hpre
      by_cases hp : pend = []
      · rw [a1 hp] at h
        simp at h
        obtain ⟨⟨h1, h2⟩, _⟩ := h
        subst h1 h2
        exact ⟨hM, fun _ => ⟨ps, M, pend, rfl, fun i el hi _ => hi⟩⟩
      · cases hw : processx__interruptible_poll I fuel p (pend.map Prod.snd)
            (pend.map (fun _ => 0)) (if M > 0 then 0 else timeout) with
        | mk res p2 =>
          cases res with
          | error f =>
            have hl : ¬ pollables.length = 0 := fun h => hne (List.eq_nil_of_length_eq_zero h)
            have hpl : ¬ pend.length = 0 := fun h => hp (List.eq_nil_of_length_eq_zero h)
            unfold processx_c_connection_poll at h
            rw [if_neg hl, hpre] at h
            simp only [hpl, if_false, hw] at h
            simp at h
          | ok r =>
            obtain ⟨ret, rev⟩ := r
            obtain ⟨b1, b2, b3⟩ := a2 hp ret rev p2 hw
            by_cases h1 : ret = -1
            · rw [b1 h1] at h
              simp at h
            · by_cases h0 : ret = 0
              · rw [b2 h0] at h
                simp at h
                obtain ⟨⟨e1, e2⟩, _⟩ := h
                subst e1
                by_cases hM0 : M = 0
                · rw [if_pos hM0] at e2
                  subst e2
                  refine ⟨by rw [ready_count_silent_timed_out]; exact hM,
                    fun _ => ⟨ps, M, pend, rfl, fun i el hi hs => ?_⟩⟩
                  exact silent_timed_out_keeps ps i el hi hs
                · rw [if_neg hM0] at e2
                  subst e2
                  exact ⟨hM, fun _ => ⟨ps, M, pend, rfl, fun i el hi _ => hi⟩⟩
              · rw [b3 h1 h0] at h
                simp at h
                obtain ⟨⟨e1, e2⟩, _⟩ := h
                subst e1 e2
                exact ⟨rfl, fun _ => ⟨ps, M, pend, rfl, fun i el hi hs =>
                  silent_decoded_keeps ps rev i el hi hs⟩⟩

/-- The unix function at a concrete input: a closed connection and one with
nothing buffered whose descriptor is reported readable. -/
theorem unix_poll_count_and_frame_example :
    processx_c_connection_poll 200 3
        { script := [{ ret := 1, errno := 0, revents := [POLLIN] }],
          rest := { ret := 0, errno := 0, revents := [] }, trace := [] }
        [processx_c_pollable_from_connection (sample_env 0)
          (processx_c_connection_close (sample_connection [0x61] false)).1 .PXSILENT,
         processx_c_pollable_from_connection (sample_env 0)
          { sample_connection [] false with handle := 4 } .PXSILENT] 1000
      = (.ok (1, [processx_c_pollable_from_connection (sample_env 0)
            (processx_c_connection_close (sample_connection [0x61] false)).1 .PXCLOSED,
          processx_c_pollable_from_connection (sample_env 0)
            { sample_connection [] false with handle := 4 } .PXREADY]),
          { script := [], rest := { ret := 0, errno := 0, revents := [] },
            trace := [PollAction.wait [4] 200] }) :=
  rfl

/-- An index among the silent ones belongs to a pollable whose event is
`PXSILENT`. -/
theorem mem_silent_indices {α : Type} : ∀ (ps : List (Pollable α)) (i j : Nat),
    j ∈ silent_indices ps i → ∃ k el, j = i + k ∧ ps[k]? = some el ∧ el.event = .PXSILENT := by
  intro ps
  induction ps with
  | nil => intro i j h; simp [silent_indices] at h
  | cons a rest ih =>
    intro i j h
    by_cases ha : a.event = .PXSILENT
    · simp only [silent_indices, ha, if_true, List.mem_cons] at h
      rcases h with h | h
      · exact ⟨0, a, by omega, by simp, ha⟩
      · obtain ⟨k, el, h1, h2, h3⟩ := ih (i + 1) j h
        exact ⟨k + 1, el, by omega, by simpa using h2, h3⟩
    · simp only [silent_indices, ha, if_false] at h
      obtain ⟨k, el, h1, h2, h3⟩ := ih (i + 1) j h
      exact ⟨k + 1, el, by omega, by simpa using h2, h3⟩

/-- The first loop hands no descriptor to the wait for a pollable whose
`poll_func` answers something other than `PXSILENT`. -/
theorem precheck_skips_resolved {α : Type} (pollables ps : List (Pollable α)) (M : Nat)
    (pend : List (Nat × Int)) (hpre : poll_precheck pollables 0 = .ok (ps, M, pend))
    (i : Nat) (el : Pollable α) (hi : pollables[i]? = some el)
    (hev : (el.poll_func el.object).1 ≠ .PXSILENT) :
    i ∉ pend.map Prod.fst ∧
    ps[i]? = some { el with object := (el.poll_func el.object).2.1,
                            event := (el.poll_func el.object).1 } := by
  obtain ⟨s1, s2, _, _⟩ := poll_precheck_spec pollables 0 ps M pend hpre
  have hps : ps[i]? = some { el with object := (el.poll_func el.object).2.1,
                                     event := (el.poll_func el.object).1 } := by
    rw [s1]
    simp [hi]
  refine ⟨?_, hps⟩
  intro hmem
  rw [s2] at hmem
  obtain ⟨k, el2, h1, h2, h3⟩ := mem_silent_indices ps 0 i hmem
  have hk : k = i := by omega
  subst hk
  rw [hps] at h2
  simp at h2
  subst h2
  exact hev h3

/-- C22, amended: polling a connection with `processx_c_connection_poll`
(unix).  Polled alone, a closed connection gives `PXCLOSED` and the return
value 0, whatever its buffers hold, and a connection that is not closed and has
a non-empty decoded buffer gives `PXREADY` and the return value 1; the
connection is as before and the system side is unchanged: no `poll(2)` call is
made.  Polled among other pollables, such a connection gets that event in the
first loop, its descriptor is not among those handed to `poll(2)`, and it has
that event, with the connection as before, when the call returns. -/
theorem poll_of_resolved_connection (I : Int) (fuel : Nat) (p : Poller) (env : Env)
    (c : Connection) (ev : PollEvent) (timeout : Int) :
    (c.is_closed_ = true →
      processx_c_connection_poll I fuel p [processx_c_pollable_from_connection env c ev]
          timeout
        = (.ok (0, [processx_c_pollable_from_connection env c .PXCLOSED]), p)) ∧
    (c.is_closed_ = false → c.utf8 ≠ [] →
      processx_c_connection_poll I fuel p [processx_c_pollable_from_connection env c ev]
          timeout
        = (.ok (1, [processx_c_pollable_from_connection env c .PXREADY]), p)) ∧
    (c.is_closed_ = true ∨ c.utf8 ≠ [] →
      ∀ (pollables ps : List (Pollable Connection)) (M : Nat) (pend : List (Nat × Int))
        (i : Nat),
        pollables[i]? = some (processx_c_pollable_from_connection env c ev) →
        poll_precheck pollables 0 = .ok (ps, M, pend) →
        i ∉ pend.map Prod.fst ∧
        ps[i]? = some (processx_c_pollable_from_connection env c
          (if c.is_closed_ then .PXCLOSED else .PXREADY)) ∧
        ∀ (n : Nat) (final : List (Pollable Connection)) (p1 : Poller),
          processx_c_connection_poll I fuel p pollables timeout = (.ok (n, final), p1) →
          final[i]? = some (processx_c_pollable_from_connection env c
            (if c.is_closed_ then .PXCLOSED else .PXREADY))) := by
  refine ⟨?_, ?_, ?_⟩
  · intro h1
    simp [processx_c_connection_poll, poll_precheck, processx_c_pollable_from_connection,
      poll_func_closed env c h1]
  · intro h1 h2
    simp [processx_c_connection_poll, poll_precheck, processx_c_pollable_from_connection,
      poll_func_decoded_data env c h1 h2]
  · intro hc pollables ps M pend i hi hpre
    have hf : processx_i_poll_func_connection env c
        = (if c.is_closed_ then .PXCLOSED else .PXREADY, c, none) := by
      cases h1 : c.is_closed_ with
      | true => simpa using poll_func_closed env c h1
      | false =>
        rcases hc with hc | hc
        · rw [h1] at hc; cases hc
        · simpa using poll_func_decoded_data env c h1 hc
    have hev : ((processx_c_pollable_from_connection env c ev).poll_func
        (processx_c_pollable_from_connection env c ev).object).1 ≠ .PXSILENT := by
      show (processx_i_poll_func_connection env c).1 ≠ .PXSILENT
      rw [hf]
      cases c.is_closed_ <;> simp
    obtain ⟨k1, k2⟩ := precheck_skips_resolved pollables ps M pend hpre i _ hi hev
    have k3 : ps[i]? = some (processx_c_pollable_from_connection env c
        (if c.is_closed_ then .PXCLOSED else .PXREADY)) := by
      rw [k2]
      show some { (processx_c_pollable_from_connection env c ev) with
        object := (processx_i_poll_func_connection env c).2.1,
        event := (processx_i_poll_func_connection env c).1 } = _
      rw [hf]
      rfl
    refine ⟨k1, k3, ?_⟩
    intro n final p1 hpoll
    have hne : pollables ≠ [] := by
      intro h
      subst h
      simp at hi
    obtain ⟨_, hframe⟩ := unix_poll_count_and_frame I fuel p p1 pollables final timeout n hpoll
    obtain ⟨ps2, M2, pend2, hpre2, hkeep⟩ := hframe hne
    rw [hpre] at hpre2
    simp at hpre2
    obtain ⟨e1, _, _⟩ := hpre2
    subst e1
    apply hkeep i _ k3
    show (if c.is_closed_ then PollEvent.PXCLOSED else PollEvent.PXREADY) ≠ .PXSILENT
    cases c.is_closed_ <;> simp

/-- C22 (amended) at concrete inputs: an open connection with decoded data, and
a closed one. -/
theorem poll_of_resolved_connection_witness :
    processx_c_connection_poll 200 3 idle
        [processx_c_pollable_from_connection (sample_env 0) (sample_connection [0x61] false)
          .PXSILENT] 1000
      = (.ok (1, [processx_c_pollable_from_connection (sample_env 0)
            (sample_connection [0x61] false) .PXREADY]), idle) ∧
    processx_c_connection_poll 200 3 idle
        [processx_c_pollable_from_connection (sample_env 0)
          (processx_c_connection_close (sample_connection [] false)).1 .PXSILENT] 1000
      = (.ok (0, [processx_c_pollable_from_connection (sample_env 0)
            (processx_c_connection_close (sample_connection [] false)).1 .PXCLOSED]), idle) :=
  ⟨(poll_of_resolved_connection 200 3 idle (sample_env 0) (sample_connection [0x61] false)
      .PXSILENT 1000).2.1 rfl (by decide),
    (poll_of_resolved_connection 200 3 idle (sample_env 0)
      (processx_c_connection_close (sample_connection [] false)).1 .PXSILENT 1000).1 rfl⟩

/-! ## The end-of-file flags on Windows -/

/-- C12, as the Windows code has it: a pipe delivers "éb", the first read
ending inside "é".  The raw read that gets the byte `C3` sets `is_eof_raw_`
although the stream goes on; the next raw read gets `A9` and decodes "é";
`read_chars` returns "é", with no raw read, and leaves both buffers empty; the
check before polling starts a read and answers `PXSILENT`; the next raw read
finds `is_eof_raw_` set and both buffers empty and sets `is_eof_`, with the
read still pending.  When a later `processx_c_connection_poll` call, made for
another connection, dequeues the packet of that read, with the byte "b", the
connection has `is_eof_` set and a decoded buffer that is not empty. -/
theorem win_packet_after_eof_breaks_the_invariant :
    Win.processx__connection_read utf8_env Win.read_started [.completion true [0xc3]]
        (Win.processx_c_connection_create 3 .ASYNCPIPE none)
      = .ok (Win.sample_open [0xc3] [] true false false, [], 0) ∧
    Win.processx__connection_read utf8_env Win.read_started [.completion true [0xa9]]
        (Win.sample_open [0xc3] [] true false false)
      = .ok (Win.sample_open [] [0xc3, 0xa9] true false false, [], 2) ∧
    processx_connection_read_chars utf8_env (Win.sample_open [] [0xc3, 0xa9] true false false).con
        quiet 1
      = .ok ([0xc3, 0xa9], (Win.sample_open [] [] true false false).con, quiet) ∧
    Win.processx_i_poll_func_connection utf8_env Win.read_started
        (Win.sample_open [] [] true false false)
      = .ok (.PXSILENT, Win.sample_open [] [] true false true, some 7) ∧
    Win.processx__connection_read utf8_env Win.read_started []
        (Win.sample_open [] [] true false true)
      = .ok (Win.sample_open [] [] true true true, [], 0) ∧
    eof_invariant (Win.sample_open [] [] true true true).con ∧
    (Win.processx_c_connection_poll utf8_env (fun _ => Win.read_started) 200 3
        [Win.sample_open [] [] true true true, Win.sample_silent 0] [.packet 0 [0x62]]
        [⟨some 1, .PXSILENT⟩] 0).map (fun r => (r.1, r.2.1, r.2.2.1[0]?))
      = .ok (0, [⟨some 1, .PXTIMEOUT⟩], some (Win.sample_open [] [0x62] true true false)) ∧
    (Win.sample_open [] [0x62] true true false).con.is_eof_ = true ∧
    (Win.sample_open [] [0x62] true true false).con.utf8 = [0x62] ∧
    ¬ eof_invariant (Win.sample_open [] [0x62] true true false).con :=
  ⟨rfl, rfl, rfl, rfl, rfl, (by intro _; exact ⟨rfl, rfl, rfl⟩), rfl, rfl, rfl,
    (by intro h; have h2 := (h rfl).2.2; cases h2)⟩

end Processx
